import Mathlib

/-!
# gr-eventstream: the `es_source` block

A shallow embedding of `src/lib/es_source.cc`: the constructor, `time`, `set_max` and
`work`, with the arithmetic of `work` carried out on C++ machine integers
(`int` is 32 bits and two's complement, `unsigned long long` is 64 bits). A byte count or
byte offset that the code computes as a product of two `int`s is an `int`: it is reduced to
the 32-bit range like every other `int`.

Memory is explicit: an output stream buffer and a temporary buffer are lists of bytes,
and a store or load that leaves the buffer is reported as a `Fault` instead of being
given a meaning.
-/

namespace EsSource

/-! ## Machine integers -/

/-- Conversion of an integer value to `int`: reduction to the 32-bit two's-complement range. -/
def toInt32 (x : Int) : Int := (x + 2147483648) % 4294967296 - 2147483648

/-- Conversion of an integer value to `unsigned long long`: reduction modulo `2^64`. -/
def toU64 (x : Int) : Nat := (x % 18446744073709551616).toNat

/-- Conversion of an integer value to `unsigned int`: reduction modulo `2^32`. -/
def toU32 (x : Int) : Nat := (x % 4294967296).toNat

/-- The constant `ULLONG_MAX` of `<climits>`, `2^64 - 1`. -/
def ULLONG_MAX : Nat := 18446744073709551615

/-! ## Events, the queue and the output signature -/

/-- Modelled from the spec: the event/handler pair `es_eh_pair` handed out by the queue; its class
is declared outside `src/`. `time` is the spec's `startTime: u64`, `length` its `length: u64`
(samples per channel), `accepter` records whether the bound handler passes
`pmt_is_msg_accepter`, and `render` lists, per channel, the bytes that `run()` stores through
the buffer pointer registered for that channel, from the pointer's first byte onwards. -/
structure es_eh_pair where
  time : Nat
  length : Nat
  accepter : Bool
  render : List (List Nat)
deriving DecidableEq

/-- What can stop `work` before it returns. `assert_accepter` is the failed
`assert( pmt_is_msg_accepter( eh->handler ) )`; `bad_alloc` is `new uint8_t[bufsize]` with a
negative size; `out_of_bounds` is a store or load outside the buffer it addresses;
`unfinished` marks a fetch loop that is still retrieving events when the model stops
unrolling it. -/
inductive Fault where
  | assert_accepter
  | bad_alloc
  | out_of_bounds
  | unfinished
deriving DecidableEq

/-- Modelled from the spec: the window test of `fetchNextEvent(minTime, maxTime)`, time in
`[minTime, maxTime)`. -/
def in_window (min_time max_time : Nat) (e : es_eh_pair) : Bool :=
  decide (min_time ≤ e.time) && decide (e.time < max_time)

/-- Modelled from the spec: the earliest pending event whose time lies in the window (the first
such event among equals); `es_queue` is not under `src/`. -/
def earliest (min_time max_time : Nat) : List es_eh_pair → Option es_eh_pair
  | [] => none
  | e :: es =>
    if in_window min_time max_time e then
      match earliest min_time max_time es with
      | some m => if m.time < e.time then some m else some e
      | none => some e
    else earliest min_time max_time es

/-- Modelled from the spec: `es_queue::fetch_next_event2`, "removes and returns the earliest pending
Event whose time lies in `[minTime, maxTime)`, or signals none-available". -/
def fetch_next_event2 (q : List es_eh_pair) (min_time max_time : Nat) :
    Option (es_eh_pair × List es_eh_pair) :=
  match earliest min_time max_time q with
  | none => none
  | some e => some (e, q.erase e)

/-- Modelled from the spec: `es_queue::add_event`, "inserts an Event, maintaining time order for
future retrieval": the event goes in front of the first queued event that is strictly later. -/
def add_event : List es_eh_pair → es_eh_pair → List es_eh_pair
  | [], e => [e]
  | x :: xs, e => if e.time < x.time then e :: x :: xs else x :: add_event xs e

/-- Modelled from the spec: `d_output_signature->sizeof_stream_item(i)`, the spec's
`itemSize(channel)`; the signature is the list of item sizes the block was made with. -/
def sizeof_stream_item (sig : List Nat) (i : Nat) : Int := (sig.getD i 0 : Nat)

/-! ## Buffers -/

/-- Writing the bytes `src` into `buf` from byte offset `off`. -/
def store (buf : List Nat) (off : Int) (src : List Nat) : Except Fault (List Nat) :=
  if 0 ≤ off ∧ off.toNat + src.length ≤ buf.length then
    .ok (buf.take off.toNat ++ src ++ buf.drop (off.toNat + src.length))
  else .error .out_of_bounds

/-- Reading `len` bytes of `buf` from byte offset `off`. -/
def load (buf : List Nat) (off len : Int) : Except Fault (List Nat) :=
  if 0 ≤ off ∧ 0 ≤ len ∧ off.toNat + len.toNat ≤ buf.length then
    .ok ((buf.drop off.toNat).take len.toNat)
  else .error .out_of_bounds

/-- The call `memset(p, 0x00, len)` on the buffer `p` points to. -/
def memset (buf : List Nat) (len : Int) : Except Fault (List Nat) :=
  if 0 ≤ len then store buf 0 (List.replicate len.toNat 0) else .error .out_of_bounds

/-- The expression `new uint8_t[bufsize]`: the bytes of a fresh array are whatever the heap
holds, given by `heap`. -/
def new_uint8 (heap : Nat → Nat) (bufsize : Int) : Except Fault (List Nat) :=
  if 0 ≤ bufsize then .ok ((List.range bufsize.toNat).map heap) else .error .bad_alloc

/-- A loop `for(int i=0; i<output_items.size(); i++)` whose body `f i b` works on the i-th
buffer `b` of a vector; `i` is the index of the head of the list. -/
def forChannels {α : Type} (f : Nat → List Nat → Except Fault α) :
    Nat → List (List Nat) → Except Fault (List α)
  | _, [] => .ok []
  | i, b :: bs =>
    match f i b with
    | .error e => .error e
    | .ok x =>
      match forChannels f (i + 1) bs with
      | .error e => .error e
      | .ok xs => .ok (x :: xs)

/-! ## The body of the fetch loop of `es_source::work` -/

/-- Line 139: `int buffer_offset = eh->time() - d_time;`. -/
def buffer_offset (d_time : Nat) (eh : es_eh_pair) : Int :=
  toInt32 (toU64 ((eh.time : Int) - d_time))

/-- Line 150: `int buffer_event_max = eh->length()+buffer_offset;`. -/
def buffer_event_max (d_time : Nat) (eh : es_eh_pair) : Int :=
  toInt32 (toU64 ((eh.length : Int) + buffer_offset d_time eh))

/-- Lines 151-156: `use_inplace_buffer` stays `true` unless
`buffer_event_max >= noutput_items`. -/
def use_inplace_buffer (noutput_items : Int) (d_time : Nat) (eh : es_eh_pair) : Bool :=
  !decide (buffer_event_max d_time eh ≥ noutput_items)

/-- Line 200: `int usable_items = noutput_items - buffer_offset;` (a difference of two `int`s
that leaves the `int` range is wrapped). -/
def usable_items (noutput_items : Int) (d_time : Nat) (eh : es_eh_pair) : Int :=
  toInt32 (noutput_items - buffer_offset d_time eh)

/-- Line 201: `int leftover_items = eh->length() - usable_items;`. -/
def leftover_items (noutput_items : Int) (d_time : Nat) (eh : es_eh_pair) : Int :=
  toInt32 (toU64 ((eh.length : Int) - usable_items noutput_items d_time eh))

/-- Lines 179-180: `int bufsize = itemsize * eh->length();`. -/
def bufsize (sig : List Nat) (eh : es_eh_pair) (i : Nat) : Int :=
  toInt32 (toU64 (sizeof_stream_item sig i * eh.length))

/-- Lines 161-172, the in-place branch: channel `i` is bound at byte offset
`sizeof_stream_item(i) * buffer_offset` of `output_items[i]` and `run()` stores there. The
offset is a product of two `int`s, so an `int`, added to the address as a signed value. -/
def in_place (sig : List Nat) (d_time : Nat) (eh : es_eh_pair) (output_items : List (List Nat)) :
    Except Fault (List (List Nat)) :=
  forChannels
    (fun i b => store b (toInt32 (sizeof_stream_item sig i * buffer_offset d_time eh))
      (eh.render.getD i []))
    0 output_items

/-- Lines 204-209: the `memcpy` of the first `usable_items` items of temporary buffer `i`
to `output_items[i]` at byte offset `buffer_offset * sizeof_stream_item(i)`; the offset and
the byte count `usable_items * sizeof_stream_item(i)` are products of two `int`s, and a
negative count, converted to `size_t`, is larger than any buffer. -/
def copy_usable (sig : List Nat) (noutput_items : Int) (d_time : Nat) (eh : es_eh_pair)
    (bufs : List (List Nat)) (i : Nat) (b : List Nat) : Except Fault (List Nat) :=
  match load (bufs.getD i []) 0
      (toInt32 (usable_items noutput_items d_time eh * sizeof_stream_item sig i)) with
  | .error f => .error f
  | .ok first => store b (toInt32 (buffer_offset d_time eh * sizeof_stream_item sig i)) first

/-- Lines 213-219: `pmt_init_u8vector( sizeof_stream_item(i) * leftover_items,
bufs[i] + usable_items*sizeof_stream_item(i) )`, both arguments products of two `int`s. -/
def leftover_vector (sig : List Nat) (noutput_items : Int) (d_time : Nat) (eh : es_eh_pair)
    (i : Nat) (buf : List Nat) : Except Fault (List Nat) :=
  load buf (toInt32 (usable_items noutput_items d_time eh * sizeof_stream_item sig i))
    (toInt32 (sizeof_stream_item sig i * leftover_items noutput_items d_time eh))

/-- Modelled from the spec: `event_create_gen_vector(time, vectors, signature)`, which is not under
`src/`. Following the spec, the `leftover` samples "are packaged into a new Holdover Event
with `startTime = event.startTime + usable` and the same handler-compatible payload shape":
the event carries `length` samples per channel, and its handler is the
`es_handler_insert_vector` that the constructor bound to the vector event types, whose `run()`
stores the payload vectors. -/
def event_create_gen_vector (time : Nat) (vectors : List (List Nat)) (length : Nat) :
    es_eh_pair :=
  { time := time, length := length, accepter := true, render := vectors }

/-- Lines 176-230, the out-of-place branch: temporary buffers are allocated, `run()` stores
into them, the first `usable_items` items go to the output and the rest becomes the payload
of a hold-over event at time `eh->time() + usable_items`, which is added to the queue by the
caller of this function. -/
def out_of_place (heap : Nat → Nat) (sig : List Nat) (noutput_items : Int) (d_time : Nat)
    (eh : es_eh_pair) (output_items : List (List Nat)) :
    Except Fault (List (List Nat) × es_eh_pair) :=
  match forChannels (fun i _ => new_uint8 heap (bufsize sig eh i)) 0 output_items with
  | .error f => .error f
  | .ok fresh =>
    match forChannels (fun i b => store b 0 (eh.render.getD i [])) 0 fresh with
    | .error f => .error f
    | .ok bufs =>
      match forChannels (copy_usable sig noutput_items d_time eh bufs) 0 output_items with
      | .error f => .error f
      | .ok out =>
        match forChannels (leftover_vector sig noutput_items d_time eh) 0 bufs with
        | .error f => .error f
        | .ok vectors =>
          .ok (out, event_create_gen_vector
            (toU64 ((eh.time : Int) + usable_items noutput_items d_time eh)) vectors
            (leftover_items noutput_items d_time eh).toNat)

/-- Lines 139-232: one pass through the body of the `while` loop for the retrieved pair
`eh`. The result is the output buffers and the hold-over event to add, if any. -/
def handle_event (heap : Nat → Nat) (sig : List Nat) (noutput_items : Int) (d_time : Nat)
    (eh : es_eh_pair) (output_items : List (List Nat)) :
    Except Fault (List (List Nat) × Option es_eh_pair) :=
  if eh.accepter = false then .error .assert_accepter
  else if use_inplace_buffer noutput_items d_time eh then
    match in_place sig d_time eh output_items with
    | .error f => .error f
    | .ok out => .ok (out, none)
  else
    match out_of_place heap sig noutput_items d_time eh output_items with
    | .error f => .error f
    | .ok (out, holdover) => .ok (out, some holdover)

/-! ## The block -/

/-- The members of `es_source` that `work` reads and writes. -/
structure es_source where
  d_time : Nat
  d_maxlen : Nat
  event_queue : List es_eh_pair
  d_output_signature : List Nat
deriving DecidableEq

/-- Lines 71-94, the constructor: `d_maxlen(ULLONG_MAX)` and `d_time = 0`. -/
def es_source.make (queue : List es_eh_pair) (out_sig : List Nat) : es_source :=
  { d_time := 0, d_maxlen := ULLONG_MAX, event_queue := queue, d_output_signature := out_sig }

/-- Lines 64-66: `es_source::time`. -/
def es_source.time (s : es_source) : Nat := s.d_time

/-- Lines 97-99: `es_source::set_max`. -/
def es_source.set_max (s : es_source) (maxlen : Nat) : es_source :=
  { s with d_maxlen := maxlen }

/-- Lines 129-234: the `while( event_queue->fetch_next_event2( min_time, max_time, &eh ) )`
loop, unrolled at most `fuel` times; a fetch that succeeds hands out a pair, so the
`eh == NULL` branch of lines 134-137 is never entered. -/
def fetch_loop (heap : Nat → Nat) (sig : List Nat) (noutput_items : Int) (d_time : Nat)
    (max_time : Nat) : Nat → List es_eh_pair → List (List Nat) →
    Except Fault (List es_eh_pair × List (List Nat))
  | 0, q, out =>
    match fetch_next_event2 q d_time max_time with
    | none => .ok (q, out)
    | some _ => .error .unfinished
  | fuel + 1, q, out =>
    match fetch_next_event2 q d_time max_time with
    | none => .ok (q, out)
    | some (eh, rest) =>
      match handle_event heap sig noutput_items d_time eh out with
      | .error f => .error f
      | .ok (out1, none) => fetch_loop heap sig noutput_items d_time max_time fuel rest out1
      | .ok (out1, some holdover) =>
        fetch_loop heap sig noutput_items d_time max_time fuel (add_event rest holdover) out1

/-- Line 237: `(unsigned int) std::min((unsigned long long)noutput_items, d_maxlen - d_time)`,
stored back into the `int noutput_items`. -/
def produced (noutput_items : Int) (d_maxlen d_time : Nat) : Int :=
  toInt32 (toU32 (min (toU64 noutput_items) (toU64 ((d_maxlen : Int) - d_time))))

/-- Lines 108-241: `es_source::work`. The result is the block after the call, the output
buffers and the returned item count. The fetch loop is unrolled once per queued event. The
byte count of the `memset` on line 126, `noutput_items*sizeof_stream_item(i)`, is a product of
two `int`s. -/
def work (heap : Nat → Nat) (s : es_source) (noutput_items : Int)
    (output_items : List (List Nat)) : Except Fault (es_source × List (List Nat) × Int) :=
  let max_time := toU64 ((s.d_time : Int) + noutput_items)
  match forChannels
      (fun i b => memset b (toInt32 (noutput_items * sizeof_stream_item s.d_output_signature i)))
      0 output_items with
  | .error f => .error f
  | .ok zeroed =>
    match fetch_loop heap s.d_output_signature noutput_items s.d_time max_time
        s.event_queue.length s.event_queue zeroed with
    | .error f => .error f
    | .ok (q, out) =>
      let n := produced noutput_items s.d_maxlen s.d_time
      .ok ({ s with d_time := toU64 ((s.d_time : Int) + n), event_queue := q }, out, n)

/-! ## Sequences of calls -/

/-- One call of `work` by the host: the events other blocks added to the queue since the
previous call, the requested `noutput_items` and the output buffers handed in. -/
structure WorkCall where
  added : List es_eh_pair
  noutput_items : Int
  output_items : List (List Nat)

/-- A run of `work` calls with no `set_max` in between; the result is the block after the last
call and the item counts returned, in call order. -/
def work_calls (heap : Nat → Nat) : es_source → List WorkCall → Except Fault (es_source × List Int)
  | s, [] => .ok (s, [])
  | s, c :: cs =>
    match work heap { s with event_queue := c.added.foldl add_event s.event_queue }
        c.noutput_items c.output_items with
    | .error f => .error f
    | .ok (s1, _, r) =>
      match work_calls heap s1 cs with
      | .error f => .error f
      | .ok (s2, rs) => .ok (s2, r :: rs)

/-- The blocks that a freshly constructed `es_source` can become through `set_max` calls and
returning `work` calls with `0 < noutput_items`. -/
inductive Reachable (heap : Nat → Nat) : es_source → Prop where
  | make (queue : List es_eh_pair) (out_sig : List Nat) :
      Reachable heap (es_source.make queue out_sig)
  | set_max (s : es_source) (maxlen : Nat) :
      Reachable heap s → maxlen ≤ ULLONG_MAX → Reachable heap (s.set_max maxlen)
  | work (s s1 : es_source) (n r : Int) (out out1 : List (List Nat)) :
      Reachable heap s → 0 < n → n < 2147483648 →
      work heap s n out = .ok (s1, out1, r) → Reachable heap s1

/-- The bytes `buf[off], …, buf[off + len - 1]` of a buffer. -/
def slice (buf : List Nat) (off len : Nat) : List Nat := (buf.drop off).take len

/-- Lines 129-234: the passes of the `while` loop of `fetch_loop`, in order: the pair each pass
fetched and the hold-over event the pass added to the queue, if any. The recursion is that
of `fetch_loop`; a pass that stops on a fault is not listed. -/
def fetch_passes (heap : Nat → Nat) (sig : List Nat) (noutput_items : Int) (d_time : Nat)
    (max_time : Nat) : Nat → List es_eh_pair → List (List Nat) →
    List (es_eh_pair × Option es_eh_pair)
  | 0, _, _ => []
  | fuel + 1, q, out =>
    match fetch_next_event2 q d_time max_time with
    | none => []
    | some (eh, rest) =>
      match handle_event heap sig noutput_items d_time eh out with
      | .error _ => []
      | .ok (out1, none) =>
        (eh, none) :: fetch_passes heap sig noutput_items d_time max_time fuel rest out1
      | .ok (out1, some holdover) =>
        (eh, some holdover) ::
          fetch_passes heap sig noutput_items d_time max_time fuel (add_event rest holdover) out1

/-- The passes of the fetch loop in a call of `work`: the loop of `work`, on the zeroed
buffers. -/
def work_passes (heap : Nat → Nat) (s : es_source) (noutput_items : Int)
    (output_items : List (List Nat)) : List (es_eh_pair × Option es_eh_pair) :=
  match forChannels
      (fun i b => memset b (toInt32 (noutput_items * sizeof_stream_item s.d_output_signature i)))
      0 output_items with
  | .error _ => []
  | .ok zeroed =>
    fetch_passes heap s.d_output_signature noutput_items s.d_time
      (toU64 ((s.d_time : Int) + noutput_items)) s.event_queue.length s.event_queue zeroed

/-- One pass of the `while` loop of lines 129-234: the pair fetched, the output buffers before
and after the pass, and the hold-over event the pass added to the queue, if any. -/
structure Pass where
  eh : es_eh_pair
  before : List (List Nat)
  after : List (List Nat)
  holdover : Option es_eh_pair

/-- Lines 129-234: the passes of the `while` loop of `fetch_loop`, in order, each with the
output buffers it started on and the output buffers it left. The recursion is that of
`fetch_loop`; a pass that stops on a fault is not listed. -/
def fetch_trace (heap : Nat → Nat) (sig : List Nat) (noutput_items : Int) (d_time : Nat)
    (max_time : Nat) : Nat → List es_eh_pair → List (List Nat) → List Pass
  | 0, _, _ => []
  | fuel + 1, q, out =>
    match fetch_next_event2 q d_time max_time with
    | none => []
    | some (eh, rest) =>
      match handle_event heap sig noutput_items d_time eh out with
      | .error _ => []
      | .ok (out1, none) =>
        ⟨eh, out, out1, none⟩ :: fetch_trace heap sig noutput_items d_time max_time fuel rest out1
      | .ok (out1, some holdover) =>
        ⟨eh, out, out1, some holdover⟩ ::
          fetch_trace heap sig noutput_items d_time max_time fuel (add_event rest holdover) out1

/-- The passes of the fetch loop in a call of `work`, with their buffers: the loop of `work`,
on the zeroed buffers. -/
def work_trace (heap : Nat → Nat) (s : es_source) (noutput_items : Int)
    (output_items : List (List Nat)) : List Pass :=
  match forChannels
      (fun i b => memset b (toInt32 (noutput_items * sizeof_stream_item s.d_output_signature i)))
      0 output_items with
  | .error _ => []
  | .ok zeroed =>
    fetch_trace heap s.d_output_signature noutput_items s.d_time
      (toU64 ((s.d_time : Int) + noutput_items)) s.event_queue.length s.event_queue zeroed

/-- The output buffers that a run of passes started on `out` ends with. -/
def final_buffers (out : List (List Nat)) : List Pass → List (List Nat)
  | [] => out
  | p :: ps => final_buffers p.after ps

/-- Every pass of a run starts on the buffers the pass before it left, the first pass on
`out`. -/
def chained (out : List (List Nat)) : List Pass → Bool
  | [] => true
  | p :: ps => decide (p.before = out) && chained p.after ps

/-! ## Machine arithmetic -/

theorem toInt32_toU64 (x : Int) : toInt32 (toU64 x) = toInt32 x := by
  unfold toInt32 toU64; omega

theorem toInt32_of_range (x : Int) (h1 : -2147483648 ≤ x) (h2 : x < 2147483648) :
    toInt32 x = x := by
  unfold toInt32; omega

theorem toU64_of_range (x : Int) (h1 : 0 ≤ x) (h2 : x < 18446744073709551616) :
    (toU64 x : Int) = x := by
  unfold toU64; omega

/-- A product of an `int` between 0 and `n` and an item size is exact when `n * s` fits the
`int`. -/
theorem int_product_exact (a n : Int) (s : Nat) (h0 : 0 ≤ a) (h1 : a ≤ n)
    (hfit : n * (s : Int) < 2147483648) : toInt32 (a * (s : Int)) = a * (s : Int) := by
  have hs : (0 : Int) ≤ s := Int.ofNat_nonneg s
  have h2 : 0 ≤ a * (s : Int) := mul_nonneg h0 hs
  have h3 : a * (s : Int) ≤ n * (s : Int) := mul_le_mul_of_nonneg_right h1 hs
  exact toInt32_of_range _ (by linarith) (by linarith)

/-- An event the queue hands out for the window of a call with `0 < noutput_items` starts at
or after the cursor, and the window's upper bound did not wrap. -/
theorem window_exact (n : Int) (d_time : Nat) (eh : es_eh_pair)
    (hn0 : 0 < n) (hn1 : n < 2147483648) (ht : d_time ≤ ULLONG_MAX)
    (hwin : in_window d_time (toU64 ((d_time : Int) + n)) eh = true) :
    d_time ≤ eh.time ∧ (eh.time : Int) < d_time + n ∧
      (toU64 ((d_time : Int) + n) : Int) = d_time + n := by
  simp only [in_window, Bool.and_eq_true, decide_eq_true_eq] at hwin
  unfold ULLONG_MAX at ht
  unfold toU64 at hwin ⊢
  omega

/-- Inside the window the `int buffer_offset` is the exact distance from the cursor. -/
theorem buffer_offset_exact (n : Int) (d_time : Nat) (eh : es_eh_pair)
    (hn1 : n < 2147483648) (h1 : d_time ≤ eh.time) (h2 : (eh.time : Int) < d_time + n) :
    buffer_offset d_time eh = (eh.time : Int) - d_time := by
  unfold buffer_offset toInt32 toU64
  omega

/-- Inside the window `usable_items` is `noutput_items - (time - d_time)`, between 1 and
`noutput_items`. -/
theorem usable_items_exact (n : Int) (d_time : Nat) (eh : es_eh_pair)
    (hn1 : n < 2147483648) (h1 : d_time ≤ eh.time) (h2 : (eh.time : Int) < d_time + n) :
    usable_items n d_time eh = n - ((eh.time : Int) - d_time) := by
  unfold usable_items
  rw [buffer_offset_exact n d_time eh hn1 h1 h2]
  unfold toInt32
  omega

/-- Byte offsets inside the window: where `noutput_items * s_i` fits the `int`, the `int`
`buffer_offset * sizeof_stream_item(i)` is the natural number `(time - d_time) * s_i`. -/
theorem byte_offset_exact_comm (sig : List Nat) (n : Int) (d_time i : Nat) (eh : es_eh_pair)
    (hn1 : n < 2147483648) (h1 : d_time ≤ eh.time) (h2 : (eh.time : Int) < d_time + n)
    (hfit : n * ((sig.getD i 0 : Nat) : Int) < 2147483648) :
    toInt32 (buffer_offset d_time eh * sizeof_stream_item sig i) =
      (((eh.time - d_time) * sig.getD i 0 : Nat) : Int) := by
  rw [buffer_offset_exact n d_time eh hn1 h1 h2]
  unfold sizeof_stream_item
  rw [int_product_exact _ n _ (by omega) (by omega) hfit]
  push_cast [Nat.cast_sub h1]
  ring

theorem byte_offset_exact (sig : List Nat) (n : Int) (d_time i : Nat) (eh : es_eh_pair)
    (hn1 : n < 2147483648) (h1 : d_time ≤ eh.time) (h2 : (eh.time : Int) < d_time + n)
    (hfit : n * ((sig.getD i 0 : Nat) : Int) < 2147483648) :
    toInt32 (sizeof_stream_item sig i * buffer_offset d_time eh) =
      (((eh.time - d_time) * sig.getD i 0 : Nat) : Int) := by
  rw [mul_comm (sizeof_stream_item sig i)]
  exact byte_offset_exact_comm sig n d_time i eh hn1 h1 h2 hfit

/-- Inside the window, where `noutput_items * s_i` fits the `int`, the byte count
`usable_items * sizeof_stream_item(i)` is exact. -/
theorem usable_bytes_exact (sig : List Nat) (n : Int) (d_time i : Nat) (eh : es_eh_pair)
    (hn1 : n < 2147483648) (h1 : d_time ≤ eh.time) (h2 : (eh.time : Int) < d_time + n)
    (hfit : n * ((sig.getD i 0 : Nat) : Int) < 2147483648) :
    toInt32 (usable_items n d_time eh * sizeof_stream_item sig i) =
      usable_items n d_time eh * ((sig.getD i 0 : Nat) : Int) := by
  have hu := usable_items_exact n d_time eh hn1 h1 h2
  unfold sizeof_stream_item
  exact int_product_exact _ n _ (by omega) (by omega) hfit

/-- In the range where neither narrowing to `int` loses anything, the in-place branch is taken
exactly when the event ends strictly before the end of the buffer. -/
theorem use_inplace_buffer_iff (n : Int) (d_time : Nat) (eh : es_eh_pair)
    (hn1 : n < 2147483648) (h1 : d_time ≤ eh.time) (h2 : (eh.time : Int) < d_time + n)
    (hlen : (eh.time : Int) - d_time + eh.length < 2147483648) :
    use_inplace_buffer n d_time eh = true ↔ (eh.time : Int) - d_time + eh.length < n := by
  unfold use_inplace_buffer buffer_event_max
  rw [buffer_offset_exact n d_time eh hn1 h1 h2, toInt32_toU64]
  rw [toInt32_of_range _ (by omega) (by omega)]
  simp only [ge_iff_le, Bool.not_eq_true', decide_eq_false_iff_not, not_le]
  omega

/-- Where the narrowing to `int` loses nothing, an event dispatched in place ends strictly
before the end of the output buffer. -/
theorem in_place_within_bounds (n : Int) (d_time : Nat) (eh : es_eh_pair)
    (hn1 : n < 2147483648) (h1 : d_time ≤ eh.time) (h2 : (eh.time : Int) < d_time + n)
    (hlen : (eh.time : Int) - d_time + eh.length < 2147483648)
    (hin : use_inplace_buffer n d_time eh = true) :
    0 ≤ buffer_offset d_time eh ∧ buffer_offset d_time eh + eh.length < n := by
  rw [use_inplace_buffer_iff n d_time eh hn1 h1 h2 hlen] at hin
  rw [buffer_offset_exact n d_time eh hn1 h1 h2]
  omega

theorem produced_eq_min (n : Int) (d_maxlen d_time : Nat) (h0 : 0 < n) (h1 : n < 2147483648)
    (h2 : d_time ≤ d_maxlen) (h3 : d_maxlen ≤ ULLONG_MAX) :
    produced n d_maxlen d_time = min n ((d_maxlen : Int) - d_time) := by
  unfold ULLONG_MAX at h3
  unfold produced toInt32 toU32 toU64
  omega

theorem produced_range (n : Int) (d_maxlen d_time : Nat) (h0 : 0 < n) (h1 : n < 2147483648) :
    0 ≤ produced n d_maxlen d_time ∧ produced n d_maxlen d_time ≤ n := by
  unfold produced toInt32 toU32 toU64
  omega

theorem produced_at_cap (n : Int) (d_time : Nat) : produced n d_time d_time = 0 := by
  unfold produced toInt32 toU32 toU64
  omega

theorem saturating_step (k t : Nat) (ht : t = min (2147483647 * k) ULLONG_MAX) :
    toU64 ((t : Int) + produced 2147483647 ULLONG_MAX t) =
      min (2147483647 * (k + 1)) ULLONG_MAX := by
  have hp := produced_eq_min 2147483647 ULLONG_MAX t (by decide) (by decide) (by omega)
    (le_refl _)
  rw [hp]
  unfold toU64
  unfold ULLONG_MAX at ht ⊢
  omega

theorem saturation_steps : ∃ k : Nat, min (2147483647 * k) ULLONG_MAX = ULLONG_MAX := by
  refine ⟨17179869184, ?_⟩
  unfold ULLONG_MAX
  omega

/-- A temporary buffer that holds `p` bytes has `bufsize` exactly `p`, below `2^31`. -/
theorem narrow_ge_self (p : Nat) (h0 : 0 ≤ toInt32 (toU64 (p : Int)))
    (h : p ≤ (toInt32 (toU64 (p : Int))).toNat) :
    (toInt32 (toU64 (p : Int))).toNat = p ∧ p < 2147483648 := by
  unfold toInt32 toU64 at *
  omega

theorem narrow_le_self (p : Nat) (h0 : 0 ≤ toInt32 (toU64 (p : Int))) :
    (toInt32 (toU64 (p : Int))).toNat ≤ p := by
  unfold toInt32 toU64 at *
  omega

theorem leftover_exact (len : Nat) (u : Int) (h0 : 0 ≤ u) (h1 : u ≤ len) (h2 : len < 2147483648) :
    toInt32 (toU64 ((len : Int) - u)) = (len : Int) - u := by
  unfold toInt32 toU64
  omega

/-- The two parts of the split add up to the event: with a positive item size, a first part of
`u` items that fits in the `len * s` bytes of the temporary buffer leaves `len - u` items. -/
theorem split_sizes (len s : Nat) (u : Int) (hs : 0 < s) (hp : len * s < 2147483648)
    (hu0 : 0 ≤ u * (s : Int)) (hu1 : (u * (s : Int)).toNat ≤ len * s) :
    0 ≤ u ∧ u ≤ len ∧ toInt32 (toU64 ((len : Int) - u)) = (len : Int) - u ∧
      (u * (s : Int)).toNat + ((s : Int) * ((len : Int) - u)).toNat = len * s := by
  have hsi : (0 : Int) < s := by exact_mod_cast hs
  have hu : 0 ≤ u := by
    by_contra hneg
    have : u * (s : Int) < 0 := Int.mul_neg_of_neg_of_pos (by omega) hsi
    omega
  have hle : u ≤ len := by
    have h2 : ((u * (s : Int)).toNat : Int) ≤ ((len * s : Nat) : Int) := by exact_mod_cast hu1
    rw [Int.toNat_of_nonneg hu0] at h2
    push_cast at h2
    exact le_of_mul_le_mul_right h2 hsi
  have hlen : len < 2147483648 := by
    have : len ≤ len * s := Nat.le_mul_of_pos_right len hs
    omega
  refine ⟨hu, hle, leftover_exact len u hu hle hlen, ?_⟩
  have hnn : 0 ≤ (s : Int) * ((len : Int) - u) := mul_nonneg (by omega) (by omega)
  have : (((u * (s : Int)).toNat + ((s : Int) * ((len : Int) - u)).toNat : Nat) : Int) =
      ((len * s : Nat) : Int) := by
    push_cast
    rw [Int.toNat_of_nonneg hu0, Int.toNat_of_nonneg hnn]
    ring
  exact_mod_cast this

theorem usable_le_length (s len : Nat) (u : Int) (hs : 0 < s) (hu : 0 ≤ u * (s : Int))
    (h : (u * (s : Int)).toNat ≤ len * s) : u ≤ len := by
  have hsi : (0 : Int) < s := by exact_mod_cast hs
  have h2 : ((u * (s : Int)).toNat : Int) ≤ ((len * s : Nat) : Int) := by exact_mod_cast h
  rw [Int.toNat_of_nonneg hu] at h2
  push_cast at h2
  exact le_of_mul_le_mul_right h2 hsi

theorem sample_before (j k s off : Nat) (hk : k < s) (h : j < off) : j * s + k < off * s := by
  have h1 : (j + 1) * s ≤ off * s := Nat.mul_le_mul_right s h
  have h2 : (j + 1) * s = j * s + s := by ring
  omega

theorem sample_after (j k s off len l : Nat) (hl : l ≤ len * s) (h : off + len ≤ j) :
    off * s + l ≤ j * s + k := by
  have h1 : (off + len) * s ≤ j * s := Nat.mul_le_mul_right s h
  have h2 : (off + len) * s = off * s + len * s := by ring
  omega

/-! ## Channel loops and buffers -/

/-- A channel loop that finishes has run its body on every buffer, in order. -/
theorem forChannels_ok {α : Type} (f : Nat → List Nat → Except Fault α) :
    ∀ (bs : List (List Nat)) (k : Nat) (xs : List α), forChannels f k bs = .ok xs →
      xs.length = bs.length ∧
      ∀ (j : Nat) (b : List Nat), bs[j]? = some b → ∃ x, xs[j]? = some x ∧ f (k + j) b = .ok x := by
  intro bs
  induction bs with
  | nil =>
    intro k xs h
    simp only [forChannels, Except.ok.injEq] at h
    subst h
    simp
  | cons b bs ih =>
    intro k xs h
    unfold forChannels at h
    split at h
    · cases h
    · rename_i x hx
      split at h
      · cases h
      · rename_i ys hys
        simp only [Except.ok.injEq] at h
        subst h
        obtain ⟨hl, hj⟩ := ih (k + 1) ys hys
        refine ⟨by simp [hl], ?_⟩
        intro j c hc
        cases j with
        | zero =>
          simp only [List.getElem?_cons_zero, Option.some.injEq] at hc
          subst hc
          exact ⟨x, by simp, by simpa using hx⟩
        | succ j =>
          simp only [List.getElem?_cons_succ] at hc
          obtain ⟨y, hy, hfy⟩ := hj j c hc
          refine ⟨y, by simpa using hy, ?_⟩
          have : k + (j + 1) = k + 1 + j := by omega
          rw [this]; exact hfy

theorem forChannels_error {α : Type} (f : Nat → List Nat → Except Fault α) :
    ∀ (bs : List (List Nat)) (k : Nat) (x : Fault), forChannels f k bs = .error x →
      ∃ j b, f j b = .error x := by
  intro bs
  induction bs with
  | nil => intro k x h; simp [forChannels] at h
  | cons b bs ih =>
    intro k x h
    unfold forChannels at h
    split at h
    · rename_i e he
      simp only [Except.error.injEq] at h
      subst h
      exact ⟨k, b, he⟩
    · split at h
      · rename_i e he
        simp only [Except.error.injEq] at h
        subst h
        exact ih (k + 1) e he
      · cases h

theorem store_ok (buf src out : List Nat) (off : Int) (h : store buf off src = .ok out) :
    0 ≤ off ∧ off.toNat + src.length ≤ buf.length ∧
      out = buf.take off.toNat ++ src ++ buf.drop (off.toNat + src.length) := by
  unfold store at h
  split at h
  · rename_i hc
    simp only [Except.ok.injEq] at h
    exact ⟨hc.1, hc.2, h.symm⟩
  · cases h

theorem store_length (buf src out : List Nat) (off : Int) (h : store buf off src = .ok out) :
    out.length = buf.length := by
  obtain ⟨-, h2, h3⟩ := store_ok buf src out off h
  subst h3
  simp only [List.length_append, List.length_take, List.length_drop]
  omega

/-- A store leaves every byte outside the stored range as it was. -/
theorem store_outside (buf src out : List Nat) (off : Int) (h : store buf off src = .ok out)
    (p : Nat) (hp : p < off.toNat ∨ off.toNat + src.length ≤ p) : out[p]? = buf[p]? := by
  obtain ⟨-, h2, h3⟩ := store_ok buf src out off h
  subst h3
  rcases hp with hp | hp
  · rw [List.append_assoc, List.getElem?_append_left (by simp; omega)]
    rw [List.getElem?_take_of_lt hp]
  · rw [List.getElem?_append_right (by simp; omega)]
    simp only [List.length_append, List.length_take, List.getElem?_drop]
    congr 1
    omega

/-- The stored range holds the stored bytes. -/
theorem store_slice (buf src out : List Nat) (off : Int) (h : store buf off src = .ok out) :
    slice out off.toNat src.length = src := by
  obtain ⟨-, h2, h3⟩ := store_ok buf src out off h
  subst h3
  unfold slice
  rw [List.append_assoc, List.drop_append_of_le_length (by simp; omega)]
  have : List.drop off.toNat (List.take off.toNat buf) = [] := by
    simp
  rw [this, List.nil_append, List.take_left']
  rfl

theorem store_error (buf src : List Nat) (off : Int) (x : Fault)
    (h : store buf off src = .error x) : x = .out_of_bounds := by
  unfold store at h
  split at h
  · cases h
  · simp only [Except.error.injEq] at h
    exact h.symm

theorem load_ok (buf out : List Nat) (off len : Int) (h : load buf off len = .ok out) :
    0 ≤ off ∧ 0 ≤ len ∧ off.toNat + len.toNat ≤ buf.length ∧
      out = slice buf off.toNat len.toNat := by
  unfold load at h
  split at h
  · rename_i hc
    simp only [Except.ok.injEq] at h
    exact ⟨hc.1, hc.2.1, hc.2.2, h.symm⟩
  · cases h

theorem load_error (buf : List Nat) (off len : Int) (x : Fault)
    (h : load buf off len = .error x) : x = .out_of_bounds := by
  unfold load at h
  split at h
  · cases h
  · simp only [Except.error.injEq] at h
    exact h.symm

theorem memset_ok (buf out : List Nat) (len : Int) (h : memset buf len = .ok out) :
    0 ≤ len ∧ len.toNat ≤ buf.length ∧
      out = List.replicate len.toNat 0 ++ buf.drop len.toNat := by
  unfold memset at h
  split at h
  · rename_i h0
    obtain ⟨-, h2, h3⟩ := store_ok buf _ out 0 h
    rw [Int.toNat_zero, Nat.zero_add, List.length_replicate] at h2
    rw [Int.toNat_zero, Nat.zero_add, List.length_replicate, List.take_zero,
      List.nil_append] at h3
    exact ⟨h0, h2, h3⟩
  · cases h

theorem memset_error (buf : List Nat) (len : Int) (x : Fault)
    (h : memset buf len = .error x) : x = .out_of_bounds := by
  unfold memset at h
  split at h
  · exact store_error _ _ _ x h
  · simp only [Except.error.injEq] at h
    exact h.symm

theorem new_uint8_ok (heap : Nat → Nat) (size : Int) (out : List Nat)
    (h : new_uint8 heap size = .ok out) : 0 ≤ size ∧ out.length = size.toNat := by
  unfold new_uint8 at h
  split at h
  · rename_i hc
    simp only [Except.ok.injEq] at h
    subst h
    exact ⟨hc, by simp⟩
  · cases h

theorem new_uint8_error (heap : Nat → Nat) (size : Int) (x : Fault)
    (h : new_uint8 heap size = .error x) : x = .bad_alloc := by
  unfold new_uint8 at h
  split at h
  · cases h
  · simp only [Except.error.injEq] at h
    exact h.symm

theorem copy_usable_error (sig : List Nat) (n : Int) (d_time : Nat) (eh : es_eh_pair)
    (bufs : List (List Nat)) (i : Nat) (b : List Nat) (x : Fault)
    (h : copy_usable sig n d_time eh bufs i b = .error x) : x = .out_of_bounds := by
  unfold copy_usable at h
  split at h
  · rename_i e he
    simp only [Except.error.injEq] at h
    subst h
    exact load_error _ _ _ e he
  · exact store_error _ _ _ x h

theorem slice_append_slice (t : List Nat) (a c : Nat) (h : t.length ≤ a + c) :
    slice t 0 a ++ slice t a c = t := by
  unfold slice
  rw [List.drop_zero, List.take_of_length_le (l := List.drop a t) (by simp; omega)]
  exact List.take_append_drop a t

theorem slice_length (t : List Nat) (a c : Nat) (h : a + c ≤ t.length) :
    (slice t a c).length = c := by
  unfold slice
  simp only [List.length_take, List.length_drop]
  omega

/-! ## The queue -/

theorem earliest_some (lo hi : Nat) (q : List es_eh_pair) (e : es_eh_pair)
    (h : earliest lo hi q = some e) : e ∈ q ∧ in_window lo hi e = true := by
  induction q generalizing e with
  | nil => simp [earliest] at h
  | cons x xs ih =>
    unfold earliest at h
    split at h
    · rename_i hx
      split at h
      · rename_i m hm
        split at h
        · simp only [Option.some.injEq] at h
          subst h
          exact ⟨List.mem_cons_of_mem _ (ih m hm).1, (ih m hm).2⟩
        · simp only [Option.some.injEq] at h
          subst h
          exact ⟨List.mem_cons_self _ _, hx⟩
      · simp only [Option.some.injEq] at h
        subst h
        exact ⟨List.mem_cons_self _ _, hx⟩
    · exact ⟨List.mem_cons_of_mem _ (ih e h).1, (ih e h).2⟩

theorem earliest_none (lo hi : Nat) (q : List es_eh_pair)
    (h : ∀ e ∈ q, in_window lo hi e = false) : earliest lo hi q = none := by
  induction q with
  | nil => rfl
  | cons x xs ih =>
    unfold earliest
    rw [h x (List.mem_cons_self _ _)]
    simp only [Bool.false_eq_true, if_false]
    exact ih (fun e he => h e (List.mem_cons_of_mem _ he))

theorem fetch_some (q rest : List es_eh_pair) (lo hi : Nat) (e : es_eh_pair)
    (h : fetch_next_event2 q lo hi = some (e, rest)) :
    e ∈ q ∧ in_window lo hi e = true ∧ rest = q.erase e := by
  unfold fetch_next_event2 at h
  split at h
  · cases h
  · rename_i m hm
    simp only [Option.some.injEq, Prod.mk.injEq] at h
    obtain ⟨h1, h2⟩ := h
    subst h1
    exact ⟨(earliest_some lo hi q m hm).1, (earliest_some lo hi q m hm).2, h2.symm⟩

theorem mem_add_event (q : List es_eh_pair) (e x : es_eh_pair) :
    x ∈ add_event q e ↔ x = e ∨ x ∈ q := by
  induction q with
  | nil => simp [add_event]
  | cons y ys ih =>
    unfold add_event
    split
    · simp
    · simp only [List.mem_cons, ih]
      tauto

theorem countP_add_event (p : es_eh_pair → Bool) (q : List es_eh_pair) (e : es_eh_pair) :
    (add_event q e).countP p = q.countP p + if p e then 1 else 0 := by
  induction q with
  | nil => simp [add_event, List.countP_cons]
  | cons y ys ih =>
    unfold add_event
    split
    · rw [List.countP_cons]
    · rw [List.countP_cons, List.countP_cons, ih]; omega

theorem countP_erase_of_mem (p : es_eh_pair → Bool) (q : List es_eh_pair) (e : es_eh_pair)
    (he : e ∈ q) (hp : p e = true) : (q.erase e).countP p + 1 = q.countP p := by
  rw [(List.perm_cons_erase he).countP_eq p, List.countP_cons, if_pos hp]

/-! ## The body of the fetch loop -/

theorem handle_event_holdover (heap : Nat → Nat) (sig : List Nat) (n : Int) (d_time : Nat)
    (eh holdover : es_eh_pair) (out out1 : List (List Nat))
    (h : handle_event heap sig n d_time eh out = .ok (out1, some holdover)) :
    use_inplace_buffer n d_time eh = false ∧
      out_of_place heap sig n d_time eh out = .ok (out1, holdover) := by
  unfold handle_event at h
  split at h
  · cases h
  · split at h
    · split at h <;> simp at h
    · rename_i hu
      split at h
      · cases h
      · rename_i o1 h1 heq
        simp only [Except.ok.injEq, Prod.mk.injEq, Option.some.injEq] at h
        obtain ⟨ha, hb⟩ := h
        subst ha; subst hb
        exact ⟨by simpa using hu, heq⟩

theorem handle_event_in_place (heap : Nat → Nat) (sig : List Nat) (n : Int) (d_time : Nat)
    (eh : es_eh_pair) (out out1 : List (List Nat))
    (h : handle_event heap sig n d_time eh out = .ok (out1, none)) :
    use_inplace_buffer n d_time eh = true ∧ in_place sig d_time eh out = .ok out1 := by
  unfold handle_event at h
  split at h
  · cases h
  · split at h
    · rename_i hu
      split at h
      · cases h
      · rename_i o ho
        simp only [Except.ok.injEq, Prod.mk.injEq, and_true] at h
        subst h
        exact ⟨hu, ho⟩
    · split at h
      · cases h
      · simp at h

/-- The body of the loop never reports an unfinished loop: its faults are the failed
assertion, a failed allocation or an access outside a buffer. -/
theorem handle_event_error (heap : Nat → Nat) (sig : List Nat) (n : Int) (d_time : Nat)
    (eh : es_eh_pair) (out : List (List Nat)) (x : Fault)
    (h : handle_event heap sig n d_time eh out = .error x) : x ≠ .unfinished := by
  unfold handle_event at h
  split at h
  · simp only [Except.error.injEq] at h
    subst h; simp
  · split at h
    · split at h
      · rename_i e he
        simp only [Except.error.injEq] at h
        subst h
        unfold in_place at he
        obtain ⟨j, b, hj⟩ := forChannels_error _ _ _ _ he
        rw [store_error _ _ _ _ hj]; simp
      · cases h
    · split at h
      · rename_i e he
        simp only [Except.error.injEq] at h
        subst h
        unfold out_of_place at he
        split at he
        · rename_i e1 h1
          simp only [Except.error.injEq] at he
          subst he
          obtain ⟨j, b, hj⟩ := forChannels_error _ _ _ _ h1
          rw [new_uint8_error _ _ _ hj]; simp
        · split at he
          · rename_i e1 h1
            simp only [Except.error.injEq] at he
            subst he
            obtain ⟨j, b, hj⟩ := forChannels_error _ _ _ _ h1
            rw [store_error _ _ _ _ hj]; simp
          · split at he
            · rename_i e1 h1
              simp only [Except.error.injEq] at he
              subst he
              obtain ⟨j, b, hj⟩ := forChannels_error _ _ _ _ h1
              rw [copy_usable_error _ _ _ _ _ _ _ _ hj]; simp
            · split at he
              · rename_i e1 h1
                simp only [Except.error.injEq] at he
                subst he
                obtain ⟨j, b, hj⟩ := forChannels_error _ _ _ _ h1
                unfold leftover_vector at hj
                rw [load_error _ _ _ _ hj]; simp
              · cases he
      · cases h

theorem out_of_place_holdover (heap : Nat → Nat) (sig : List Nat) (n : Int) (d_time : Nat)
    (eh holdover : es_eh_pair) (out out1 : List (List Nat))
    (h : out_of_place heap sig n d_time eh out = .ok (out1, holdover)) :
    holdover.time = toU64 ((eh.time : Int) + usable_items n d_time eh) ∧
      holdover.length = (leftover_items n d_time eh).toNat ∧ holdover.accepter = true := by
  unfold out_of_place at h
  split at h
  · cases h
  · split at h
    · cases h
    · split at h
      · cases h
      · split at h
        · cases h
        · simp only [Except.ok.injEq, Prod.mk.injEq] at h
          obtain ⟨-, hb⟩ := h
          subst hb
          simp [event_create_gen_vector]

theorem out_of_place_ok (heap : Nat → Nat) (sig : List Nat) (n : Int) (d_time : Nat)
    (eh holdover : es_eh_pair) (out out1 : List (List Nat))
    (h : out_of_place heap sig n d_time eh out = .ok (out1, holdover)) :
    ∃ fresh bufs, forChannels (fun i _ => new_uint8 heap (bufsize sig eh i)) 0 out = .ok fresh ∧
      forChannels (fun i b => store b 0 (eh.render.getD i [])) 0 fresh = .ok bufs ∧
      forChannels (copy_usable sig n d_time eh bufs) 0 out = .ok out1 ∧
      forChannels (leftover_vector sig n d_time eh) 0 bufs = .ok holdover.render := by
  unfold out_of_place at h
  split at h
  · cases h
  · rename_i fresh h1
    split at h
    · cases h
    · rename_i bufs h2
      split at h
      · cases h
      · rename_i o h3
        split at h
        · cases h
        · rename_i v h4
          simp only [Except.ok.injEq, Prod.mk.injEq] at h
          obtain ⟨ha, hb⟩ := h
          subst ha; subst hb
          exact ⟨fresh, bufs, h1, h2, h3, h4⟩

/-- What the out-of-place branch does on channel `i`. -/
theorem out_of_place_channel (heap : Nat → Nat) (sig : List Nat) (n : Int) (d_time : Nat)
    (eh holdover : es_eh_pair) (out out1 : List (List Nat))
    (h : out_of_place heap sig n d_time eh out = .ok (out1, holdover))
    (i : Nat) (b : List Nat) (hb : out[i]? = some b) :
    ∃ f0 t first o v, new_uint8 heap (bufsize sig eh i) = .ok f0 ∧
      store f0 0 (eh.render.getD i []) = .ok t ∧
      load t 0 (toInt32 (usable_items n d_time eh * sizeof_stream_item sig i)) = .ok first ∧
      store b (toInt32 (buffer_offset d_time eh * sizeof_stream_item sig i)) first = .ok o ∧
      out1[i]? = some o ∧
      load t (toInt32 (usable_items n d_time eh * sizeof_stream_item sig i))
        (toInt32 (sizeof_stream_item sig i * leftover_items n d_time eh)) = .ok v ∧
      holdover.render[i]? = some v := by
  obtain ⟨fresh, bufs, h1, h2, h3, h4⟩ := out_of_place_ok heap sig n d_time eh holdover out out1 h
  obtain ⟨-, g1⟩ := forChannels_ok _ _ _ _ h1
  obtain ⟨-, g2⟩ := forChannels_ok _ _ _ _ h2
  obtain ⟨-, g3⟩ := forChannels_ok _ _ _ _ h3
  obtain ⟨-, g4⟩ := forChannels_ok _ _ _ _ h4
  obtain ⟨f0, hf0, e1⟩ := g1 i b hb
  obtain ⟨t, ht, e2⟩ := g2 i f0 hf0
  obtain ⟨o, ho, e3⟩ := g3 i b hb
  obtain ⟨v, hv, e4⟩ := g4 i t ht
  simp only [Nat.zero_add] at e1 e2 e3 e4
  unfold copy_usable at e3
  have hget : bufs.getD i [] = t := by simp [List.getD_eq_getElem?_getD, ht]
  rw [hget] at e3
  split at e3
  · cases e3
  · rename_i first hfirst
    exact ⟨f0, t, first, o, v, e1, e2, hfirst, e3, ho, e4, hv⟩

/-- The split of one temporary buffer: the handler stored `r`, `len * s` bytes, into a fresh
array of `bufsize` bytes; the first `u * s` bytes went to the output at `off * s` and
`s * lf` bytes from `u * s` on became the hold-over vector. -/
theorem split_channel (f0 t first o v r b : List Nat) (s len : Nat) (u lf off : Int)
    (a1 : 0 ≤ toInt32 (toU64 ((len * s : Nat) : Int)))
    (a2 : f0.length = (toInt32 (toU64 ((len * s : Nat) : Int))).toNat)
    (e2 : store f0 0 r = .ok t) (hfull : r.length = len * s)
    (e3 : load t 0 (u * (s : Int)) = .ok first)
    (e4 : store b (off * (s : Int)) first = .ok o)
    (e5 : load t (u * (s : Int)) (toInt32 ((s : Int) * lf)) = .ok v)
    (hlf : lf = toInt32 (toU64 ((len : Int) - u))) :
    slice o (off * (s : Int)).toNat (u * (s : Int)).toNat ++ v = r ∧
      (slice o (off * (s : Int)).toNat (u * (s : Int)).toNat).length = (u * (s : Int)).toNat ∧
      v.length = ((s : Int) * lf).toNat ∧
      (0 < s → 0 ≤ u ∧ u ≤ len ∧ lf = (len : Int) - u) := by
  obtain ⟨-, b2, b3⟩ := store_ok f0 r t 0 e2
  have b4 := store_length f0 r t 0 e2
  obtain ⟨-, c2, c3, c4⟩ := load_ok t first _ _ e3
  have hs := store_slice b first o _ e4
  rw [Int.toNat_zero, Nat.zero_add] at b2 c3
  rw [Int.toNat_zero] at b3 c4
  obtain ⟨hf0, hp⟩ := narrow_ge_self (len * s) a1 (by rw [← a2, ← hfull]; exact b2)
  rw [hf0] at a2
  have hc3 : (u * (s : Int)).toNat ≤ len * s := by rw [b4, a2] at c3; exact c3
  have hexact : toInt32 ((s : Int) * lf) = (s : Int) * lf := by
    rcases Nat.eq_zero_or_pos s with h0 | h0
    · subst h0; simp [toInt32]
    · obtain ⟨g1, g2, g3, -⟩ := split_sizes len s u h0 hp c2 hc3
      rw [hlf, g3, mul_comm]
      have hps : ((len : Int)) * (s : Int) < 2147483648 := by exact_mod_cast hp
      exact int_product_exact _ len s (by omega) (by omega) hps
  rw [hexact] at e5
  obtain ⟨-, d2, d3, d4⟩ := load_ok t v _ _ e5
  have ht : t = r := by
    rw [b3, List.take_zero, List.nil_append, Nat.zero_add,
      List.drop_of_length_le (by rw [a2, hfull]), List.append_nil]
  have hfirst : first.length = (u * (s : Int)).toNat := by
    rw [c4]; exact slice_length t 0 _ (by rw [Nat.zero_add]; exact c3)
  have hvlen : v.length = ((s : Int) * lf).toNat := by
    rw [d4]; exact slice_length t _ _ d3
  have hsum : t.length ≤ (u * (s : Int)).toNat + ((s : Int) * lf).toNat := by
    rw [b4, a2]
    rcases Nat.eq_zero_or_pos s with h0 | h0
    · rw [h0, Nat.mul_zero]; exact Nat.zero_le _
    · obtain ⟨-, -, g3, g4⟩ := split_sizes len s u h0 hp c2 hc3
      rw [hlf, g3, g4]
  refine ⟨?_, ?_, hvlen, ?_⟩
  · rw [← hfirst, hs, c4, d4, slice_append_slice t _ _ hsum, ht]
  · rw [← hfirst, hs]
  · intro h0
    obtain ⟨g1, g2, g3, -⟩ := split_sizes len s u h0 hp c2 hc3
    exact ⟨g1, g2, by rw [hlf, g3]⟩

/-- A hold-over event made for an event of the window lies outside the window. -/
theorem holdover_outside_window (heap : Nat → Nat) (sig : List Nat) (n : Int) (d_time : Nat)
    (eh holdover : es_eh_pair) (out out1 : List (List Nat))
    (hn0 : 0 < n) (hn1 : n < 2147483648) (ht : d_time ≤ ULLONG_MAX)
    (hwin : in_window d_time (toU64 ((d_time : Int) + n)) eh = true)
    (h : out_of_place heap sig n d_time eh out = .ok (out1, holdover)) :
    in_window d_time (toU64 ((d_time : Int) + n)) holdover = false := by
  obtain ⟨h1, h2, h3⟩ := window_exact n d_time eh hn0 hn1 ht hwin
  have hu := usable_items_exact n d_time eh hn1 h1 h2
  obtain ⟨hh, -, -⟩ := out_of_place_holdover heap sig n d_time eh holdover out out1 h
  have hsum : (eh.time : Int) + usable_items n d_time eh = d_time + n := by rw [hu]; ring
  rw [hsum] at hh
  simp only [in_window, Bool.and_eq_false_iff, decide_eq_false_iff_not, not_le, not_lt]
  right
  omega

/-- The in-place branch leaves every byte outside the bytes `run()` stored as it was. -/
theorem in_place_outside (sig : List Nat) (n : Int) (d_time : Nat) (eh : es_eh_pair)
    (out out1 : List (List Nat)) (h : in_place sig d_time eh out = .ok out1)
    (hn1 : n < 2147483648) (h1 : d_time ≤ eh.time) (h2 : (eh.time : Int) < d_time + n)
    (i p : Nat) (z : List Nat) (hz : out[i]? = some z)
    (hfit : n * ((sig.getD i 0 : Nat) : Int) < 2147483648)
    (hp : p < (eh.time - d_time) * sig.getD i 0 ∨
      (eh.time - d_time) * sig.getD i 0 + (eh.render.getD i []).length ≤ p) :
    ∃ z1, out1[i]? = some z1 ∧ z1[p]? = z[p]? := by
  unfold in_place at h
  obtain ⟨-, g⟩ := forChannels_ok _ _ _ _ h
  obtain ⟨z1, hz1, e⟩ := g i z hz
  simp only [Nat.zero_add] at e
  rw [byte_offset_exact sig n d_time i eh hn1 h1 h2 hfit] at e
  refine ⟨z1, hz1, store_outside z _ z1 _ e p ?_⟩
  rw [Int.toNat_ofNat]
  exact hp

/-- The out-of-place branch leaves every byte before the event's offset as it was. -/
theorem out_of_place_outside (heap : Nat → Nat) (sig : List Nat) (n : Int) (d_time : Nat)
    (eh holdover : es_eh_pair) (out out1 : List (List Nat))
    (h : out_of_place heap sig n d_time eh out = .ok (out1, holdover))
    (hn1 : n < 2147483648) (h1 : d_time ≤ eh.time) (h2 : (eh.time : Int) < d_time + n)
    (i p : Nat) (z : List Nat) (hz : out[i]? = some z)
    (hfit : n * ((sig.getD i 0 : Nat) : Int) < 2147483648)
    (hp : p < (eh.time - d_time) * sig.getD i 0) :
    ∃ z1, out1[i]? = some z1 ∧ z1[p]? = z[p]? := by
  obtain ⟨f0, t, first, o, v, -, -, -, e4, ho, -, -⟩ :=
    out_of_place_channel heap sig n d_time eh holdover out out1 h i z hz
  rw [byte_offset_exact_comm sig n d_time i eh hn1 h1 h2 hfit] at e4
  refine ⟨o, ho, store_outside z _ o _ e4 p ?_⟩
  rw [Int.toNat_ofNat]
  exact Or.inl hp

/-- An event that went through the out-of-place branch reaches the end of the buffer: on a
channel with a positive item size the first part fits in the temporary buffer, so
`noutput_items <= offset + length`. -/
theorem out_of_place_reaches_end (heap : Nat → Nat) (sig : List Nat) (n : Int) (d_time : Nat)
    (eh holdover : es_eh_pair) (out out1 : List (List Nat))
    (h : out_of_place heap sig n d_time eh out = .ok (out1, holdover))
    (hn1 : n < 2147483648) (h1 : d_time ≤ eh.time) (h2 : (eh.time : Int) < d_time + n)
    (i : Nat) (z : List Nat) (hz : out[i]? = some z) (hs : 0 < sig.getD i 0)
    (hfit : n * ((sig.getD i 0 : Nat) : Int) < 2147483648) :
    n ≤ ((eh.time - d_time : Nat) : Int) + eh.length := by
  obtain ⟨f0, t, first, o, v, e1, e2, e3, -, -, -, -⟩ :=
    out_of_place_channel heap sig n d_time eh holdover out out1 h i z hz
  rw [usable_bytes_exact sig n d_time i eh hn1 h1 h2 hfit] at e3
  obtain ⟨a1, a2⟩ := new_uint8_ok heap _ f0 e1
  have b4 := store_length f0 _ t 0 e2
  obtain ⟨-, c2, c3, -⟩ := load_ok t first _ _ e3
  have hP : sizeof_stream_item sig i * (eh.length : Int) =
      ((eh.length * sig.getD i 0 : Nat) : Int) := by
    unfold sizeof_stream_item; push_cast; ring
  unfold bufsize at a1 a2
  rw [hP] at a1 a2
  have hle := narrow_le_self _ a1
  rw [Int.toNat_zero, Nat.zero_add, b4, a2] at c3
  have hu := usable_le_length (sig.getD i 0) eh.length (usable_items n d_time eh) hs c2
    (le_trans c3 hle)
  rw [usable_items_exact n d_time eh hn1 h1 h2] at hu
  rw [Nat.cast_sub h1]
  linarith

/-- One pass of the loop body leaves a byte of a sample the event does not cover as it was,
provided the handler stores no more than `length` items. -/
theorem handle_event_outside (heap : Nat → Nat) (sig : List Nat) (n : Int) (d_time : Nat)
    (eh : es_eh_pair) (ho : Option es_eh_pair) (out out1 : List (List Nat))
    (hn0 : 0 < n) (hn1 : n < 2147483648) (ht : d_time ≤ ULLONG_MAX)
    (hwin : in_window d_time (toU64 ((d_time : Int) + n)) eh = true)
    (h : handle_event heap sig n d_time eh out = .ok (out1, ho))
    (i j k : Nat) (hj : (j : Int) < n) (hk : k < sig.getD i 0)
    (hfit : n * ((sig.getD i 0 : Nat) : Int) < 2147483648)
    (hbound : (eh.render.getD i []).length ≤ eh.length * sig.getD i 0)
    (hfree : ¬ (eh.time - d_time ≤ j ∧ j < eh.time - d_time + eh.length))
    (z : List Nat) (hz : out[i]? = some z) :
    ∃ z1, out1[i]? = some z1 ∧ z1[j * sig.getD i 0 + k]? = z[j * sig.getD i 0 + k]? := by
  obtain ⟨h1, h2, -⟩ := window_exact n d_time eh hn0 hn1 ht hwin
  cases ho with
  | none =>
    obtain ⟨-, hin⟩ := handle_event_in_place heap sig n d_time eh out out1 h
    refine in_place_outside sig n d_time eh out out1 hin hn1 h1 h2 i _ z hz hfit ?_
    by_cases hlt : j < eh.time - d_time
    · exact Or.inl (sample_before j k _ _ hk hlt)
    · exact Or.inr (sample_after j k _ _ _ _ hbound (by omega))
  | some holdover =>
    obtain ⟨-, hoop⟩ := handle_event_holdover heap sig n d_time eh holdover out out1 h
    have hend := out_of_place_reaches_end heap sig n d_time eh holdover out out1 hoop hn1 h1 h2
      i z hz (by omega) hfit
    refine out_of_place_outside heap sig n d_time eh holdover out out1 hoop hn1 h1 h2 i _ z hz
      hfit ?_
    exact sample_before j k _ _ hk (by omega)

/-! ## The fetch loop and `work` -/

/-- What a returning `work` call does to the members other than the queue. -/
theorem work_ret (heap : Nat → Nat) (s s1 : es_source) (n r : Int) (out out1 : List (List Nat))
    (h : work heap s n out = .ok (s1, out1, r)) :
    r = produced n s.d_maxlen s.d_time ∧ s1.d_time = toU64 ((s.d_time : Int) + r) ∧
    s1.d_maxlen = s.d_maxlen ∧ s1.d_output_signature = s.d_output_signature := by
  unfold work at h
  split at h
  · cases h
  · dsimp only at h
    split at h
    · cases h
    · simp only [Except.ok.injEq, Prod.mk.injEq] at h
      obtain ⟨h1, -, h3⟩ := h
      subst h1; subst h3
      simp

theorem work_ok (heap : Nat → Nat) (s s1 : es_source) (n r : Int) (out out1 : List (List Nat))
    (h : work heap s n out = .ok (s1, out1, r)) :
    ∃ zeroed, forChannels
        (fun i b => memset b (toInt32 (n * sizeof_stream_item s.d_output_signature i))) 0 out =
          .ok zeroed ∧
      fetch_loop heap s.d_output_signature n s.d_time (toU64 ((s.d_time : Int) + n))
        s.event_queue.length s.event_queue zeroed = .ok (s1.event_queue, out1) := by
  unfold work at h
  split at h
  · cases h
  · rename_i zeroed hz
    dsimp only at h
    split at h
    · cases h
    · rename_i q o hl
      simp only [Except.ok.injEq, Prod.mk.injEq] at h
      obtain ⟨h1, h2, -⟩ := h
      subst h1; subst h2
      exact ⟨zeroed, hz, hl⟩

theorem fetch_loop_none (heap : Nat → Nat) (sig : List Nat) (n : Int) (d_time max_time : Nat)
    (fuel : Nat) (q : List es_eh_pair) (out : List (List Nat))
    (h : fetch_next_event2 q d_time max_time = none) :
    fetch_loop heap sig n d_time max_time fuel q out = .ok (q, out) := by
  cases fuel <;> simp [fetch_loop, h]

/-- The fetch loop leaves a byte as it was when it belongs to a sample that no event of the
window covers; the handlers of the events in the window store no more than `length` items on
that channel. -/
theorem fetch_loop_outside (heap : Nat → Nat) (sig : List Nat) (n : Int) (d_time : Nat)
    (hn0 : 0 < n) (hn1 : n < 2147483648) (ht : d_time ≤ ULLONG_MAX)
    (i j k : Nat) (hj : (j : Int) < n) (hk : k < sig.getD i 0)
    (hfit : n * ((sig.getD i 0 : Nat) : Int) < 2147483648) (fuel : Nat) :
    ∀ (q q1 : List es_eh_pair) (out out1 : List (List Nat)),
      fetch_loop heap sig n d_time (toU64 ((d_time : Int) + n)) fuel q out = .ok (q1, out1) →
      (∀ e ∈ q, in_window d_time (toU64 ((d_time : Int) + n)) e = true →
        (e.render.getD i []).length ≤ e.length * sig.getD i 0 ∧
        ¬ (e.time - d_time ≤ j ∧ j < e.time - d_time + e.length)) →
      ∀ z, out[i]? = some z →
        ∃ z1, out1[i]? = some z1 ∧ z1[j * sig.getD i 0 + k]? = z[j * sig.getD i 0 + k]? := by
  induction fuel with
  | zero =>
    intro q q1 out out1 h _ z hz
    unfold fetch_loop at h
    split at h
    · simp only [Except.ok.injEq, Prod.mk.injEq] at h
      obtain ⟨-, h2⟩ := h
      subst h2
      exact ⟨z, hz, rfl⟩
    · cases h
  | succ fuel ih =>
    intro q q1 out out1 h hq z hz
    unfold fetch_loop at h
    split at h
    · simp only [Except.ok.injEq, Prod.mk.injEq] at h
      obtain ⟨-, h2⟩ := h
      subst h2
      exact ⟨z, hz, rfl⟩
    · rename_i eh rest hfetch
      obtain ⟨hmem, hwin, hrest⟩ := fetch_some q rest d_time _ eh hfetch
      obtain ⟨hb, hf⟩ := hq eh hmem hwin
      split at h
      · cases h
      · rename_i o1 hh
        obtain ⟨z1, hz1, e1⟩ := handle_event_outside heap sig n d_time eh none out o1 hn0 hn1 ht
          hwin hh i j k hj hk hfit hb hf z hz
        obtain ⟨z2, hz2, e2⟩ := ih rest q1 o1 out1 h
          (fun e he => hq e (by rw [hrest] at he; exact List.mem_of_mem_erase he)) z1 hz1
        exact ⟨z2, hz2, e2.trans e1⟩
      · rename_i o1 holdover hh
        obtain ⟨z1, hz1, e1⟩ := handle_event_outside heap sig n d_time eh (some holdover) out o1
          hn0 hn1 ht hwin hh i j k hj hk hfit hb hf z hz
        obtain ⟨-, hoop⟩ := handle_event_holdover heap sig n d_time eh holdover out o1 hh
        have hout := holdover_outside_window heap sig n d_time eh holdover out o1 hn0 hn1 ht
          hwin hoop
        obtain ⟨z2, hz2, e2⟩ := ih (add_event rest holdover) q1 o1 out1 h
          (fun e he hw => by
            rcases (mem_add_event rest holdover e).mp he with heq | hin
            · rw [heq, hout] at hw; cases hw
            · exact hq e (by rw [hrest] at hin; exact List.mem_of_mem_erase hin) hw) z1 hz1
        exact ⟨z2, hz2, e2.trans e1⟩

/-- Unrolled at least once per queued event of the window, the fetch loop comes to its end:
each pass removes one event of the window and adds none to it. -/
theorem fetch_loop_finishes (heap : Nat → Nat) (sig : List Nat) (n : Int) (d_time : Nat)
    (hn0 : 0 < n) (hn1 : n < 2147483648) (ht : d_time ≤ ULLONG_MAX) (fuel : Nat) :
    ∀ (q : List es_eh_pair) (out : List (List Nat)),
      q.countP (in_window d_time (toU64 ((d_time : Int) + n))) ≤ fuel →
      fetch_loop heap sig n d_time (toU64 ((d_time : Int) + n)) fuel q out ≠
        .error .unfinished := by
  induction fuel with
  | zero =>
    intro q out hc
    have hnone : fetch_next_event2 q d_time (toU64 ((d_time : Int) + n)) = none := by
      unfold fetch_next_event2
      rw [earliest_none _ _ _ (fun e he => by
        have := List.countP_eq_zero.mp (Nat.le_zero.mp hc) e he
        simpa using this)]
    rw [fetch_loop_none _ _ _ _ _ _ _ _ hnone]
    simp
  | succ fuel ih =>
    intro q out hc
    unfold fetch_loop
    split
    · simp
    · rename_i eh rest hfetch
      obtain ⟨hmem, hwin, hrest⟩ := fetch_some q rest d_time _ eh hfetch
      have hcount := countP_erase_of_mem _ q eh hmem hwin
      rw [← hrest] at hcount
      split
      · rename_i f hf
        intro hcontra
        simp only [Except.error.injEq] at hcontra
        exact handle_event_error heap sig n d_time eh out f hf hcontra
      · exact ih rest _ (by omega)
      · rename_i o1 holdover hh
        obtain ⟨-, hoop⟩ := handle_event_holdover heap sig n d_time eh holdover out o1 hh
        have hout := holdover_outside_window heap sig n d_time eh holdover out o1 hn0 hn1 ht
          hwin hoop
        refine ih (add_event rest holdover) _ ?_
        rw [countP_add_event, hout]
        simp only [Bool.false_eq_true, if_false, Nat.add_zero]
        omega

/-- For `0 < noutput_items`, `work` comes to its end: it returns or stops on a failed
assertion, a failed allocation or an access outside a buffer. -/
theorem work_finishes (heap : Nat → Nat) (s : es_source) (n : Int) (out : List (List Nat))
    (hn0 : 0 < n) (hn1 : n < 2147483648) (ht : s.d_time ≤ ULLONG_MAX) :
    work heap s n out ≠ .error .unfinished := by
  unfold work
  split
  · rename_i f hf
    obtain ⟨j, b, hj⟩ := forChannels_error _ _ _ _ hf
    rw [memset_error _ _ _ hj]; simp
  · dsimp only
    split
    · rename_i f hf
      intro hcontra
      simp only [Except.error.injEq] at hcontra
      subst hcontra
      exact fetch_loop_finishes heap s.d_output_signature n s.d_time hn0 hn1 ht _ _ _
        (List.countP_le_length _) hf
    · simp

theorem work_empty_queue (heap : Nat → Nat) (t m : Nat) (n : Int) (hn : 0 ≤ n)
    (hn1 : n < 2147483648) :
    work heap ⟨t, m, [], [1]⟩ n [List.replicate n.toNat 0] =
      .ok (⟨toU64 ((t : Int) + produced n m t), m, [], [1]⟩, [List.replicate n.toNat 0],
        produced n m t) := by
  simp [work, forChannels, memset, store, sizeof_stream_item, fetch_loop, fetch_next_event2,
    earliest, hn, toInt32_of_range n (by omega) hn1]

/-- A run of `work` calls with `0 < noutput_items` comes to its end. -/
theorem work_calls_finishes (heap : Nat → Nat) (calls : List WorkCall) (s : es_source)
    (ht : s.d_time ≤ ULLONG_MAX)
    (hcalls : ∀ c ∈ calls, 0 < c.noutput_items ∧ c.noutput_items < 2147483648) :
    work_calls heap s calls ≠ .error .unfinished := by
  induction calls generalizing s with
  | nil => simp [work_calls]
  | cons c cs ih =>
    unfold work_calls
    obtain ⟨hc0, hc1⟩ := hcalls c (List.mem_cons_self _ _)
    split
    · rename_i f hf
      intro hcontra
      simp only [Except.error.injEq] at hcontra
      subst hcontra
      exact work_finishes heap
        ⟨s.d_time, s.d_maxlen, List.foldl add_event s.event_queue c.added, s.d_output_signature⟩
        c.noutput_items c.output_items hc0 hc1 ht hf
    · rename_i s1 o1 r hw
      obtain ⟨-, htime, -, -⟩ := work_ret heap _ s1 _ r _ o1 hw
      have ht1 : s1.d_time ≤ ULLONG_MAX := by
        rw [htime]; unfold toU64 ULLONG_MAX; omega
      have := ih s1 ht1 (fun c hc => hcalls c (List.mem_cons_of_mem _ hc))
      split
      · rename_i f hf
        intro hcontra
        simp only [Except.error.injEq] at hcontra
        subst hcontra
        exact this hf
      · simp

/-- At the cap every call of a run returns 0 and leaves the cursor where it is. -/
theorem work_calls_at_cap (heap : Nat → Nat) (calls : List WorkCall) (s s1 : es_source)
    (rets : List Int) (hcap : s.d_time = s.d_maxlen) (ht : s.d_time ≤ ULLONG_MAX)
    (h : work_calls heap s calls = .ok (s1, rets)) :
    rets.length = calls.length ∧ (∀ r ∈ rets, r = 0) ∧ s1.d_time = s.d_maxlen ∧
      s1.d_maxlen = s.d_maxlen := by
  induction calls generalizing s rets with
  | nil =>
    simp only [work_calls, Except.ok.injEq, Prod.mk.injEq] at h
    obtain ⟨h1, h2⟩ := h
    subst h1; subst h2
    simp [hcap]
  | cons c cs ih =>
    unfold work_calls at h
    split at h
    · cases h
    · rename_i s2 out2 r hw
      split at h
      · cases h
      · rename_i s3 rs hrest
        simp only [Except.ok.injEq, Prod.mk.injEq] at h
        obtain ⟨h1, h2⟩ := h
        subst h1; subst h2
        obtain ⟨hr, htime, hmax, -⟩ := work_ret heap _ s2 _ r _ out2 hw
        simp only at hr htime hmax
        rw [← hcap, produced_at_cap] at hr
        subst hr
        have ht2 : s2.d_time = s.d_time := by
          rw [htime]; unfold toU64; unfold ULLONG_MAX at ht; omega
        have := ih s2 rs (by rw [ht2, hmax, hcap]) (by rw [ht2]; exact ht) hrest
        obtain ⟨ha, hb, hc, hd⟩ := this
        refine ⟨by simp [ha], ?_, by rw [hc, hmax], by rw [hd, hmax]⟩
        intro r hr
        rcases List.mem_cons.mp hr with h0 | h0
        · exact h0
        · exact hb r h0

theorem reachable_range (heap : Nat → Nat) (s : es_source) (h : Reachable heap s) :
    s.d_time ≤ ULLONG_MAX ∧ s.d_maxlen ≤ ULLONG_MAX := by
  induction h with
  | make q sig => simp [es_source.make, ULLONG_MAX]
  | set_max s m _ hm ih => exact ⟨ih.1, hm⟩
  | work s s1 n r out out1 _ _ _ hw ih =>
    obtain ⟨-, htime, hmax, -⟩ := work_ret heap s s1 n r out out1 hw
    refine ⟨?_, by rw [hmax]; exact ih.2⟩
    rw [htime]; unfold toU64 ULLONG_MAX; omega

theorem reachable_saturating (heap : Nat → Nat) (k : Nat) :
    ∀ t, t = min (2147483647 * k) ULLONG_MAX → Reachable heap ⟨t, ULLONG_MAX, [], [1]⟩ := by
  induction k with
  | zero => intro t ht; simp at ht; subst ht; exact Reachable.make [] [1]
  | succ k ih =>
    intro t ht
    have hw := work_empty_queue heap (min (2147483647 * k) ULLONG_MAX) ULLONG_MAX 2147483647
      (by decide) (by decide)
    rw [saturating_step k _ rfl, ← ht] at hw
    exact Reachable.work _ _ _ _ _ _ (ih _ rfl) (by decide) (by decide) hw

/-- On a reachable block whose cursor has not passed `d_maxlen`, or is at least
`noutput_items` below `2^64 - 1`, `work` advances the cursor by exactly the returned count,
without wrapping, so the cursor does not decrease. -/
theorem cursor_advance_exact (heap : Nat → Nat) (s s1 : es_source) (n r : Int)
    (out out1 : List (List Nat)) (hs : Reachable heap s) (hn0 : 0 < n) (hn1 : n < 2147483648)
    (hok : s.d_time ≤ s.d_maxlen ∨ (s.d_time : Int) + n ≤ ULLONG_MAX)
    (h : work heap s n out = .ok (s1, out1, r)) :
    (s1.d_time : Int) = s.d_time + r ∧ s.d_time ≤ s1.d_time := by
  obtain ⟨hr, ht, -, -⟩ := work_ret heap s s1 n r out out1 h
  obtain ⟨h1, h2⟩ := reachable_range heap s hs
  have hrange := produced_range n s.d_maxlen s.d_time hn0 hn1
  rw [← hr] at hrange
  have hsum : (s.d_time : Int) + r ≤ ULLONG_MAX := by
    rcases hok with hle | hle
    · have := produced_eq_min n s.d_maxlen s.d_time hn0 hn1 hle h2
      rw [← hr] at this
      omega
    · omega
  have : (s1.d_time : Int) = s.d_time + r := by
    rw [ht]; unfold ULLONG_MAX at hsum; apply toU64_of_range <;> omega
  exact ⟨this, by omega⟩

/-- Where the narrowings to `int` lose nothing, the split of an event that takes the out-of-place
branch is a partition of the event: the first part is not empty and ends at the end of the
buffer, the rest may be empty. -/
theorem split_bounds_in_range (n : Int) (d_time : Nat) (eh : es_eh_pair)
    (hn1 : n < 2147483648) (h1 : d_time ≤ eh.time) (h2 : (eh.time : Int) < d_time + n)
    (hlen : (eh.time : Int) - d_time + eh.length < 2147483648)
    (hout : use_inplace_buffer n d_time eh = false) :
    0 ≤ buffer_offset d_time eh ∧ buffer_offset d_time eh < n ∧
    1 ≤ usable_items n d_time eh ∧ usable_items n d_time eh ≤ eh.length ∧
    0 ≤ leftover_items n d_time eh ∧ leftover_items n d_time eh < eh.length ∧
    usable_items n d_time eh + leftover_items n d_time eh = eh.length ∧
    buffer_offset d_time eh + usable_items n d_time eh = n ∧
    (0 < leftover_items n d_time eh ↔ n < buffer_offset d_time eh + eh.length) := by
  have hin := use_inplace_buffer_iff n d_time eh hn1 h1 h2 hlen
  rw [hout] at hin
  have hge : n ≤ (eh.time : Int) - d_time + eh.length := by
    by_contra hc
    exact absurd (hin.mpr (by omega)) (by simp)
  have hb := buffer_offset_exact n d_time eh hn1 h1 h2
  have hu := usable_items_exact n d_time eh hn1 h1 h2
  have hl : leftover_items n d_time eh = (eh.length : Int) - usable_items n d_time eh := by
    unfold leftover_items
    rw [hu]
    exact leftover_exact eh.length (n - ((eh.time : Int) - d_time)) (by omega) (by omega) (by omega)
  rw [hl, hu, hb]
  omega

theorem earliest_eq_none (lo hi : Nat) (q : List es_eh_pair)
    (h : earliest lo hi q = none) : ∀ e ∈ q, in_window lo hi e = false := by
  induction q with
  | nil => intro e he; cases he
  | cons x xs ih =>
    unfold earliest at h
    split at h
    · split at h
      · split at h <;> cases h
      · cases h
    · rename_i hx
      intro e he
      rcases List.mem_cons.mp he with h0 | h0
      · rw [h0]; simpa using hx
      · exact ih h e h0

theorem fetch_none (q : List es_eh_pair) (lo hi : Nat)
    (h : fetch_next_event2 q lo hi = none) : ∀ e ∈ q, in_window lo hi e = false := by
  unfold fetch_next_event2 at h
  split at h
  · rename_i hn
    exact earliest_eq_none lo hi q hn
  · cases h

theorem in_place_error (sig : List Nat) (d_time : Nat) (eh : es_eh_pair)
    (out : List (List Nat)) (x : Fault) (h : in_place sig d_time eh out = .error x) :
    x = .out_of_bounds := by
  unfold in_place at h
  obtain ⟨j, b, hj⟩ := forChannels_error _ _ _ _ h
  exact store_error _ _ _ _ hj

theorem out_of_place_error (heap : Nat → Nat) (sig : List Nat) (n : Int) (d_time : Nat)
    (eh : es_eh_pair) (out : List (List Nat)) (x : Fault)
    (h : out_of_place heap sig n d_time eh out = .error x) :
    x = .bad_alloc ∨ x = .out_of_bounds := by
  unfold out_of_place at h
  split at h
  · rename_i e1 h1
    simp only [Except.error.injEq] at h
    subst h
    obtain ⟨j, b, hj⟩ := forChannels_error _ _ _ _ h1
    exact Or.inl (new_uint8_error _ _ _ hj)
  · split at h
    · rename_i e1 h1
      simp only [Except.error.injEq] at h
      subst h
      obtain ⟨j, b, hj⟩ := forChannels_error _ _ _ _ h1
      exact Or.inr (store_error _ _ _ _ hj)
    · split at h
      · rename_i e1 h1
        simp only [Except.error.injEq] at h
        subst h
        obtain ⟨j, b, hj⟩ := forChannels_error _ _ _ _ h1
        exact Or.inr (copy_usable_error _ _ _ _ _ _ _ _ hj)
      · split at h
        · rename_i e1 h1
          simp only [Except.error.injEq] at h
          subst h
          obtain ⟨j, b, hj⟩ := forChannels_error _ _ _ _ h1
          unfold leftover_vector at hj
          exact Or.inr (load_error _ _ _ _ hj)
        · cases h

/-- The loop body stops on the assertion exactly when the handler is not an accepter,
whatever the event's time. -/
theorem handle_event_assert (heap : Nat → Nat) (sig : List Nat) (n : Int) (d_time : Nat)
    (eh : es_eh_pair) (out : List (List Nat)) :
    handle_event heap sig n d_time eh out = .error .assert_accepter ↔ eh.accepter = false := by
  constructor
  · intro h
    by_contra hacc
    unfold handle_event at h
    rw [if_neg hacc] at h
    split at h
    · split at h
      · rename_i e he
        simp only [Except.error.injEq] at h
        subst h
        have := in_place_error _ _ _ _ _ he
        cases this
      · cases h
    · split at h
      · rename_i e he
        simp only [Except.error.injEq] at h
        subst h
        rcases out_of_place_error _ _ _ _ _ _ _ he with h0 | h0 <;> cases h0
      · cases h
  · intro h
    unfold handle_event
    rw [if_pos h]

/-- The fetch loop stops on the assertion only for a queued event of the window whose handler
is not an accepter. -/
theorem fetch_loop_assert (heap : Nat → Nat) (sig : List Nat) (n : Int) (d_time max_time : Nat)
    (fuel : Nat) :
    ∀ (q : List es_eh_pair) (out : List (List Nat)),
      fetch_loop heap sig n d_time max_time fuel q out = .error .assert_accepter →
      ∃ e ∈ q, in_window d_time max_time e = true ∧ e.accepter = false := by
  induction fuel with
  | zero =>
    intro q out h
    unfold fetch_loop at h
    split at h <;> cases h
  | succ fuel ih =>
    intro q out h
    unfold fetch_loop at h
    split at h
    · cases h
    · rename_i eh rest hfetch
      obtain ⟨hmem, hwin, hrest⟩ := fetch_some q rest d_time _ eh hfetch
      split at h
      · rename_i f hf
        simp only [Except.error.injEq] at h
        subst h
        exact ⟨eh, hmem, hwin, (handle_event_assert heap sig n d_time eh out).mp hf⟩
      · obtain ⟨e, he, hw, ha⟩ := ih rest _ h
        exact ⟨e, by rw [hrest] at he; exact List.mem_of_mem_erase he, hw, ha⟩
      · rename_i o1 holdover hh
        obtain ⟨e, he, hw, ha⟩ := ih _ _ h
        obtain ⟨-, hoop⟩ := handle_event_holdover heap sig n d_time eh holdover out o1 hh
        obtain ⟨-, -, hacc⟩ := out_of_place_holdover heap sig n d_time eh holdover out o1 hoop
        rcases (mem_add_event rest holdover e).mp he with heq | hin
        · rw [heq, hacc] at ha; cases ha
        · exact ⟨e, by rw [hrest] at hin; exact List.mem_of_mem_erase hin, hw, ha⟩

/-- The fetch loop does not come to a normal end while the queue holds an event of the window
whose handler is not an accepter. -/
theorem fetch_loop_unbound (heap : Nat → Nat) (sig : List Nat) (n : Int) (d_time max_time : Nat)
    (e : es_eh_pair) (hw : in_window d_time max_time e = true) (ha : e.accepter = false)
    (fuel : Nat) :
    ∀ (q : List es_eh_pair) (out : List (List Nat)), e ∈ q →
      ∀ r, fetch_loop heap sig n d_time max_time fuel q out ≠ .ok r := by
  induction fuel with
  | zero =>
    intro q out he r h
    unfold fetch_loop at h
    split at h
    · rename_i hnone
      have := fetch_none q d_time max_time hnone e he
      rw [hw] at this; cases this
    · cases h
  | succ fuel ih =>
    intro q out he r h
    unfold fetch_loop at h
    split at h
    · rename_i hnone
      have := fetch_none q d_time max_time hnone e he
      rw [hw] at this; cases this
    · rename_i eh rest hfetch
      obtain ⟨hmem, hwin, hrest⟩ := fetch_some q rest d_time _ eh hfetch
      by_cases heq : e = eh
      · subst heq
        rw [(handle_event_assert heap sig n d_time e out).mpr ha] at h
        cases h
      · have hin : e ∈ rest := by
          rw [hrest]; exact (List.mem_erase_of_ne heq).mpr he
        split at h
        · cases h
        · exact ih rest _ hin r h
        · rename_i o1 holdover hh
          exact ih _ _ ((mem_add_event rest holdover e).mpr (Or.inr hin)) r h

/-- The assertion is the only fault `work` can report as `assert_accepter`: it comes from the
fetch loop. -/
theorem work_assert (heap : Nat → Nat) (s : es_source) (n : Int) (out : List (List Nat))
    (h : work heap s n out = .error .assert_accepter) :
    ∃ e ∈ s.event_queue,
      in_window s.d_time (toU64 ((s.d_time : Int) + n)) e = true ∧ e.accepter = false := by
  unfold work at h
  split at h
  · rename_i f hf
    simp only [Except.error.injEq] at h
    subst h
    obtain ⟨j, b, hj⟩ := forChannels_error _ _ _ _ hf
    have := memset_error _ _ _ hj
    cases this
  · dsimp only at h
    split at h
    · rename_i f hf
      simp only [Except.error.injEq] at h
      subst h
      exact fetch_loop_assert heap _ n _ _ _ _ _ hf
    · cases h

theorem work_unbound (heap : Nat → Nat) (s : es_source) (n : Int) (out : List (List Nat))
    (e : es_eh_pair) (he : e ∈ s.event_queue)
    (hw : in_window s.d_time (toU64 ((s.d_time : Int) + n)) e = true) (ha : e.accepter = false)
    (r : es_source × List (List Nat) × Int) : work heap s n out ≠ .ok r := by
  intro h
  obtain ⟨s1, out1, ret⟩ := r
  obtain ⟨zeroed, -, hl⟩ := work_ok heap s s1 n ret out out1 h
  exact fetch_loop_unbound heap _ n _ _ e hw ha _ _ _ he _ hl

/-- When the fetch loop comes to its normal end no queued event is left in the window. -/
theorem fetch_loop_drained (heap : Nat → Nat) (sig : List Nat) (n : Int) (d_time max_time : Nat)
    (fuel : Nat) :
    ∀ (q q1 : List es_eh_pair) (out out1 : List (List Nat)),
      fetch_loop heap sig n d_time max_time fuel q out = .ok (q1, out1) →
      ∀ e ∈ q1, in_window d_time max_time e = false := by
  induction fuel with
  | zero =>
    intro q q1 out out1 h
    unfold fetch_loop at h
    split at h
    · rename_i hnone
      simp only [Except.ok.injEq, Prod.mk.injEq] at h
      rw [← h.1]
      exact fetch_none q d_time max_time hnone
    · cases h
  | succ fuel ih =>
    intro q q1 out out1 h
    unfold fetch_loop at h
    split at h
    · rename_i hnone
      simp only [Except.ok.injEq, Prod.mk.injEq] at h
      rw [← h.1]
      exact fetch_none q d_time max_time hnone
    · split at h
      · cases h
      · exact ih _ _ _ _ h
      · exact ih _ _ _ _ h

/-- The fetch loop, and so the output and the queue after `work`, do not read `d_maxlen`. -/
theorem work_set_max (heap : Nat → Nat) (s : es_source) (n : Int) (out : List (List Nat))
    (m : Nat) :
    (work heap (s.set_max m) n out).map (fun r => (r.1.event_queue, r.2.1)) =
      (work heap s n out).map (fun r => (r.1.event_queue, r.2.1)) := by
  unfold work es_source.set_max
  dsimp only
  cases forChannels
      (fun i b => memset b (toInt32 (n * sizeof_stream_item s.d_output_signature i))) 0 out with
  | error f => rfl
  | ok zeroed =>
    dsimp only
    cases fetch_loop heap s.d_output_signature n s.d_time (toU64 ((s.d_time : Int) + n))
      s.event_queue.length s.event_queue zeroed with
    | error f => rfl
    | ok r => simp only [Except.map]

/-- A run of `work` calls on a block whose cursor has not passed the cap: the cursor advances by
the sum of the returned counts and stays at or below the cap. -/
theorem work_calls_budget (heap : Nat → Nat) (calls : List WorkCall) :
    ∀ (s s1 : es_source) (rets : List Int), s.d_time ≤ s.d_maxlen → s.d_maxlen ≤ ULLONG_MAX →
      (∀ c ∈ calls, 0 < c.noutput_items ∧ c.noutput_items < 2147483648) →
      work_calls heap s calls = .ok (s1, rets) →
      (s1.d_time : Int) = s.d_time + rets.sum ∧ s1.d_time ≤ s.d_maxlen ∧
        s1.d_maxlen = s.d_maxlen := by
  induction calls with
  | nil =>
    intro s s1 rets hle _ _ h
    simp only [work_calls, Except.ok.injEq, Prod.mk.injEq] at h
    obtain ⟨h1, h2⟩ := h
    subst h1; subst h2
    simp [hle]
  | cons c cs ih =>
    intro s s1 rets hle hmax hcalls h
    unfold work_calls at h
    split at h
    · cases h
    · rename_i s2 out2 r hw
      split at h
      · cases h
      · rename_i s3 rs hrest
        simp only [Except.ok.injEq, Prod.mk.injEq] at h
        obtain ⟨h1, h2⟩ := h
        subst h1; subst h2
        obtain ⟨hc0, hc1⟩ := hcalls c (List.mem_cons_self _ _)
        obtain ⟨hr, htime, hm, -⟩ := work_ret heap _ s2 _ r _ out2 hw
        simp only at hr htime hm
        rw [produced_eq_min c.noutput_items s.d_maxlen s.d_time hc0 hc1 hle hmax] at hr
        have ht2 : (s2.d_time : Int) = s.d_time + r := by
          rw [htime]; unfold ULLONG_MAX at hmax; apply toU64_of_range <;> omega
        have hle2 : s2.d_time ≤ s2.d_maxlen := by rw [hm]; omega
        obtain ⟨ha, hb, hc⟩ := ih s2 s3 rs hle2 (by rw [hm]; exact hmax)
          (fun c hc => hcalls c (List.mem_cons_of_mem _ hc)) hrest
        refine ⟨?_, by rw [← hm]; exact hb, by rw [hc, hm]⟩
        rw [List.sum_cons, ha, ht2]; ring

theorem sum_requests_nonneg (calls : List WorkCall)
    (hcalls : ∀ c ∈ calls, 0 < c.noutput_items ∧ c.noutput_items < 2147483648) :
    0 ≤ (calls.map (fun c => c.noutput_items)).sum := by
  induction calls with
  | nil => simp
  | cons c cs ih =>
    have h1 := (hcalls c (List.mem_cons_self _ _)).1
    have h2 := ih (fun c hc => hcalls c (List.mem_cons_of_mem _ hc))
    rw [List.map_cons, List.sum_cons]
    omega

theorem work_calls_append (heap : Nat → Nat) (pre post : List WorkCall) :
    ∀ (s s1 : es_source) (rets : List Int), work_calls heap s (pre ++ post) = .ok (s1, rets) →
      ∃ sp r1 r2, work_calls heap s pre = .ok (sp, r1) ∧ work_calls heap sp post = .ok (s1, r2) ∧
        rets = r1 ++ r2 := by
  induction pre with
  | nil =>
    intro s s1 rets h
    exact ⟨s, [], rets, rfl, h, rfl⟩
  | cons c cs ih =>
    intro s s1 rets h
    rw [List.cons_append] at h
    unfold work_calls at h
    split at h
    · cases h
    · rename_i s2 out2 r hw
      split at h
      · cases h
      · rename_i s3 rs hrest
        simp only [Except.ok.injEq, Prod.mk.injEq] at h
        obtain ⟨h1, h2⟩ := h
        subst h1; subst h2
        obtain ⟨sp, r1, r2, g1, g2, g3⟩ := ih s2 s3 rs hrest
        refine ⟨sp, r :: r1, r2, ?_, g2, by rw [g3]; rfl⟩
        unfold work_calls
        rw [hw]
        dsimp only
        rw [g1]

/-- A run of `work` calls under the default cap that does not reach `2^64 - 1`: every call
returns what was requested and the cursor advances by the sum. -/
theorem work_calls_unclamped (heap : Nat → Nat) (calls : List WorkCall) :
    ∀ (s s1 : es_source) (rets : List Int), s.d_maxlen = ULLONG_MAX →
      (∀ c ∈ calls, 0 < c.noutput_items ∧ c.noutput_items < 2147483648) →
      (s.d_time : Int) + (calls.map (fun c => c.noutput_items)).sum ≤ ULLONG_MAX →
      work_calls heap s calls = .ok (s1, rets) →
      rets = calls.map (fun c => c.noutput_items) ∧
        (s1.d_time : Int) = s.d_time + (calls.map (fun c => c.noutput_items)).sum := by
  induction calls with
  | nil =>
    intro s s1 rets _ _ _ h
    simp only [work_calls, Except.ok.injEq, Prod.mk.injEq] at h
    obtain ⟨h1, h2⟩ := h
    subst h1; subst h2
    simp
  | cons c cs ih =>
    intro s s1 rets hmax hcalls hsum h
    unfold work_calls at h
    split at h
    · cases h
    · rename_i s2 out2 r hw
      split at h
      · cases h
      · rename_i s3 rs hrest
        simp only [Except.ok.injEq, Prod.mk.injEq] at h
        obtain ⟨h1, h2⟩ := h
        subst h1; subst h2
        obtain ⟨hc0, hc1⟩ := hcalls c (List.mem_cons_self _ _)
        have hcs := fun c hc => hcalls c (List.mem_cons_of_mem _ hc)
        have hnn := sum_requests_nonneg cs hcs
        rw [List.map_cons, List.sum_cons] at hsum
        obtain ⟨hr, htime, hm, -⟩ := work_ret heap _ s2 _ r _ out2 hw
        simp only at hr htime hm
        have hle : s.d_time ≤ s.d_maxlen := by rw [hmax]; omega
        rw [produced_eq_min c.noutput_items s.d_maxlen s.d_time hc0 hc1 hle (by rw [hmax]),
          hmax] at hr
        have hr2 : r = c.noutput_items := by omega
        have ht2 : (s2.d_time : Int) = s.d_time + r := by
          rw [htime]; unfold ULLONG_MAX at hsum; apply toU64_of_range <;> omega
        obtain ⟨ha, hb⟩ := ih s2 s3 rs (by rw [hm, hmax]) hcs (by rw [ht2, hr2]; omega) hrest
        refine ⟨by rw [ha, hr2]; rfl, ?_⟩
        rw [List.map_cons, List.sum_cons, hb, ht2, hr2]; ring

theorem perm_add_event (q : List es_eh_pair) (e : es_eh_pair) :
    (add_event q e).Perm (e :: q) := by
  induction q with
  | nil => exact List.Perm.refl _
  | cons x xs ih =>
    unfold add_event
    split
    · exact List.Perm.refl _
    · exact (List.Perm.cons x ih).trans (List.Perm.swap e x xs)

theorem handle_event_channels (heap : Nat → Nat) (sig : List Nat) (n : Int) (d_time : Nat)
    (eh : es_eh_pair) (ho : Option es_eh_pair) (out out1 : List (List Nat))
    (h : handle_event heap sig n d_time eh out = .ok (out1, ho)) : out1.length = out.length := by
  cases ho with
  | none =>
    obtain ⟨-, hin⟩ := handle_event_in_place heap sig n d_time eh out out1 h
    unfold in_place at hin
    exact (forChannels_ok _ _ _ _ hin).1
  | some holdover =>
    obtain ⟨-, hoop⟩ := handle_event_holdover heap sig n d_time eh holdover out out1 h
    obtain ⟨fresh, bufs, -, -, h3, -⟩ := out_of_place_ok heap sig n d_time eh holdover out out1 hoop
    exact (forChannels_ok _ _ _ _ h3).1

theorem filter_window_of_fetch (p : es_eh_pair → Bool) (q : List es_eh_pair) (eh : es_eh_pair)
    (hmem : eh ∈ q) :
    (q.filter p).Perm ((eh :: q.erase eh).filter p) :=
  (List.perm_cons_erase hmem).filter p

theorem fetch_passes_none (heap : Nat → Nat) (sig : List Nat) (n : Int) (d_time max_time : Nat)
    (fuel : Nat) (q : List es_eh_pair) (out : List (List Nat))
    (h : fetch_next_event2 q d_time max_time = none) :
    fetch_passes heap sig n d_time max_time fuel q out = [] := by
  cases fuel <;> simp [fetch_passes, h]

theorem fetch_loop_idle (d_time max_time : Nat) (q : List es_eh_pair)
    (h : fetch_next_event2 q d_time max_time = none) :
    q.filter (in_window d_time max_time) = [] ∧
      q.filter (fun e => !in_window d_time max_time e) = q := by
  have hall := fetch_none q d_time max_time h
  constructor
  · rw [List.filter_eq_nil_iff]
    intro e he
    rw [hall e he]; simp
  · rw [List.filter_eq_self]
    intro e he
    rw [hall e he]; rfl

/-- What the fetch loop has done when it comes to its normal end, for `0 < noutput_items`: it
fetched the queued events of the window, each once; the queue then holds the events that
were outside the window and the hold-over events the passes made; and every listed pass is a
pass of the loop body on an event of the window, on buffers with the channels of the call,
that gave the listed hold-over event. -/
theorem fetch_loop_passes (heap : Nat → Nat) (sig : List Nat) (n : Int) (d_time : Nat)
    (hn0 : 0 < n) (hn1 : n < 2147483648) (ht : d_time ≤ ULLONG_MAX) (fuel : Nat) :
    ∀ (q q1 : List es_eh_pair) (out out1 : List (List Nat)),
      fetch_loop heap sig n d_time (toU64 ((d_time : Int) + n)) fuel q out = .ok (q1, out1) →
      ((fetch_passes heap sig n d_time (toU64 ((d_time : Int) + n)) fuel q out).map
          Prod.fst).Perm (q.filter (in_window d_time (toU64 ((d_time : Int) + n)))) ∧
      q1.Perm (q.filter (fun e => !in_window d_time (toU64 ((d_time : Int) + n)) e) ++
        (fetch_passes heap sig n d_time (toU64 ((d_time : Int) + n)) fuel q out).filterMap
          Prod.snd) ∧
      ∀ p ∈ fetch_passes heap sig n d_time (toU64 ((d_time : Int) + n)) fuel q out,
        in_window d_time (toU64 ((d_time : Int) + n)) p.1 = true ∧
        ∃ bufs bufs1, bufs.length = out.length ∧
          handle_event heap sig n d_time p.1 bufs = .ok (bufs1, p.2) := by
  induction fuel with
  | zero =>
    intro q q1 out out1 h
    unfold fetch_loop at h
    split at h
    · rename_i hnone
      simp only [Except.ok.injEq, Prod.mk.injEq] at h
      obtain ⟨hq, -⟩ := h
      subst hq
      obtain ⟨f1, f2⟩ := fetch_loop_idle d_time _ q hnone
      rw [fetch_passes_none _ _ _ _ _ _ _ _ hnone, f1, f2]
      simp
    · cases h
  | succ fuel ih =>
    intro q q1 out out1 h
    unfold fetch_loop at h
    split at h
    · rename_i hnone
      simp only [Except.ok.injEq, Prod.mk.injEq] at h
      obtain ⟨hq, -⟩ := h
      subst hq
      obtain ⟨f1, f2⟩ := fetch_loop_idle d_time _ q hnone
      rw [fetch_passes_none _ _ _ _ _ _ _ _ hnone, f1, f2]
      simp
    · rename_i eh rest hfetch
      obtain ⟨hmem, hwin, hrest⟩ := fetch_some q rest d_time _ eh hfetch
      have hnw : (!in_window d_time (toU64 ((d_time : Int) + n)) eh) = false := by
        rw [hwin]; rfl
      have pin := filter_window_of_fetch (in_window d_time (toU64 ((d_time : Int) + n))) q eh hmem
      have pout := filter_window_of_fetch
        (fun e => !in_window d_time (toU64 ((d_time : Int) + n)) e) q eh hmem
      rw [← hrest, List.filter_cons_of_pos hwin] at pin
      rw [← hrest, List.filter_cons_of_neg (by simp [hwin])] at pout
      split at h
      · cases h
      · rename_i o1 hh
        obtain ⟨i1, i2, i3⟩ := ih rest q1 o1 out1 h
        have hlen := handle_event_channels heap sig n d_time eh none out o1 hh
        have hP : fetch_passes heap sig n d_time (toU64 ((d_time : Int) + n)) (fuel + 1) q out =
            (eh, none) :: fetch_passes heap sig n d_time (toU64 ((d_time : Int) + n)) fuel
              rest o1 := by
          rw [fetch_passes, hfetch]
          dsimp only
          rw [hh]
        rw [hP]
        refine ⟨?_, ?_, ?_⟩
        · rw [List.map_cons]
          exact (List.Perm.cons eh i1).trans pin.symm
        · have hfm : ∀ P : List (es_eh_pair × Option es_eh_pair),
              List.filterMap Prod.snd ((eh, none) :: P) = List.filterMap Prod.snd P :=
            fun P => rfl
          rw [hfm]
          exact i2.trans (List.Perm.append_right _ pout.symm)
        · intro p hp
          rcases List.mem_cons.mp hp with h0 | h0
          · subst h0
            exact ⟨hwin, out, o1, rfl, hh⟩
          · obtain ⟨j1, bufs, bufs1, j2, j3⟩ := i3 p h0
            exact ⟨j1, bufs, bufs1, by rw [j2, hlen], j3⟩
      · rename_i o1 holdover hh
        obtain ⟨i1, i2, i3⟩ := ih (add_event rest holdover) q1 o1 out1 h
        have hlen := handle_event_channels heap sig n d_time eh (some holdover) out o1 hh
        obtain ⟨-, hoop⟩ := handle_event_holdover heap sig n d_time eh holdover out o1 hh
        have hout := holdover_outside_window heap sig n d_time eh holdover out o1 hn0 hn1 ht
          hwin hoop
        have padd := perm_add_event rest holdover
        have a1 := padd.filter (in_window d_time (toU64 ((d_time : Int) + n)))
        have a2 := padd.filter (fun e => !in_window d_time (toU64 ((d_time : Int) + n)) e)
        rw [List.filter_cons_of_neg (by simp [hout])] at a1
        rw [List.filter_cons_of_pos (by simp [hout])] at a2
        have hP : fetch_passes heap sig n d_time (toU64 ((d_time : Int) + n)) (fuel + 1) q out =
            (eh, some holdover) :: fetch_passes heap sig n d_time (toU64 ((d_time : Int) + n))
              fuel (add_event rest holdover) o1 := by
          rw [fetch_passes, hfetch]
          dsimp only
          rw [hh]
        rw [hP]
        refine ⟨?_, ?_, ?_⟩
        · rw [List.map_cons]
          exact (List.Perm.cons eh (i1.trans a1)).trans pin.symm
        · have hfm : ∀ P : List (es_eh_pair × Option es_eh_pair),
              List.filterMap Prod.snd ((eh, some holdover) :: P) =
                holdover :: List.filterMap Prod.snd P := fun P => rfl
          rw [hfm]
          refine i2.trans ?_
          refine (List.Perm.append_right _ a2).trans ?_
          refine List.Perm.trans ?_ List.perm_middle.symm
          rw [List.cons_append]
          exact List.Perm.cons holdover (List.Perm.append_right _ pout.symm)
        · intro p hp
          rcases List.mem_cons.mp hp with h0 | h0
          · subst h0
            exact ⟨hwin, out, o1, rfl, hh⟩
          · obtain ⟨j1, bufs, bufs1, j2, j3⟩ := i3 p h0
            exact ⟨j1, bufs, bufs1, by rw [j2, hlen], j3⟩

/-- What the fetch loop of a returning `work` call has done, for `0 < noutput_items`. -/
theorem work_passes_ok (heap : Nat → Nat) (s s1 : es_source) (n r : Int)
    (out out1 : List (List Nat)) (hn0 : 0 < n) (hn1 : n < 2147483648)
    (ht : s.d_time ≤ ULLONG_MAX) (h : work heap s n out = .ok (s1, out1, r)) :
    ((work_passes heap s n out).map Prod.fst).Perm
        (s.event_queue.filter (in_window s.d_time (toU64 ((s.d_time : Int) + n)))) ∧
      s1.event_queue.Perm
        (s.event_queue.filter (fun e => !in_window s.d_time (toU64 ((s.d_time : Int) + n)) e) ++
          (work_passes heap s n out).filterMap Prod.snd) ∧
      ∀ p ∈ work_passes heap s n out,
        in_window s.d_time (toU64 ((s.d_time : Int) + n)) p.1 = true ∧
        ∃ bufs bufs1, bufs.length = out.length ∧
          handle_event heap s.d_output_signature n s.d_time p.1 bufs = .ok (bufs1, p.2) := by
  obtain ⟨zeroed, hz, hl⟩ := work_ok heap s s1 n r out out1 h
  have hlen := (forChannels_ok _ _ _ _ hz).1
  have hP : work_passes heap s n out =
      fetch_passes heap s.d_output_signature n s.d_time (toU64 ((s.d_time : Int) + n))
        s.event_queue.length s.event_queue zeroed := by
    unfold work_passes
    rw [hz]
  rw [hP, ← hlen]
  exact fetch_loop_passes heap s.d_output_signature n s.d_time hn0 hn1 ht _ _ _ _ _ hl

/-- A hold-over event made for an event of the window starts at the window's upper bound. -/
theorem holdover_starts_at_window_end (heap : Nat → Nat) (sig : List Nat) (n : Int)
    (d_time : Nat) (eh holdover : es_eh_pair) (out out1 : List (List Nat))
    (hn0 : 0 < n) (hn1 : n < 2147483648) (ht : d_time ≤ ULLONG_MAX)
    (hwin : in_window d_time (toU64 ((d_time : Int) + n)) eh = true)
    (h : out_of_place heap sig n d_time eh out = .ok (out1, holdover)) :
    (holdover.time : Int) = d_time + n ∧ (d_time : Int) + n ≤ ULLONG_MAX := by
  obtain ⟨h1, h2, h3⟩ := window_exact n d_time eh hn0 hn1 ht hwin
  have hu := usable_items_exact n d_time eh hn1 h1 h2
  obtain ⟨hh, -, -⟩ := out_of_place_holdover heap sig n d_time eh holdover out out1 h
  have hsum : (eh.time : Int) + usable_items n d_time eh = d_time + n := by rw [hu]; ring
  rw [hsum] at hh
  constructor
  · rw [hh]; exact h3
  · rw [← h3]
    unfold toU64 ULLONG_MAX
    omega

/-- Without a wrap of the upper bound, the window test is membership of
`[d_time, d_time + noutput_items)`. -/
theorem in_window_iff (n : Int) (d_time : Nat) (e : es_eh_pair) (hn0 : 0 < n)
    (hnw : (d_time : Int) + n ≤ ULLONG_MAX) :
    in_window d_time (toU64 ((d_time : Int) + n)) e = true ↔
      d_time ≤ e.time ∧ (e.time : Int) < d_time + n := by
  simp only [in_window, Bool.and_eq_true, decide_eq_true_eq]
  unfold ULLONG_MAX at hnw
  unfold toU64
  omega

theorem toNat_mul_size (s : Nat) (lf : Int) (h : 0 ≤ (s : Int) * lf) :
    ((s : Int) * lf).toNat = lf.toNat * s := by
  rcases Nat.eq_zero_or_pos s with h0 | h0
  · subst h0; simp
  · have hsi : (0 : Int) < s := by exact_mod_cast h0
    have hlf : 0 ≤ lf := by
      by_contra hneg
      have : (s : Int) * lf < 0 := Int.mul_neg_of_pos_of_neg hsi (by omega)
      omega
    have : ((((s : Int) * lf).toNat : Nat) : Int) = ((lf.toNat * s : Nat) : Int) := by
      push_cast
      rw [Int.toNat_of_nonneg h, Int.toNat_of_nonneg hlf]; ring
    exact_mod_cast this

/-- Vector `i` of a hold-over event has `length * s_i` bytes. -/
theorem holdover_vector_length (heap : Nat → Nat) (sig : List Nat) (n : Int) (d_time : Nat)
    (eh holdover : es_eh_pair) (out out1 : List (List Nat))
    (h : out_of_place heap sig n d_time eh out = .ok (out1, holdover))
    (i : Nat) (hi : i < out.length) (hl0 : 0 ≤ leftover_items n d_time eh)
    (hfit : (holdover.length : Int) * ((sig.getD i 0 : Nat) : Int) < 2147483648) :
    (holdover.render.getD i []).length = holdover.length * sig.getD i 0 := by
  obtain ⟨b, hb⟩ : ∃ b, out[i]? = some b := ⟨out[i], List.getElem?_eq_getElem hi⟩
  obtain ⟨f0, t, first, o, v, -, -, -, -, -, e5, hv⟩ :=
    out_of_place_channel heap sig n d_time eh holdover out out1 h i b hb
  obtain ⟨-, hlen, -⟩ := out_of_place_holdover heap sig n d_time eh holdover out out1 h
  have hv1 : holdover.render.getD i [] = v := by simp [List.getD_eq_getElem?_getD, hv]
  have hl : ((holdover.length : Nat) : Int) = leftover_items n d_time eh := by
    rw [hlen]; exact Int.toNat_of_nonneg hl0
  have hexact : toInt32 (sizeof_stream_item sig i * leftover_items n d_time eh) =
      ((sig.getD i 0 : Nat) : Int) * leftover_items n d_time eh := by
    unfold sizeof_stream_item
    rw [mul_comm, ← hl]
    exact int_product_exact _ _ _ (Int.ofNat_nonneg _) (le_refl _) hfit
  rw [hexact] at e5
  obtain ⟨-, d2, d3, d4⟩ := load_ok t v _ _ e5
  rw [hv1, d4, slice_length t _ _ d3, hlen]
  exact toNat_mul_size (sig.getD i 0) _ d2

/-- The length of a hold-over event is an `int` that is not negative. -/
theorem holdover_length_lt (heap : Nat → Nat) (sig : List Nat) (n : Int) (d_time : Nat)
    (eh holdover : es_eh_pair) (out out1 : List (List Nat))
    (h : out_of_place heap sig n d_time eh out = .ok (out1, holdover)) :
    holdover.length < 2147483648 ∧ holdover.length = (leftover_items n d_time eh).toNat := by
  obtain ⟨-, hlen, -⟩ := out_of_place_holdover heap sig n d_time eh holdover out out1 h
  refine ⟨?_, hlen⟩
  rw [hlen]
  unfold leftover_items toInt32
  omega

/-- An event at the cursor shorter than the request is dispatched in place at offset 0. -/
theorem at_cursor_in_place (n : Int) (c : Nat) (e : es_eh_pair) (hn1 : n < 2147483648)
    (ht : e.time = c) (hlen : (e.length : Int) < n) :
    buffer_offset c e = 0 ∧ use_inplace_buffer n c e = true := by
  have hb : buffer_offset c e = 0 := by
    unfold buffer_offset toInt32 toU64
    rw [ht]
    omega
  refine ⟨hb, ?_⟩
  unfold use_inplace_buffer buffer_event_max
  rw [hb, toInt32_toU64, toInt32_of_range _ (by omega) (by omega)]
  simp only [ge_iff_le, Bool.not_eq_true', decide_eq_false_iff_not, not_le]
  omega

/-- The in-place branch at offset 0 leaves the handler's bytes at the start of each channel. -/
theorem in_place_at_start (sig : List Nat) (d_time : Nat) (eh : es_eh_pair)
    (out out1 : List (List Nat)) (h : in_place sig d_time eh out = .ok out1)
    (hb : buffer_offset d_time eh = 0) (i : Nat) (hi : i < out.length) :
    slice (out1.getD i []) 0 (eh.render.getD i []).length = eh.render.getD i [] := by
  obtain ⟨b, hbi⟩ : ∃ b, out[i]? = some b := ⟨out[i], List.getElem?_eq_getElem hi⟩
  unfold in_place at h
  obtain ⟨-, g⟩ := forChannels_ok _ _ _ _ h
  obtain ⟨z1, hz1, e⟩ := g i b hbi
  have h0 : toInt32 0 = 0 := by decide
  rw [Nat.zero_add, hb, mul_zero, h0] at e
  have hget : out1.getD i [] = z1 := by simp [List.getD_eq_getElem?_getD, hz1]
  rw [hget]
  exact store_slice b _ z1 0 e

/-- The hold-over slot of a pass is empty exactly when the event went in place. -/
theorem pass_holdover_none (heap : Nat → Nat) (sig : List Nat) (n : Int) (d_time : Nat)
    (eh : es_eh_pair) (ho : Option es_eh_pair) (bufs bufs1 : List (List Nat))
    (h : handle_event heap sig n d_time eh bufs = .ok (bufs1, ho)) :
    ho = none ↔ use_inplace_buffer n d_time eh = true := by
  cases ho with
  | none =>
    exact ⟨fun _ => (handle_event_in_place heap sig n d_time eh bufs bufs1 h).1, fun _ => rfl⟩
  | some holdover =>
    have hf := (handle_event_holdover heap sig n d_time eh holdover bufs bufs1 h).1
    constructor
    · intro hc; cases hc
    · intro hc; rw [hf] at hc; cases hc

theorem fetch_trace_none (heap : Nat → Nat) (sig : List Nat) (n : Int) (d_time max_time : Nat)
    (fuel : Nat) (q : List es_eh_pair) (out : List (List Nat))
    (h : fetch_next_event2 q d_time max_time = none) :
    fetch_trace heap sig n d_time max_time fuel q out = [] := by
  cases fuel <;> simp [fetch_trace, h]

/-- The trace lists the passes of `fetch_passes`, in the same order. -/
theorem fetch_trace_passes (heap : Nat → Nat) (sig : List Nat) (n : Int) (d_time max_time : Nat)
    (fuel : Nat) :
    ∀ (q : List es_eh_pair) (out : List (List Nat)),
      (fetch_trace heap sig n d_time max_time fuel q out).map (fun p => (p.eh, p.holdover)) =
        fetch_passes heap sig n d_time max_time fuel q out := by
  induction fuel with
  | zero => intro q out; rfl
  | succ fuel ih =>
    intro q out
    unfold fetch_trace fetch_passes
    split
    · rfl
    · split
      · rfl
      · rw [List.map_cons, ih]
      · rw [List.map_cons, ih]

/-- The passes of a fetch loop that came to its normal end: each is a pass of the loop body
on an event of the window, the first starts on the buffers the loop was given, each other on
the buffers the pass before it left, and the last leaves the buffers the loop ends with. -/
theorem fetch_trace_ok (heap : Nat → Nat) (sig : List Nat) (n : Int) (d_time max_time : Nat)
    (fuel : Nat) :
    ∀ (q q1 : List es_eh_pair) (out out1 : List (List Nat)),
      fetch_loop heap sig n d_time max_time fuel q out = .ok (q1, out1) →
      chained out (fetch_trace heap sig n d_time max_time fuel q out) = true ∧
      final_buffers out (fetch_trace heap sig n d_time max_time fuel q out) = out1 ∧
      ∀ p ∈ fetch_trace heap sig n d_time max_time fuel q out,
        handle_event heap sig n d_time p.eh p.before = .ok (p.after, p.holdover) ∧
        p.before.length = out.length ∧ in_window d_time max_time p.eh = true := by
  induction fuel with
  | zero =>
    intro q q1 out out1 h
    unfold fetch_loop at h
    split at h
    · simp only [Except.ok.injEq, Prod.mk.injEq] at h
      obtain ⟨-, h2⟩ := h
      subst h2
      simp [fetch_trace, chained, final_buffers]
    · cases h
  | succ fuel ih =>
    intro q q1 out out1 h
    unfold fetch_loop at h
    split at h
    · rename_i hnone
      simp only [Except.ok.injEq, Prod.mk.injEq] at h
      obtain ⟨-, h2⟩ := h
      subst h2
      rw [fetch_trace_none _ _ _ _ _ _ _ _ hnone]
      simp [chained, final_buffers]
    · rename_i eh rest hfetch
      obtain ⟨hmem, hwin, hrest⟩ := fetch_some q rest d_time _ eh hfetch
      split at h
      · cases h
      · rename_i o1 hh
        obtain ⟨i1, i2, i3⟩ := ih rest q1 o1 out1 h
        have hlen := handle_event_channels heap sig n d_time eh none out o1 hh
        have hT : fetch_trace heap sig n d_time max_time (fuel + 1) q out =
            ⟨eh, out, o1, none⟩ :: fetch_trace heap sig n d_time max_time fuel rest o1 := by
          rw [fetch_trace, hfetch]
          dsimp only
          rw [hh]
        rw [hT]
        refine ⟨by simp [chained, i1], by simpa [final_buffers] using i2, ?_⟩
        intro p hp
        rcases List.mem_cons.mp hp with h0 | h0
        · subst h0
          exact ⟨hh, rfl, hwin⟩
        · obtain ⟨j1, j2, j3⟩ := i3 p h0
          exact ⟨j1, by rw [j2, hlen], j3⟩
      · rename_i o1 holdover hh
        obtain ⟨i1, i2, i3⟩ := ih (add_event rest holdover) q1 o1 out1 h
        have hlen := handle_event_channels heap sig n d_time eh (some holdover) out o1 hh
        have hT : fetch_trace heap sig n d_time max_time (fuel + 1) q out =
            ⟨eh, out, o1, some holdover⟩ ::
              fetch_trace heap sig n d_time max_time fuel (add_event rest holdover) o1 := by
          rw [fetch_trace, hfetch]
          dsimp only
          rw [hh]
        rw [hT]
        refine ⟨by simp [chained, i1], by simpa [final_buffers] using i2, ?_⟩
        intro p hp
        rcases List.mem_cons.mp hp with h0 | h0
        · subst h0
          exact ⟨hh, rfl, hwin⟩
        · obtain ⟨j1, j2, j3⟩ := i3 p h0
          exact ⟨j1, by rw [j2, hlen], j3⟩

/-- The passes of a returning `work` call: they start on the zeroed buffers and end on the
buffers `work` hands back. -/
theorem work_trace_ok (heap : Nat → Nat) (s s1 : es_source) (n r : Int)
    (out out1 : List (List Nat)) (h : work heap s n out = .ok (s1, out1, r)) :
    (work_trace heap s n out).map (fun p => (p.eh, p.holdover)) = work_passes heap s n out ∧
    (∃ zeroed, forChannels
        (fun i b => memset b (toInt32 (n * sizeof_stream_item s.d_output_signature i))) 0 out =
          .ok zeroed ∧
      chained zeroed (work_trace heap s n out) = true ∧
      final_buffers zeroed (work_trace heap s n out) = out1) ∧
    ∀ p ∈ work_trace heap s n out,
      handle_event heap s.d_output_signature n s.d_time p.eh p.before = .ok (p.after, p.holdover) ∧
      p.before.length = out.length ∧
      in_window s.d_time (toU64 ((s.d_time : Int) + n)) p.eh = true := by
  obtain ⟨zeroed, hz, hl⟩ := work_ok heap s s1 n r out out1 h
  have hlen := (forChannels_ok _ _ _ _ hz).1
  have hT : work_trace heap s n out =
      fetch_trace heap s.d_output_signature n s.d_time (toU64 ((s.d_time : Int) + n))
        s.event_queue.length s.event_queue zeroed := by
    unfold work_trace
    rw [hz]
  have hP : work_passes heap s n out =
      fetch_passes heap s.d_output_signature n s.d_time (toU64 ((s.d_time : Int) + n))
        s.event_queue.length s.event_queue zeroed := by
    unfold work_passes
    rw [hz]
  obtain ⟨t1, t2, t3⟩ := fetch_trace_ok heap s.d_output_signature n s.d_time _ _ _ _ _ _ hl
  rw [hT, hP]
  refine ⟨fetch_trace_passes _ _ _ _ _ _ _ _, ⟨zeroed, hz, t1, t2⟩, ?_⟩
  intro p hp
  obtain ⟨j1, j2, j3⟩ := t3 p hp
  exact ⟨j1, by rw [j2, hlen], j3⟩

/-- The in-place branch leaves the bytes `run()` stored where channel `i` was bound. -/
theorem in_place_render (sig : List Nat) (d_time : Nat) (eh : es_eh_pair)
    (out out1 : List (List Nat)) (h : in_place sig d_time eh out = .ok out1)
    (i : Nat) (hi : i < out.length) :
    slice (out1.getD i []) (toInt32 (sizeof_stream_item sig i * buffer_offset d_time eh)).toNat
      (eh.render.getD i []).length = eh.render.getD i [] := by
  obtain ⟨b, hbi⟩ : ∃ b, out[i]? = some b := ⟨out[i], List.getElem?_eq_getElem hi⟩
  unfold in_place at h
  obtain ⟨-, g⟩ := forChannels_ok _ _ _ _ h
  obtain ⟨z1, hz1, e⟩ := g i b hbi
  rw [Nat.zero_add] at e
  have hget : out1.getD i [] = z1 := by simp [List.getD_eq_getElem?_getD, hz1]
  rw [hget]
  exact store_slice b _ z1 _ e

theorem toNat_mul_size_comm (s : Nat) (u : Int) (h : 0 ≤ u) :
    (u * (s : Int)).toNat = u.toNat * s := by
  have : (((u * (s : Int)).toNat : Nat) : Int) = ((u.toNat * s : Nat) : Int) := by
    push_cast
    rw [Int.toNat_of_nonneg (mul_nonneg h (Int.ofNat_nonneg s)), Int.toNat_of_nonneg h]
  exact_mod_cast this

/-- Without a wrap of the upper bound, the window test of `work` is membership of
`[d_time, d_time + noutput_items)`. -/
theorem in_window_eq_interval (n : Int) (d_time : Nat) (hn0 : 0 < n)
    (hnw : (d_time : Int) + n ≤ ULLONG_MAX) :
    in_window d_time (toU64 ((d_time : Int) + n)) =
      fun e => decide (d_time ≤ e.time ∧ (e.time : Int) < d_time + n) := by
  funext e
  rw [Bool.eq_iff_iff, decide_eq_true_iff]
  exact in_window_iff n d_time e hn0 hnw

theorem window_offsets (n : Int) (d_time : Nat) (eh : es_eh_pair)
    (hn1 : n < 2147483648) (h1 : d_time ≤ eh.time) (h2 : (eh.time : Int) < d_time + n) :
    0 ≤ buffer_offset d_time eh ∧ buffer_offset d_time eh ≤ n ∧
      0 ≤ usable_items n d_time eh ∧ usable_items n d_time eh ≤ n := by
  rw [usable_items_exact n d_time eh hn1 h1 h2, buffer_offset_exact n d_time eh hn1 h1 h2]
  omega

/-- The split of an event of the window on a channel whose requested byte count fits the
`int`: the bytes found in the output from the event's byte offset, followed by vector `i` of
the hold-over event, are the bytes the handler stored. -/
theorem out_of_place_round_trip (heap : Nat → Nat) (sig : List Nat) (n : Int) (d_time : Nat)
    (eh holdover : es_eh_pair) (out out1 : List (List Nat))
    (hn0 : 0 < n) (hn1 : n < 2147483648) (ht : d_time ≤ ULLONG_MAX)
    (hwin : in_window d_time (toU64 ((d_time : Int) + n)) eh = true)
    (h : out_of_place heap sig n d_time eh out = .ok (out1, holdover))
    (i : Nat) (hi : i < out.length)
    (hfit : n * ((sig.getD i 0 : Nat) : Int) < 2147483648)
    (hfull : (eh.render.getD i []).length = eh.length * sig.getD i 0) :
    slice (out1.getD i []) ((buffer_offset d_time eh).toNat * sig.getD i 0)
        ((usable_items n d_time eh).toNat * sig.getD i 0) ++ holdover.render.getD i [] =
      eh.render.getD i [] ∧
    (slice (out1.getD i []) ((buffer_offset d_time eh).toNat * sig.getD i 0)
        ((usable_items n d_time eh).toNat * sig.getD i 0)).length =
      (usable_items n d_time eh).toNat * sig.getD i 0 ∧
    (holdover.render.getD i []).length =
      (leftover_items n d_time eh).toNat * sig.getD i 0 ∧
    (0 < sig.getD i 0 →
      leftover_items n d_time eh = (eh.length : Int) - usable_items n d_time eh) := by
  obtain ⟨w1, w2, -⟩ := window_exact n d_time eh hn0 hn1 ht hwin
  obtain ⟨x1, x2, x3, x4⟩ := window_offsets n d_time eh hn1 w1 w2
  obtain ⟨b, hb0⟩ : ∃ b, out[i]? = some b := ⟨out[i], List.getElem?_eq_getElem hi⟩
  obtain ⟨f0, t, first, o, v, e1, e2, e3, e4, ho, e5, hv⟩ :=
    out_of_place_channel heap sig n d_time eh holdover out out1 h i b hb0
  have ho1 : out1.getD i [] = o := by simp [List.getD_eq_getElem?_getD, ho]
  have hv1 : holdover.render.getD i [] = v := by simp [List.getD_eq_getElem?_getD, hv]
  rw [ho1, hv1]
  obtain ⟨a1, a2⟩ := new_uint8_ok heap _ f0 e1
  have hP : sizeof_stream_item sig i * (eh.length : Int) =
      ((eh.length * sig.getD i 0 : Nat) : Int) := by
    unfold sizeof_stream_item; push_cast; ring
  unfold bufsize at a1 a2
  rw [hP] at a1 a2
  have hoff : toInt32 (buffer_offset d_time eh * sizeof_stream_item sig i) =
      buffer_offset d_time eh * ((sig.getD i 0 : Nat) : Int) := by
    unfold sizeof_stream_item
    exact int_product_exact _ n _ x1 x2 hfit
  rw [usable_bytes_exact sig n d_time i eh hn1 w1 w2 hfit] at e3 e5
  rw [hoff] at e4
  have hsz : sizeof_stream_item sig i = ((sig.getD i 0 : Nat) : Int) := rfl
  rw [hsz] at e5
  obtain ⟨g1, g2, g3, g4⟩ := split_channel f0 t first o v (eh.render.getD i []) b (sig.getD i 0)
    eh.length (usable_items n d_time eh) (leftover_items n d_time eh) (buffer_offset d_time eh)
    a1 a2 e2 hfull e3 e4 e5 rfl
  have hcu := toNat_mul_size_comm (sig.getD i 0) (usable_items n d_time eh) x3
  have hco := toNat_mul_size_comm (sig.getD i 0) (buffer_offset d_time eh) x1
  rw [hcu, hco] at g1 g2
  refine ⟨g1, g2, ?_, fun h0 => (g4 h0).2.2⟩
  rw [g3]
  rcases Nat.eq_zero_or_pos (sig.getD i 0) with h0 | h0
  · rw [h0]; simp
  · obtain ⟨-, k2, k3⟩ := g4 h0
    exact toNat_mul_size _ _ (mul_nonneg (Int.ofNat_nonneg _) (by rw [k3]; exact sub_nonneg.mpr k2))

/-- The in-place branch on an event of the window leaves the bytes `run()` stored at the
event's byte offset, on a channel whose requested byte count fits the `int`. -/
theorem in_place_render_exact (sig : List Nat) (n : Int) (d_time : Nat) (eh : es_eh_pair)
    (out out1 : List (List Nat)) (h : in_place sig d_time eh out = .ok out1)
    (hn0 : 0 < n) (hn1 : n < 2147483648) (ht : d_time ≤ ULLONG_MAX)
    (hwin : in_window d_time (toU64 ((d_time : Int) + n)) eh = true)
    (i : Nat) (hi : i < out.length) (hfit : n * ((sig.getD i 0 : Nat) : Int) < 2147483648) :
    slice (out1.getD i []) ((eh.time - d_time) * sig.getD i 0) (eh.render.getD i []).length =
      eh.render.getD i [] := by
  obtain ⟨w1, w2, -⟩ := window_exact n d_time eh hn0 hn1 ht hwin
  obtain ⟨b, hbi⟩ : ∃ b, out[i]? = some b := ⟨out[i], List.getElem?_eq_getElem hi⟩
  unfold in_place at h
  obtain ⟨-, g⟩ := forChannels_ok _ _ _ _ h
  obtain ⟨z1, hz1, e⟩ := g i b hbi
  rw [Nat.zero_add, byte_offset_exact sig n d_time i eh hn1 w1 w2 hfit] at e
  have hget : out1.getD i [] = z1 := by simp [List.getD_eq_getElem?_getD, hz1]
  rw [hget]
  have := store_slice b _ z1 _ e
  rw [Int.toNat_ofNat] at this
  exact this

theorem window_offsets_toNat (n : Int) (d_time : Nat) (eh : es_eh_pair)
    (hn1 : n < 2147483648) (h1 : d_time ≤ eh.time) (h2 : (eh.time : Int) < d_time + n) :
    (buffer_offset d_time eh).toNat = eh.time - d_time ∧
      (usable_items n d_time eh).toNat = n.toNat - (eh.time - d_time) := by
  rw [usable_items_exact n d_time eh hn1 h1 h2, buffer_offset_exact n d_time eh hn1 h1 h2]
  omega

/-- A run of passes that fetched one event is one pass. -/
theorem trace_single (T : List Pass) (e : es_eh_pair) (h : (T.map Pass.eh).Perm [e]) :
    ∃ p, T = [p] ∧ p.eh = e := by
  have hl := h.length_eq
  rw [List.length_map, List.length_singleton] at hl
  match T, hl with
  | [p], _ =>
    refine ⟨p, rfl, ?_⟩
    have := h.mem_iff.mp (List.mem_cons_self _ _)
    exact List.mem_singleton.mp this

/-! ## The claims -/

set_option maxRecDepth 8000

/-- C1 (split round trip), the code on a request of more than `2^31` bytes: with 8-byte items
and `noutput_items = 2^29 + 2`, an event of the window at time `2^29` with 3 items is handled
out of place, `usable_items` is 2 and `buffer_offset` is `2^29`; the byte offset of the
`memcpy`, `buffer_offset * 8` computed on `int`s, is 0, not `2^32`, so the 16 usable bytes are
copied to the start of the channel, and the 16 bytes at byte offset `2^32` of the channel are
left as they were: followed by the hold-over vector they are not the handler's bytes. -/
theorem usable_bytes_copied_to_wrapped_offset :
    in_window 0 (toU64 ((0 : Int) + 536870914))
      ⟨536870912, 3, true, [[1, 2, 3, 4, 5, 6, 7, 8, 9, 10, 11, 12, 13, 14, 15, 16, 17, 18, 19,
        20, 21, 22, 23, 24]]⟩ = true ∧
    buffer_offset 0 ⟨536870912, 3, true, [[1, 2, 3, 4, 5, 6, 7, 8, 9, 10, 11, 12, 13, 14, 15, 16,
      17, 18, 19, 20, 21, 22, 23, 24]]⟩ = 536870912 ∧
    usable_items 536870914 0 ⟨536870912, 3, true, [[1, 2, 3, 4, 5, 6, 7, 8, 9, 10, 11, 12, 13, 14,
      15, 16, 17, 18, 19, 20, 21, 22, 23, 24]]⟩ = 2 ∧
    toInt32 (buffer_offset 0 ⟨536870912, 3, true, [[1, 2, 3, 4, 5, 6, 7, 8, 9, 10, 11, 12, 13, 14,
      15, 16, 17, 18, 19, 20, 21, 22, 23, 24]]⟩ * sizeof_stream_item [8] 0) = 0 ∧
    (List.replicate 4294967312 0).length = 536870914 * 8 ∧
    handle_event (fun _ => 0) [8] 536870914 0
        ⟨536870912, 3, true, [[1, 2, 3, 4, 5, 6, 7, 8, 9, 10, 11, 12, 13, 14, 15, 16, 17, 18, 19,
          20, 21, 22, 23, 24]]⟩ [List.replicate 4294967312 0] =
      .ok ([[1, 2, 3, 4, 5, 6, 7, 8, 9, 10, 11, 12, 13, 14, 15, 16] ++
          List.replicate 4294967296 0],
        some ⟨536870914, 1, true, [[17, 18, 19, 20, 21, 22, 23, 24]]⟩) ∧
    slice ([1, 2, 3, 4, 5, 6, 7, 8, 9, 10, 11, 12, 13, 14, 15, 16] ++
        List.replicate 4294967296 0) 4294967296 16 = List.replicate 16 0 ∧
    slice ([1, 2, 3, 4, 5, 6, 7, 8, 9, 10, 11, 12, 13, 14, 15, 16] ++
        List.replicate 4294967296 0) 4294967296 16 ++ [17, 18, 19, 20, 21, 22, 23, 24] ≠
      [1, 2, 3, 4, 5, 6, 7, 8, 9, 10, 11, 12, 13, 14, 15, 16, 17, 18, 19, 20, 21, 22, 23, 24] := by
  have key : ∀ b : List Nat, 16 ≤ b.length →
      handle_event (fun _ => 0) [8] 536870914 0
          ⟨536870912, 3, true, [[1, 2, 3, 4, 5, 6, 7, 8, 9, 10, 11, 12, 13, 14, 15, 16, 17, 18, 19,
            20, 21, 22, 23, 24]]⟩ [b] =
        .ok ([[1, 2, 3, 4, 5, 6, 7, 8, 9, 10, 11, 12, 13, 14, 15, 16] ++ b.drop 16],
          some ⟨536870914, 1, true, [[17, 18, 19, 20, 21, 22, 23, 24]]⟩) := by
    intro b hb
    have hacc : ((⟨536870912, 3, true, [[1, 2, 3, 4, 5, 6, 7, 8, 9, 10, 11, 12, 13, 14, 15, 16, 17,
        18, 19, 20, 21, 22, 23, 24]]⟩ : es_eh_pair).accepter = false) = False := by simp
    have huse : use_inplace_buffer 536870914 0 ⟨536870912, 3, true, [[1, 2, 3, 4, 5, 6, 7, 8, 9,
        10, 11, 12, 13, 14, 15, 16, 17, 18, 19, 20, 21, 22, 23, 24]]⟩ = false := by decide
    have hfresh : forChannels (fun i (_ : List Nat) => new_uint8 (fun _ => 0)
        (bufsize [8] ⟨536870912, 3, true, [[1, 2, 3, 4, 5, 6, 7, 8, 9, 10, 11, 12, 13, 14, 15, 16,
          17, 18, 19, 20, 21, 22, 23, 24]]⟩ i)) 0 [b] = .ok [List.replicate 24 0] := by
      rfl
    have hbufs : forChannels (fun i c => store c 0
        ((⟨536870912, 3, true, [[1, 2, 3, 4, 5, 6, 7, 8, 9, 10, 11, 12, 13, 14, 15, 16, 17, 18,
          19, 20, 21, 22, 23, 24]]⟩ : es_eh_pair).render.getD i [])) 0 [List.replicate 24 0] =
        .ok [[1, 2, 3, 4, 5, 6, 7, 8, 9, 10, 11, 12, 13, 14, 15, 16, 17, 18, 19, 20, 21, 22, 23,
          24]] := by rfl
    have hcopy : forChannels (copy_usable [8] 536870914 0
        ⟨536870912, 3, true, [[1, 2, 3, 4, 5, 6, 7, 8, 9, 10, 11, 12, 13, 14, 15, 16, 17, 18, 19,
          20, 21, 22, 23, 24]]⟩
        [[1, 2, 3, 4, 5, 6, 7, 8, 9, 10, 11, 12, 13, 14, 15, 16, 17, 18, 19, 20, 21, 22, 23, 24]])
        0 [b] = .ok [[1, 2, 3, 4, 5, 6, 7, 8, 9, 10, 11, 12, 13, 14, 15, 16] ++ b.drop 16] := by
      have hload : load [1, 2, 3, 4, 5, 6, 7, 8, 9, 10, 11, 12, 13, 14, 15, 16, 17, 18, 19, 20, 21,
          22, 23, 24] 0 (toInt32 (usable_items 536870914 0 ⟨536870912, 3, true, [[1, 2, 3, 4, 5,
            6, 7, 8, 9, 10, 11, 12, 13, 14, 15, 16, 17, 18, 19, 20, 21, 22, 23, 24]]⟩ *
            sizeof_stream_item [8] 0)) =
          .ok [1, 2, 3, 4, 5, 6, 7, 8, 9, 10, 11, 12, 13, 14, 15, 16] := by rfl
      have hoff : toInt32 (buffer_offset 0 ⟨536870912, 3, true, [[1, 2, 3, 4, 5, 6, 7, 8, 9, 10,
          11, 12, 13, 14, 15, 16, 17, 18, 19, 20, 21, 22, 23, 24]]⟩ * sizeof_stream_item [8] 0) =
          0 := by decide
      simp only [forChannels, copy_usable, List.getD_cons_zero, hload, hoff, store]
      simp [hb]
    have hvec : forChannels (leftover_vector [8] 536870914 0
        ⟨536870912, 3, true, [[1, 2, 3, 4, 5, 6, 7, 8, 9, 10, 11, 12, 13, 14, 15, 16, 17, 18, 19,
          20, 21, 22, 23, 24]]⟩) 0
        [[1, 2, 3, 4, 5, 6, 7, 8, 9, 10, 11, 12, 13, 14, 15, 16, 17, 18, 19, 20, 21, 22, 23, 24]] =
        .ok [[17, 18, 19, 20, 21, 22, 23, 24]] := by rfl
    unfold handle_event
    rw [if_neg (by simp), huse]
    simp only [Bool.false_eq_true, if_false]
    unfold out_of_place
    rw [hfresh]
    simp only [hbufs, hcopy, hvec]
    rfl
  have hsub : 4294967312 - 16 = 4294967296 := by norm_num
  have hlen : ([1, 2, 3, 4, 5, 6, 7, 8, 9, 10, 11, 12, 13, 14, 15, 16] : List Nat).length = 16 :=
    rfl
  have hslice : slice ([1, 2, 3, 4, 5, 6, 7, 8, 9, 10, 11, 12, 13, 14, 15, 16] ++
      List.replicate 4294967296 0) 4294967296 16 = List.replicate 16 0 := by
    unfold slice
    rw [List.drop_append_eq_append_drop, List.drop_eq_nil_of_le (by rw [hlen]; omega), hlen,
      List.nil_append, List.drop_replicate, List.take_replicate]
    congr 1
  refine ⟨by decide, by decide, by decide, by decide,
    by rw [List.length_replicate], ?_, hslice, ?_⟩
  · rw [key _ (by rw [List.length_replicate]; omega), List.drop_replicate, hsub]
  · rw [hslice]
    decide

/-- C1 as amended: when `work` handles an event of its window out of place, then on every
channel `i` whose requested byte count `noutput_items * s_i` fits the `int` and on which the
handler stored `length * s_i` bytes into the temporary buffer, the `usable * s_i` bytes found
in output channel `i` from byte offset `offset * s_i`, followed by the `leftover * s_i` bytes
kept as vector `i` of the hold-over event, are those `length * s_i` bytes, byte for byte and
in order; here `offset` is `time - d_time`, `usable` is `noutput_items - offset` and
`leftover` is `length - usable` (item size not 0). -/
theorem split_round_trip (heap : Nat → Nat) (sig : List Nat) (n : Int) (d_time : Nat)
    (eh holdover : es_eh_pair) (out out1 : List (List Nat))
    (hn0 : 0 < n) (hn1 : n < 2147483648) (ht : d_time ≤ ULLONG_MAX)
    (hwin : in_window d_time (toU64 ((d_time : Int) + n)) eh = true)
    (h : handle_event heap sig n d_time eh out = .ok (out1, some holdover))
    (i : Nat) (hi : i < out.length)
    (hfit : n * ((sig.getD i 0 : Nat) : Int) < 2147483648)
    (hfull : (eh.render.getD i []).length = eh.length * sig.getD i 0) :
    buffer_offset d_time eh = (eh.time : Int) - d_time ∧
    usable_items n d_time eh = n - buffer_offset d_time eh ∧
    (0 < sig.getD i 0 →
      leftover_items n d_time eh = (eh.length : Int) - usable_items n d_time eh) ∧
    slice (out1.getD i []) ((buffer_offset d_time eh).toNat * sig.getD i 0)
        ((usable_items n d_time eh).toNat * sig.getD i 0) ++ holdover.render.getD i [] =
      eh.render.getD i [] ∧
    (slice (out1.getD i []) ((buffer_offset d_time eh).toNat * sig.getD i 0)
        ((usable_items n d_time eh).toNat * sig.getD i 0)).length =
      (usable_items n d_time eh).toNat * sig.getD i 0 ∧
    (holdover.render.getD i []).length =
      (leftover_items n d_time eh).toNat * sig.getD i 0 := by
  obtain ⟨-, hoop⟩ := handle_event_holdover heap sig n d_time eh holdover out out1 h
  obtain ⟨g1, g2, g3, g4⟩ := out_of_place_round_trip heap sig n d_time eh holdover out out1
    hn0 hn1 ht hwin hoop i hi hfit hfull
  obtain ⟨w1, w2, -⟩ := window_exact n d_time eh hn0 hn1 ht hwin
  have hb := buffer_offset_exact n d_time eh hn1 w1 w2
  refine ⟨hb, ?_, g4, g1, g2, g3⟩
  rw [usable_items_exact n d_time eh hn1 w1 w2, hb]

theorem split_round_trip_witness :
    handle_event (fun _ => 0) [2] 10 0 ⟨8, 5, true, [[1, 2, 3, 4, 5, 6, 7, 8, 9, 10]]⟩
        [List.replicate 20 0] =
      .ok ([[0, 0, 0, 0, 0, 0, 0, 0, 0, 0, 0, 0, 0, 0, 0, 0, 1, 2, 3, 4]],
        some ⟨10, 3, true, [[5, 6, 7, 8, 9, 10]]⟩) ∧
    slice [0, 0, 0, 0, 0, 0, 0, 0, 0, 0, 0, 0, 0, 0, 0, 0, 1, 2, 3, 4] 16 4 ++
      [5, 6, 7, 8, 9, 10] = [1, 2, 3, 4, 5, 6, 7, 8, 9, 10] :=
  ⟨by rfl, (split_round_trip (fun _ => 0) [2] 10 0 ⟨8, 5, true, [[1, 2, 3, 4, 5, 6, 7, 8, 9, 10]]⟩
    ⟨10, 3, true, [[5, 6, 7, 8, 9, 10]]⟩ [List.replicate 20 0]
    [[0, 0, 0, 0, 0, 0, 0, 0, 0, 0, 0, 0, 0, 0, 0, 0, 1, 2, 3, 4]] (by decide) (by decide)
    (by decide) (by decide) (by rfl) 0 (by decide) (by decide) (by rfl)).2.2.2.1⟩

/-- C2 (dispatch choice), the code at the boundary: an event at the cursor with length 10 in a
call for 10 items has `offset + length <= requestedLength`, yet `use_inplace_buffer` is
`false`: `work` goes through the temporary buffer and queues a hold-over event with no samples
at time 10. -/
theorem exact_fit_goes_out_of_place :
    buffer_offset 0 ⟨0, 10, true, [[1, 2, 3, 4, 5, 6, 7, 8, 9, 10]]⟩ + (10 : Nat) ≤ 10 ∧
    use_inplace_buffer 10 0 ⟨0, 10, true, [[1, 2, 3, 4, 5, 6, 7, 8, 9, 10]]⟩ = false ∧
    work (fun _ => 0) (es_source.make [⟨0, 10, true, [[1, 2, 3, 4, 5, 6, 7, 8, 9, 10]]⟩] [1]) 10
        [List.replicate 10 0] =
      .ok (⟨10, ULLONG_MAX, [⟨10, 0, true, [[]]⟩], [1]⟩, [[1, 2, 3, 4, 5, 6, 7, 8, 9, 10]], 10) := by
  refine ⟨by decide, by decide, by rfl⟩

/-- C3 (in-place bounds), the code on a long event: with the cursor at 0 and 10 items
requested, an event at time 1 of length `2^31 - 1` is in the window, has offset 1 (not
negative), `buffer_event_max` narrows to `-2^31`, the in-place branch is taken, and
`offset + length <= requestedLength` does not hold; a handler that stores 10 of its items
through the pointer it was given leaves the 10-item output buffer. -/
theorem narrowed_end_goes_in_place :
    in_window 0 (toU64 ((0 : Int) + 10)) ⟨1, 2147483647, true, [List.replicate 10 7]⟩ = true ∧
    0 ≤ buffer_offset 0 ⟨1, 2147483647, true, [List.replicate 10 7]⟩ ∧
    buffer_event_max 0 ⟨1, 2147483647, true, [List.replicate 10 7]⟩ = -2147483648 ∧
    use_inplace_buffer 10 0 ⟨1, 2147483647, true, [List.replicate 10 7]⟩ = true ∧
    ¬ (buffer_offset 0 ⟨1, 2147483647, true, [List.replicate 10 7]⟩ + (2147483647 : Nat) ≤ 10) ∧
    work (fun _ => 0) (es_source.make [⟨1, 2147483647, true, [List.replicate 10 7]⟩] [1]) 10
        [List.replicate 10 0] = .error .out_of_bounds := by
  refine ⟨by decide, by decide, by decide, by decide, by decide, by rfl⟩

/-- C4 (holdover time): for an event inside the window `[d_time, d_time + noutput_items)` of a
call with `0 < noutput_items` that `work` handles out of place, `usable_items` is
`noutput_items - (time - d_time)`, the hold-over event added to the queue starts at
`time + usable_items`, that is at `d_time + noutput_items`, the upper bound of the window, and
so it is not inside the window of the call that made it. -/
theorem holdover_time (heap : Nat → Nat) (sig : List Nat) (n : Int) (d_time : Nat)
    (eh holdover : es_eh_pair) (out out1 : List (List Nat))
    (hn0 : 0 < n) (hn1 : n < 2147483648) (ht : d_time ≤ ULLONG_MAX)
    (hwin : in_window d_time (toU64 ((d_time : Int) + n)) eh = true)
    (h : handle_event heap sig n d_time eh out = .ok (out1, some holdover)) :
    usable_items n d_time eh = n - ((eh.time : Int) - d_time) ∧
      (holdover.time : Int) = eh.time + usable_items n d_time eh ∧
      (holdover.time : Int) = d_time + n ∧
      in_window d_time (toU64 ((d_time : Int) + n)) holdover = false := by
  obtain ⟨h1, h2, h3⟩ := window_exact n d_time eh hn0 hn1 ht hwin
  have hu := usable_items_exact n d_time eh hn1 h1 h2
  obtain ⟨-, hoop⟩ := handle_event_holdover heap sig n d_time eh holdover out out1 h
  obtain ⟨hh, -, -⟩ := out_of_place_holdover heap sig n d_time eh holdover out out1 hoop
  have hsum : (eh.time : Int) + usable_items n d_time eh = d_time + n := by rw [hu]; ring
  have htime : (holdover.time : Int) = d_time + n := by rw [hh, hsum]; exact h3
  refine ⟨hu, ?_, htime, ?_⟩
  · rw [htime, hsum]
  · simp only [in_window, Bool.and_eq_false_iff, decide_eq_false_iff_not, not_le, not_lt]
    right
    omega

theorem holdover_time_witness :
    in_window 0 (toU64 ((0 : Int) + 50)) ⟨40, 30, true, [List.replicate 30 7]⟩ = true ∧
    handle_event (fun _ => 0) [1] 50 0 ⟨40, 30, true, [List.replicate 30 7]⟩
        [List.replicate 50 0] =
      .ok ([List.replicate 40 0 ++ List.replicate 10 7],
        some ⟨50, 20, true, [List.replicate 20 7]⟩) ∧
    (((⟨50, 20, true, [List.replicate 20 7]⟩ : es_eh_pair).time : Int) = (0 : Nat) + 50) :=
  ⟨by decide, by rfl,
    (holdover_time (fun _ => 0) [1] 50 0 ⟨40, 30, true, [List.replicate 30 7]⟩
      ⟨50, 20, true, [List.replicate 20 7]⟩ [List.replicate 50 0]
      [List.replicate 40 0 ++ List.replicate 10 7] (by decide) (by decide) (by decide)
      (by decide) (by rfl)).2.2.1⟩

/-- C5 (clamp): a call of `work` with `0 < noutput_items` on a block whose cursor has not passed
`d_maxlen` comes to its end, and when it returns, the returned count is
`min(noutput_items, d_maxlen - d_time)`, whatever the queue holds, and the cursor afterwards
is the cursor before plus that count. -/
theorem work_clamp (heap : Nat → Nat) (s : es_source) (n : Int) (out : List (List Nat))
    (hn0 : 0 < n) (hn1 : n < 2147483648) (hle : s.d_time ≤ s.d_maxlen)
    (hmax : s.d_maxlen ≤ ULLONG_MAX) :
    work heap s n out ≠ .error .unfinished ∧
    ∀ (s1 : es_source) (out1 : List (List Nat)) (r : Int),
      work heap s n out = .ok (s1, out1, r) →
        r = min n ((s.d_maxlen : Int) - s.d_time) ∧ (s1.d_time : Int) = s.d_time + r := by
  refine ⟨work_finishes heap s n out hn0 hn1 (le_trans hle hmax), ?_⟩
  intro s1 out1 r h
  obtain ⟨hr, ht, -, -⟩ := work_ret heap s s1 n r out out1 h
  have hm := produced_eq_min n s.d_maxlen s.d_time hn0 hn1 hle hmax
  rw [hm] at hr
  refine ⟨hr, ?_⟩
  rw [ht]
  unfold ULLONG_MAX at hmax
  apply toU64_of_range <;> omega

theorem work_clamp_witness :
    work (fun _ => 0) ⟨100, 108, [⟨102, 3, true, [[7, 7, 7]]⟩], [1]⟩ 10 [List.replicate 10 9] =
      .ok (⟨108, 108, [], [1]⟩, [[0, 0, 7, 7, 7, 0, 0, 0, 0, 0]], 8) ∧
    (8 : Int) = min 10 (((108 : Nat) : Int) - (100 : Nat)) ∧
    ((108 : Nat) : Int) = (100 : Nat) + 8 :=
  ⟨by rfl, (work_clamp (fun _ => 0) ⟨100, 108, [⟨102, 3, true, [[7, 7, 7]]⟩], [1]⟩ 10
    [List.replicate 10 9] (by decide) (by decide) (by decide) (by decide)).2
    ⟨108, 108, [], [1]⟩ [[0, 0, 7, 7, 7, 0, 0, 0, 0, 0]] 8 (by rfl)⟩

/-- C6 (cap enforcement): from a block with `d_time == d_maxlen`, any run of `work` calls with
`0 < noutput_items` and no `set_max` comes to its end, and, whatever the queue holds at the
start and whatever events are added before each call, every call returns 0 and the cursor
stays at `d_maxlen`. -/
theorem cap_enforcement (heap : Nat → Nat) (calls : List WorkCall) (s : es_source)
    (hcap : s.d_time = s.d_maxlen) (ht : s.d_time ≤ ULLONG_MAX)
    (hcalls : ∀ c ∈ calls, 0 < c.noutput_items ∧ c.noutput_items < 2147483648) :
    work_calls heap s calls ≠ .error .unfinished ∧
    ∀ (s1 : es_source) (rets : List Int), work_calls heap s calls = .ok (s1, rets) →
      rets.length = calls.length ∧ (∀ r ∈ rets, r = 0) ∧ s1.d_time = s.d_maxlen ∧
        s1.d_maxlen = s.d_maxlen :=
  ⟨work_calls_finishes heap calls s ht hcalls,
    fun s1 rets h => work_calls_at_cap heap calls s s1 rets hcap ht h⟩

theorem cap_enforcement_witness :
    work_calls (fun _ => 0) ⟨80, 80, [⟨82, 3, true, [[7, 7, 7]]⟩], [1]⟩
        [⟨[], 10, [List.replicate 10 9]⟩, ⟨[⟨85, 2, true, [[5, 6]]⟩], 10, [List.replicate 10 9]⟩] =
      .ok (⟨80, 80, [], [1]⟩, [0, 0]) ∧
    ([0, 0] : List Int).length = 2 ∧ (∀ r ∈ ([0, 0] : List Int), r = 0) ∧
      (80 : Nat) = 80 ∧ (80 : Nat) = 80 :=
  ⟨by rfl, (cap_enforcement (fun _ => 0)
    [⟨[], 10, [List.replicate 10 9]⟩, ⟨[⟨85, 2, true, [[5, 6]]⟩], 10, [List.replicate 10 9]⟩]
    ⟨80, 80, [⟨82, 3, true, [[7, 7, 7]]⟩], [1]⟩ (by decide) (by decide) (by decide)).2
    ⟨80, 80, [], [1]⟩ [0, 0] (by rfl)⟩

/-- C7 (time monotonicity), the code after `set_max` below the cursor: the block with cursor
`2^64 - 1` and `d_maxlen = 0` is reachable from a fresh block (`work` calls up to the default
cap, then `set_max(0)`), and there `work` for one item returns 1 and leaves the cursor at 0:
the cursor wrapped and decreased. -/
theorem cursor_wraps_after_set_max_below_cursor :
    Reachable (fun _ => 0) ⟨ULLONG_MAX, 0, [], [1]⟩ ∧
    work (fun _ => 0) ⟨ULLONG_MAX, 0, [], [1]⟩ 1 [[0]] = .ok (⟨0, 0, [], [1]⟩, [[0]], 1) := by
  refine ⟨?_, by rfl⟩
  obtain ⟨k, hk⟩ := saturation_steps
  exact Reachable.set_max _ 0 (reachable_saturating (fun _ => 0) k _ hk.symm) (by decide)

/-- C8 (exhausted budget), the code past the cap: a fresh block produces 100 items, `set_max(50)`
then leaves the cursor above `d_maxlen`, and the next `work` call for 10 items returns 10,
not 0, moving the cursor to 110. -/
theorem set_max_below_cursor_keeps_producing :
    work (fun _ => 0) (es_source.make [] [1]) 100 [List.replicate 100 0] =
      .ok (⟨100, ULLONG_MAX, [], [1]⟩, [List.replicate 100 0], 100) ∧
    ((⟨100, ULLONG_MAX, [], [1]⟩ : es_source).set_max 50).d_maxlen <
      ((⟨100, ULLONG_MAX, [], [1]⟩ : es_source).set_max 50).d_time ∧
    work (fun _ => 0) ((⟨100, ULLONG_MAX, [], [1]⟩ : es_source).set_max 50) 10
        [List.replicate 10 0] =
      .ok (⟨110, 50, [], [1]⟩, [List.replicate 10 0], 10) := by
  refine ⟨by rfl, by decide, by rfl⟩

/-- C9 (result range): for any 64-bit cursor, any `d_maxlen`, any queue and
`0 < noutput_items <= 2^31 - 1`, `work` comes to its end and the value it returns lies between
0 and `noutput_items`. -/
theorem work_result_range (heap : Nat → Nat) (s : es_source) (n : Int)
    (out : List (List Nat)) (hn0 : 0 < n) (hn1 : n ≤ 2147483647) (ht : s.d_time ≤ ULLONG_MAX) :
    work heap s n out ≠ .error .unfinished ∧
    ∀ (s1 : es_source) (out1 : List (List Nat)) (r : Int),
      work heap s n out = .ok (s1, out1, r) → 0 ≤ r ∧ r ≤ n := by
  refine ⟨work_finishes heap s n out hn0 (by omega) ht, ?_⟩
  intro s1 out1 r h
  obtain ⟨hr, -, -, -⟩ := work_ret heap s s1 n r out out1 h
  rw [hr]
  exact produced_range n s.d_maxlen s.d_time hn0 (by omega)

theorem work_result_range_witness :
    work (fun _ => 0) ⟨100, 50, [], [1]⟩ 10 [List.replicate 10 9] =
      .ok (⟨110, 50, [], [1]⟩, [List.replicate 10 0], 10) ∧ (0 : Int) ≤ 10 ∧ (10 : Int) ≤ 10 :=
  ⟨by rfl, (work_result_range (fun _ => 0) ⟨100, 50, [], [1]⟩ 10 [List.replicate 10 9]
    (by decide) (by decide) (by decide)).2 ⟨110, 50, [], [1]⟩ [List.replicate 10 0] 10 (by rfl)⟩

/-- C10 (zeroing), the code on a request of `2^32` bytes: with 4-byte items and
`noutput_items = 2^30` the byte count of the `memset`, `noutput_items * 4` computed on `int`s,
is 0; with no event queued `work` returns `2^30` and hands back the channel of `2^32` bytes
as the host gave it, every byte still 9, also the bytes of sample 0. -/
theorem large_request_is_not_zeroed :
    toInt32 (1073741824 * sizeof_stream_item [4] 0) = 0 ∧
    (List.replicate 4294967296 9).length = 1073741824 * 4 ∧
    work (fun _ => 0) (es_source.make [] [4]) 1073741824 [List.replicate 4294967296 9] =
      .ok (⟨1073741824, ULLONG_MAX, [], [4]⟩, [List.replicate 4294967296 9], 1073741824) ∧
    (([List.replicate 4294967296 9] : List (List Nat)).getD 0 [])[0]? = some 9 := by
  have key : ∀ b : List Nat, work (fun _ => 0) (es_source.make [] [4]) 1073741824 [b] =
      .ok (⟨1073741824, ULLONG_MAX, [], [4]⟩, [b], 1073741824) := by
    intro b
    have hlen : toInt32 (1073741824 * sizeof_stream_item [4] 0) = 0 := by decide
    have hz : forChannels (fun i c => memset c
        (toInt32 (1073741824 * sizeof_stream_item (es_source.make [] [4]).d_output_signature i)))
        0 [b] = .ok [b] := by
      have hm : memset b 0 = .ok b := by
        simp [memset, store]
      simp only [forChannels]
      rw [show (es_source.make [] [4]).d_output_signature = [4] from rfl, hlen, hm]
    unfold work
    simp only [hz]
    rfl
  refine ⟨by decide, by rw [List.length_replicate], key _, ?_⟩
  rw [List.getD_cons_zero, List.getElem?_replicate]
  rfl

/-- C10 as amended: after a returning `work(noutput_items)` whose output buffers the host
handed in with any content, on every channel `i` whose requested byte count
`noutput_items * s_i` fits the `int`, every byte of a sample `j < noutput_items` that no queued
event of the window covers (`j` outside `[time - d_time, time - d_time + length)`) is 0,
provided the handlers of the events in the window store at most `length` items on that
channel; and when no queued event lies in the window the first `noutput_items * s_i` bytes
of channel `i` are all 0. -/
theorem zeroing (heap : Nat → Nat) (s s1 : es_source) (n r : Int) (out out1 : List (List Nat))
    (hn0 : 0 < n) (hn1 : n < 2147483648) (ht : s.d_time ≤ ULLONG_MAX)
    (h : work heap s n out = .ok (s1, out1, r)) (i : Nat) (hi : i < out.length)
    (hfit : n * ((s.d_output_signature.getD i 0 : Nat) : Int) < 2147483648) :
    (∀ j k : Nat, (j : Int) < n → k < s.d_output_signature.getD i 0 →
      (∀ e ∈ s.event_queue, in_window s.d_time (toU64 ((s.d_time : Int) + n)) e = true →
        (e.render.getD i []).length ≤ e.length * s.d_output_signature.getD i 0 ∧
        ¬ (e.time - s.d_time ≤ j ∧ j < e.time - s.d_time + e.length)) →
      (out1.getD i [])[j * s.d_output_signature.getD i 0 + k]? = some 0) ∧
    ((∀ e ∈ s.event_queue, in_window s.d_time (toU64 ((s.d_time : Int) + n)) e = false) →
      (out1.getD i []).take (n * sizeof_stream_item s.d_output_signature i).toNat =
        List.replicate (n * sizeof_stream_item s.d_output_signature i).toNat 0) := by
  obtain ⟨zeroed, hz, hl⟩ := work_ok heap s s1 n r out out1 h
  obtain ⟨b, hb⟩ : ∃ b, out[i]? = some b := ⟨out[i], List.getElem?_eq_getElem hi⟩
  obtain ⟨-, g⟩ := forChannels_ok _ _ _ _ hz
  obtain ⟨z, hzi, hm⟩ := g i b hb
  simp only [Nat.zero_add] at hm
  have hN : toInt32 (n * sizeof_stream_item s.d_output_signature i) =
      ((n.toNat * s.d_output_signature.getD i 0 : Nat) : Int) := by
    unfold sizeof_stream_item
    rw [int_product_exact n n _ (le_of_lt hn0) (le_refl _) hfit]
    push_cast
    rw [Int.toNat_of_nonneg (le_of_lt hn0)]
  have hN2 : n * sizeof_stream_item s.d_output_signature i =
      ((n.toNat * s.d_output_signature.getD i 0 : Nat) : Int) := by
    unfold sizeof_stream_item
    push_cast
    rw [Int.toNat_of_nonneg (le_of_lt hn0)]
  rw [hN] at hm
  obtain ⟨m0, m1, m2⟩ := memset_ok b z _ hm
  rw [Int.toNat_ofNat] at m1 m2
  constructor
  · intro j k hj hk hq
    obtain ⟨z1, hz1, e1⟩ := fetch_loop_outside heap s.d_output_signature n s.d_time hn0 hn1 ht
      i j k hj hk hfit _ _ _ _ _ hl hq z hzi
    have hget : out1.getD i [] = z1 := by simp [List.getD_eq_getElem?_getD, hz1]
    rw [hget, e1, m2]
    have hp : j * s.d_output_signature.getD i 0 + k <
        n.toNat * s.d_output_signature.getD i 0 :=
      sample_before j k _ _ hk (by omega)
    rw [List.getElem?_append_left (by rw [List.length_replicate]; exact hp)]
    rw [List.getElem?_replicate, if_pos hp]
  · intro hq
    have hnone : fetch_next_event2 s.event_queue s.d_time (toU64 ((s.d_time : Int) + n)) = none := by
      unfold fetch_next_event2
      rw [earliest_none _ _ _ hq]
    rw [fetch_loop_none _ _ _ _ _ _ _ _ hnone] at hl
    simp only [Except.ok.injEq, Prod.mk.injEq] at hl
    obtain ⟨-, h2⟩ := hl
    subst h2
    have hget : zeroed.getD i [] = z := by simp [List.getD_eq_getElem?_getD, hzi]
    rw [hget, m2, hN2, Int.toNat_ofNat, List.take_left']
    rw [List.length_replicate]

theorem zeroing_witness :
    work (fun _ => 3) (es_source.make [⟨10, 20, true, [List.replicate 20 7]⟩] [1]) 100
        [List.replicate 100 9] =
      .ok (⟨100, ULLONG_MAX, [], [1]⟩,
        [List.replicate 10 0 ++ List.replicate 20 7 ++ List.replicate 70 0], 100) ∧
    ([List.replicate 10 0 ++ List.replicate 20 7 ++ List.replicate 70 0].getD 0 [])[9]? = some 0 ∧
    ([List.replicate 10 0 ++ List.replicate 20 7 ++ List.replicate 70 0].getD 0 [])[30]? =
      some 0 :=
  ⟨by rfl,
    (zeroing (fun _ => 3) (es_source.make [⟨10, 20, true, [List.replicate 20 7]⟩] [1])
      ⟨100, ULLONG_MAX, [], [1]⟩ 100 100 [List.replicate 100 9]
      [List.replicate 10 0 ++ List.replicate 20 7 ++ List.replicate 70 0]
      (by decide) (by decide) (by decide) (by rfl) 0 (by decide) (by decide)).1 9 0 (by decide) (by decide)
      (by decide),
    (zeroing (fun _ => 3) (es_source.make [⟨10, 20, true, [List.replicate 20 7]⟩] [1])
      ⟨100, ULLONG_MAX, [], [1]⟩ 100 100 [List.replicate 100 9]
      [List.replicate 10 0 ++ List.replicate 20 7 ++ List.replicate 70 0]
      (by decide) (by decide) (by decide) (by rfl) 0 (by decide) (by decide)).1 30 0 (by decide) (by decide)
      (by decide)⟩

/-- C11 (holdover replay), the code at the end of the 64-bit time line: with the cursor at
`2^64 - 11`, `work(10)` is not clamped, handles the event at `2^64 - 5` out of place and
queues a hold-over event of 6 samples at `2^64 - 1`, the new cursor; in the next `work(10)`
the upper bound of the window wraps to 9, the hold-over event is not in the window, nothing is
written and it stays in the queue. -/
theorem holdover_missed_at_wrap :
    work (fun _ => 0)
        ⟨18446744073709551605, ULLONG_MAX,
          [⟨18446744073709551611, 10, true, [[1, 2, 3, 4, 5, 6, 7, 8, 9, 10]]⟩], [1]⟩ 10
        [List.replicate 10 0] =
      .ok (⟨18446744073709551615, ULLONG_MAX,
          [⟨18446744073709551615, 6, true, [[5, 6, 7, 8, 9, 10]]⟩], [1]⟩,
        [[0, 0, 0, 0, 0, 0, 1, 2, 3, 4]], 10) ∧
    toU64 (((18446744073709551615 : Nat) : Int) + 10) = 9 ∧
    in_window 18446744073709551615 (toU64 (((18446744073709551615 : Nat) : Int) + 10))
      ⟨18446744073709551615, 6, true, [[5, 6, 7, 8, 9, 10]]⟩ = false ∧
    work (fun _ => 0)
        ⟨18446744073709551615, ULLONG_MAX,
          [⟨18446744073709551615, 6, true, [[5, 6, 7, 8, 9, 10]]⟩], [1]⟩ 10
        [List.replicate 10 0] =
      .ok (⟨18446744073709551615, ULLONG_MAX,
          [⟨18446744073709551615, 6, true, [[5, 6, 7, 8, 9, 10]]⟩], [1]⟩,
        [[0, 0, 0, 0, 0, 0, 0, 0, 0, 0]], 0) := by
  refine ⟨by rfl, by decide, by decide, by rfl⟩

/-- C11 as amended: if `work(n)` is not clamped and one of its passes handles an event out of
place, leaving a hold-over event, then the hold-over event is in the queue and starts at the
new cursor; in the following call `work(n2)` with `cursor + n2 <= 2^64 - 1` it lies in the
window at offset 0, and when its `leftover` samples are fewer than `n2` a pass of that call
dispatches it in place: the pass binds byte 0 of every output channel and leaves the bytes of
the hold-over event's vector `i`, the leftover samples, from byte 0 of channel `i`; when no
other queued event is in that window, these are the first bytes of channel `i` handed back by
the call. Vector `i` holds `leftover * s_i` bytes where `leftover` is not negative and
`n2 * s_i` fits the `int`. -/
theorem holdover_replay (heap : Nat → Nat) (s s1 s2 : es_source) (n r n2 r2 : Int)
    (out out1 out2 out3 : List (List Nat)) (eh holdover : es_eh_pair)
    (hn0 : 0 < n) (hn1 : n < 2147483648) (ht : s.d_time ≤ ULLONG_MAX)
    (h1 : work heap s n out = .ok (s1, out1, r)) (hr : r = n)
    (hp : (eh, some holdover) ∈ work_passes heap s n out)
    (hm0 : 0 < n2) (hm1 : n2 < 2147483648) (hnw : (s1.d_time : Int) + n2 ≤ ULLONG_MAX)
    (h2 : work heap s1 n2 out2 = .ok (s2, out3, r2)) :
    holdover ∈ s1.event_queue ∧ holdover.time = s1.d_time ∧
    holdover.length = (leftover_items n s.d_time eh).toNat ∧
    in_window s1.d_time (toU64 ((s1.d_time : Int) + n2)) holdover = true ∧
    ((holdover.length : Int) < n2 →
      buffer_offset s1.d_time holdover = 0 ∧
      use_inplace_buffer n2 s1.d_time holdover = true ∧
      (∃ p ∈ work_trace heap s1 n2 out2, p.eh = holdover ∧ p.holdover = none ∧
        p.before.length = out2.length ∧
        in_place s1.d_output_signature s1.d_time holdover p.before = .ok p.after ∧
        ∀ i, i < out2.length →
          slice (p.after.getD i []) 0 (holdover.render.getD i []).length =
            holdover.render.getD i []) ∧
      (s1.event_queue.filter (in_window s1.d_time (toU64 ((s1.d_time : Int) + n2))) =
          [holdover] →
        ∀ i, i < out2.length →
          slice (out3.getD i []) 0 (holdover.render.getD i []).length =
            holdover.render.getD i []) ∧
      (∀ i, i < out.length → 0 ≤ leftover_items n s.d_time eh →
        n2 * ((s1.d_output_signature.getD i 0 : Nat) : Int) < 2147483648 →
        (holdover.render.getD i []).length =
          holdover.length * s1.d_output_signature.getD i 0)) := by
  obtain ⟨-, q2, q3⟩ := work_passes_ok heap s s1 n r out out1 hn0 hn1 ht h1
  obtain ⟨hwin, bufs, bufs1, hbl, hh⟩ := q3 _ hp
  obtain ⟨-, hoop⟩ := handle_event_holdover heap _ n _ eh holdover bufs bufs1 hh
  obtain ⟨hstart, hnowrap⟩ :=
    holdover_starts_at_window_end heap _ n _ eh holdover bufs bufs1 hn0 hn1 ht hwin hoop
  obtain ⟨hl31, hleft⟩ := holdover_length_lt heap _ n _ eh holdover bufs bufs1 hoop
  obtain ⟨-, hs1, -, hsig⟩ := work_ret heap s s1 n r out out1 h1
  have hcur : (s1.d_time : Int) = s.d_time + n := by
    rw [hs1, hr]; unfold ULLONG_MAX at hnowrap; apply toU64_of_range <;> omega
  have htime : holdover.time = s1.d_time := by
    have : (holdover.time : Int) = (s1.d_time : Int) := by rw [hstart, hcur]
    exact_mod_cast this
  have hmem : holdover ∈ s1.event_queue := by
    refine q2.mem_iff.mpr (List.mem_append_right _ ?_)
    exact List.mem_filterMap.mpr ⟨(eh, some holdover), hp, rfl⟩
  have hin : in_window s1.d_time (toU64 ((s1.d_time : Int) + n2)) holdover = true :=
    (in_window_iff n2 s1.d_time holdover hm0 hnw).mpr ⟨by rw [htime], by rw [htime]; omega⟩
  refine ⟨hmem, htime, hleft, hin, ?_⟩
  intro hlt
  have ht1 : s1.d_time ≤ ULLONG_MAX := by omega
  obtain ⟨hb0, huse⟩ := at_cursor_in_place n2 s1.d_time holdover hm1 htime hlt
  obtain ⟨w1, -, -⟩ := work_passes_ok heap s1 s2 n2 r2 out2 out3 hm0 hm1 ht1 h2
  obtain ⟨t1, ⟨zeroed, hz, -, tfin⟩, t3⟩ := work_trace_ok heap s1 s2 n2 r2 out2 out3 h2
  have hmap : (work_trace heap s1 n2 out2).map Pass.eh =
      (work_passes heap s1 n2 out2).map Prod.fst := by
    rw [← t1, List.map_map]; rfl
  have hfetched : holdover ∈ (work_trace heap s1 n2 out2).map Pass.eh := by
    rw [hmap]
    exact w1.mem_iff.mpr (List.mem_filter.mpr ⟨hmem, hin⟩)
  obtain ⟨p, hpm, hpe⟩ := List.mem_map.mp hfetched
  obtain ⟨hh2, hb2, -⟩ := t3 p hpm
  rw [hpe] at hh2
  have hnone : p.holdover = none :=
    (pass_holdover_none heap _ n2 _ holdover p.holdover p.before p.after hh2).mpr huse
  rw [hnone] at hh2
  obtain ⟨-, hinp⟩ := handle_event_in_place heap _ n2 _ holdover p.before p.after hh2
  have hslice : ∀ i, i < out2.length →
      slice (p.after.getD i []) 0 (holdover.render.getD i []).length =
        holdover.render.getD i [] := by
    intro i hi
    exact in_place_at_start _ _ holdover p.before p.after hinp hb0 i (by rw [hb2]; exact hi)
  refine ⟨hb0, huse, ⟨p, hpm, hpe, hnone, hb2, hinp, hslice⟩, ?_, ?_⟩
  · intro honly i hi
    have hperm : ((work_trace heap s1 n2 out2).map Pass.eh).Perm [holdover] := by
      rw [hmap, ← honly]; exact w1
    obtain ⟨p1, hT, -⟩ := trace_single _ _ hperm
    rw [hT] at hpm tfin
    have hpp : p = p1 := List.mem_singleton.mp hpm
    subst hpp
    simp only [final_buffers] at tfin
    rw [← tfin]
    exact hslice i hi
  · intro i hi hl0 hfit
    rw [hsig]
    refine holdover_vector_length heap _ n _ eh holdover bufs bufs1 hoop i (by rw [hbl]; exact hi)
      hl0 ?_
    rw [← hsig]
    have hs0 : (0 : Int) ≤ ((s1.d_output_signature.getD i 0 : Nat) : Int) := Int.ofNat_nonneg _
    have := mul_le_mul_of_nonneg_right (le_of_lt hlt) hs0
    linarith

theorem holdover_replay_witness :
    work (fun _ => 0) (es_source.make [⟨40, 30, true, [List.replicate 30 7]⟩] [1]) 50
        [List.replicate 50 0] =
      .ok (⟨50, ULLONG_MAX, [⟨50, 20, true, [List.replicate 20 7]⟩], [1]⟩,
        [List.replicate 40 0 ++ List.replicate 10 7], 50) ∧
    work (fun _ => 0) ⟨50, ULLONG_MAX, [⟨50, 20, true, [List.replicate 20 7]⟩], [1]⟩ 50
        [List.replicate 50 9] =
      .ok (⟨100, ULLONG_MAX, [], [1]⟩, [List.replicate 20 7 ++ List.replicate 30 0], 50) ∧
    (⟨50, 20, true, [List.replicate 20 7]⟩ : es_eh_pair).time =
      (⟨50, ULLONG_MAX, [⟨50, 20, true, [List.replicate 20 7]⟩], [1]⟩ : es_source).d_time ∧
    slice (([List.replicate 20 7 ++ List.replicate 30 0] : List (List Nat)).getD 0 []) 0
        (((⟨50, 20, true, [List.replicate 20 7]⟩ : es_eh_pair).render.getD 0 []).length) =
      (⟨50, 20, true, [List.replicate 20 7]⟩ : es_eh_pair).render.getD 0 [] :=
  ⟨by rfl, by rfl,
    (holdover_replay (fun _ => 0) (es_source.make [⟨40, 30, true, [List.replicate 30 7]⟩] [1])
      ⟨50, ULLONG_MAX, [⟨50, 20, true, [List.replicate 20 7]⟩], [1]⟩ ⟨100, ULLONG_MAX, [], [1]⟩
      50 50 50 50 [List.replicate 50 0] [List.replicate 40 0 ++ List.replicate 10 7]
      [List.replicate 50 9] [List.replicate 20 7 ++ List.replicate 30 0]
      ⟨40, 30, true, [List.replicate 30 7]⟩ ⟨50, 20, true, [List.replicate 20 7]⟩
      (by decide) (by decide) (by decide) (by rfl) rfl
      (by rw [show work_passes (fun _ => 0)
            (es_source.make [⟨40, 30, true, [List.replicate 30 7]⟩] [1]) 50
            [List.replicate 50 0] =
          [(⟨40, 30, true, [List.replicate 30 7]⟩,
            some ⟨50, 20, true, [List.replicate 20 7]⟩)] from by rfl]
          exact List.mem_singleton.mpr rfl)
      (by decide) (by decide) (by decide) (by rfl)).2.1,
    ((holdover_replay (fun _ => 0) (es_source.make [⟨40, 30, true, [List.replicate 30 7]⟩] [1])
      ⟨50, ULLONG_MAX, [⟨50, 20, true, [List.replicate 20 7]⟩], [1]⟩ ⟨100, ULLONG_MAX, [], [1]⟩
      50 50 50 50 [List.replicate 50 0] [List.replicate 40 0 ++ List.replicate 10 7]
      [List.replicate 50 9] [List.replicate 20 7 ++ List.replicate 30 0]
      ⟨40, 30, true, [List.replicate 30 7]⟩ ⟨50, 20, true, [List.replicate 20 7]⟩
      (by decide) (by decide) (by decide) (by rfl) rfl
      (by rw [show work_passes (fun _ => 0)
            (es_source.make [⟨40, 30, true, [List.replicate 30 7]⟩] [1]) 50
            [List.replicate 50 0] =
          [(⟨40, 30, true, [List.replicate 30 7]⟩,
            some ⟨50, 20, true, [List.replicate 20 7]⟩)] from by rfl]
          exact List.mem_singleton.mpr rfl)
      (by decide) (by decide) (by decide) (by rfl)).2.2.2.2 (by decide)).2.2.2.1 (by rfl) 0
      (by decide)⟩

/-- C12 (event length invariant for holdovers), the code at the boundary: an event of the
window with length 10 that ends exactly at the end of a 10-item buffer is handled out of
place, `leftover_items` is 0, and `work` queues a hold-over event of length 0 at time 10. -/
theorem exact_fit_leaves_empty_holdover :
    in_window 0 (toU64 ((0 : Int) + 10)) ⟨0, 10, true, [[1, 2, 3, 4, 5, 6, 7, 8, 9, 10]]⟩ = true ∧
    handle_event (fun _ => 0) [1] 10 0 ⟨0, 10, true, [[1, 2, 3, 4, 5, 6, 7, 8, 9, 10]]⟩
        [List.replicate 10 0] =
      .ok ([[1, 2, 3, 4, 5, 6, 7, 8, 9, 10]], some ⟨10, 0, true, [[]]⟩) ∧
    leftover_items 10 0 ⟨0, 10, true, [[1, 2, 3, 4, 5, 6, 7, 8, 9, 10]]⟩ = 0 ∧
    (work (fun _ => 0) (es_source.make [⟨0, 10, true, [[1, 2, 3, 4, 5, 6, 7, 8, 9, 10]]⟩] [1]) 10
        [List.replicate 10 0]).map (fun r => r.1.event_queue) = .ok [⟨10, 0, true, [[]]⟩] := by
  refine ⟨by decide, by rfl, by decide, by rfl⟩

/-- C13 (fatal contract violation), the code on an event that precedes the cursor: with the
cursor at 10, an event at time 5 with an accepting handler has offset -5, passes the only
assertion of the loop body and takes the in-place branch; the result of the pass is what
`run()` does through the pointers bound 5 bytes before the output buffers, a store outside
the buffer, not the fatal assertion. -/
theorem preceding_event_is_dispatched :
    (⟨5, 2, true, [[7, 7]]⟩ : es_eh_pair).time < 10 ∧
    buffer_offset 10 ⟨5, 2, true, [[7, 7]]⟩ = -5 ∧
    use_inplace_buffer 10 10 ⟨5, 2, true, [[7, 7]]⟩ = true ∧
    handle_event (fun _ => 0) [1] 10 10 ⟨5, 2, true, [[7, 7]]⟩ [List.replicate 10 0] ≠
      .error .assert_accepter ∧
    handle_event (fun _ => 0) [1] 10 10 ⟨5, 2, true, [[7, 7]]⟩ [List.replicate 10 0] =
      (in_place [1] 10 ⟨5, 2, true, [[7, 7]]⟩ [List.replicate 10 0]).map (fun o => (o, none)) ∧
    in_place [1] 10 ⟨5, 2, true, [[7, 7]]⟩ [List.replicate 10 0] = .error .out_of_bounds := by
  refine ⟨by decide, by decide, by decide, ?_, by rfl, by rfl⟩
  intro h
  have := (handle_event_assert _ _ _ _ _ _).mp h
  cases this

/-- C13 as amended: the one fatal check of `work` is the assertion on the handler. A pass of
the loop body stops on it exactly when the event's handler is not an accepter, before any
buffer is bound or `run()` is called and whatever the event's offset; `work` stops on it only
if a queued event of the window has such a handler, and while one is queued in the window
`work` does not return. -/
theorem unbound_handler_is_fatal (heap : Nat → Nat) (s : es_source) (n : Int)
    (out : List (List Nat)) :
    (∀ (d_time : Nat) (eh : es_eh_pair) (bufs : List (List Nat)),
      handle_event heap s.d_output_signature n d_time eh bufs = .error .assert_accepter ↔
        eh.accepter = false) ∧
    (work heap s n out = .error .assert_accepter →
      ∃ e ∈ s.event_queue,
        in_window s.d_time (toU64 ((s.d_time : Int) + n)) e = true ∧ e.accepter = false) ∧
    ((∃ e ∈ s.event_queue,
        in_window s.d_time (toU64 ((s.d_time : Int) + n)) e = true ∧ e.accepter = false) →
      ∀ r, work heap s n out ≠ .ok r) := by
  refine ⟨fun d_time eh bufs => handle_event_assert heap _ n d_time eh bufs,
    work_assert heap s n out, ?_⟩
  rintro ⟨e, he, hw, ha⟩ r
  exact work_unbound heap s n out e he hw ha r

theorem unbound_handler_is_fatal_witness :
    work (fun _ => 0) (es_source.make [⟨3, 2, false, [[7, 7]]⟩] [1]) 10 [List.replicate 10 0] =
      .error .assert_accepter ∧
    ∃ e ∈ (es_source.make [⟨3, 2, false, [[7, 7]]⟩] [1]).event_queue,
      in_window (es_source.make [⟨3, 2, false, [[7, 7]]⟩] [1]).d_time
        (toU64 (((es_source.make [⟨3, 2, false, [[7, 7]]⟩] [1]).d_time : Int) + 10)) e = true ∧
      e.accepter = false :=
  ⟨by rfl, (unbound_handler_is_fatal (fun _ => 0) (es_source.make [⟨3, 2, false, [[7, 7]]⟩] [1])
    10 [List.replicate 10 0]).2.1 (by rfl)⟩

/-- C14 (unbounded default): a freshly constructed block has `time() = 0` and
`d_maxlen = 2^64 - 1`; a run of `work` calls on it with `0 < noutput_items`, whose requests add
up to at most `2^64 - 1`, and with no `set_max`, comes to its end, every call returns exactly
what was requested, and after each call (after every initial part of the run) `time()` is
the sum of the requests so far; `set_max` changes `d_maxlen` only, and `time()` is a read. -/
theorem unbounded_default (heap : Nat → Nat) (queue : List es_eh_pair) (out_sig : List Nat)
    (calls : List WorkCall)
    (hcalls : ∀ c ∈ calls, 0 < c.noutput_items ∧ c.noutput_items < 2147483648)
    (hsum : (calls.map (fun c => c.noutput_items)).sum ≤ ULLONG_MAX) :
    (es_source.make queue out_sig).time = 0 ∧
    (es_source.make queue out_sig).d_maxlen = 18446744073709551615 ∧
    work_calls heap (es_source.make queue out_sig) calls ≠ .error .unfinished ∧
    (∀ (s1 : es_source) (rets : List Int),
      work_calls heap (es_source.make queue out_sig) calls = .ok (s1, rets) →
        rets = calls.map (fun c => c.noutput_items) ∧
        (s1.time : Int) = (calls.map (fun c => c.noutput_items)).sum ∧
        ∀ pre post : List WorkCall, calls = pre ++ post →
          ∃ sp, work_calls heap (es_source.make queue out_sig) pre =
              .ok (sp, pre.map (fun c => c.noutput_items)) ∧
            (sp.time : Int) = (pre.map (fun c => c.noutput_items)).sum) ∧
    (∀ (s : es_source) (m : Nat), s.set_max m = { s with d_maxlen := m } ∧
      (s.set_max m).time = s.time) := by
  refine ⟨rfl, rfl, ?_, ?_, fun s m => ⟨rfl, rfl⟩⟩
  · exact work_calls_finishes heap calls _ (by simp [es_source.make, ULLONG_MAX]) hcalls
  · intro s1 rets h
    have h0 : ((es_source.make queue out_sig).d_time : Int) = 0 := rfl
    obtain ⟨ha, hb⟩ := work_calls_unclamped heap calls _ s1 rets rfl hcalls
      (by rw [h0, zero_add]; exact hsum) h
    rw [h0, zero_add] at hb
    refine ⟨ha, hb, ?_⟩
    intro pre post hpp
    subst hpp
    obtain ⟨sp, r1, r2, g1, -, -⟩ := work_calls_append heap pre post _ s1 rets h
    have hpre : ∀ c ∈ pre, 0 < c.noutput_items ∧ c.noutput_items < 2147483648 :=
      fun c hc => hcalls c (List.mem_append_left _ hc)
    have hpost := sum_requests_nonneg post (fun c hc => hcalls c (List.mem_append_right _ hc))
    rw [List.map_append, List.sum_append] at hsum
    obtain ⟨hc, hd⟩ := work_calls_unclamped heap pre _ sp r1 rfl hpre
      (by rw [h0, zero_add]; omega) g1
    rw [h0, zero_add] at hd
    exact ⟨sp, by rw [g1, hc], hd⟩

theorem unbounded_default_witness :
    work_calls (fun _ => 0) (es_source.make [⟨3, 2, true, [[7, 7]]⟩] [1])
        [⟨[], 4, [List.replicate 4 9]⟩, ⟨[], 6, [List.replicate 6 9]⟩] =
      .ok (⟨10, ULLONG_MAX, [], [1]⟩, [4, 6]) ∧
    ([4, 6] : List Int) =
      ([⟨[], 4, [List.replicate 4 9]⟩, ⟨[], 6, [List.replicate 6 9]⟩] : List WorkCall).map
        (fun c => c.noutput_items) ∧
    (((⟨10, ULLONG_MAX, [], [1]⟩ : es_source).time : Int) = 10) :=
  ⟨by rfl,
    ((unbounded_default (fun _ => 0) [⟨3, 2, true, [[7, 7]]⟩] [1]
      [⟨[], 4, [List.replicate 4 9]⟩, ⟨[], 6, [List.replicate 6 9]⟩] (by decide) (by decide)).2.2.2.1
      ⟨10, ULLONG_MAX, [], [1]⟩ [4, 6] (by rfl)).1,
    ((unbounded_default (fun _ => 0) [⟨3, 2, true, [[7, 7]]⟩] [1]
      [⟨[], 4, [List.replicate 4 9]⟩, ⟨[], 6, [List.replicate 6 9]⟩] (by decide) (by decide)).2.2.2.1
      ⟨10, ULLONG_MAX, [], [1]⟩ [4, 6] (by rfl)).2.1⟩

/-- C15 (split bounds), the code on a long event: an event of the window at the cursor with
length `2^32 + 60`, in a call for 50 items, takes the out-of-place branch with a temporary
buffer of 60 bytes; `usable_items` is 50 and `leftover_items` narrows to 10, so
`usable + leftover` is 60, not the length, and the hold-over event carries 10 samples. -/
theorem long_event_split_loses_samples :
    in_window 0 (toU64 ((0 : Int) + 50)) ⟨0, 4294967356, true, [[]]⟩ = true ∧
    use_inplace_buffer 50 0 ⟨0, 4294967356, true, [[]]⟩ = false ∧
    handle_event (fun _ => 0) [1] 50 0 ⟨0, 4294967356, true, [[]]⟩ [List.replicate 50 0] =
      .ok ([List.replicate 50 0], some ⟨50, 10, true, [List.replicate 10 0]⟩) ∧
    usable_items 50 0 ⟨0, 4294967356, true, [[]]⟩ = 50 ∧
    leftover_items 50 0 ⟨0, 4294967356, true, [[]]⟩ = 10 ∧
    usable_items 50 0 ⟨0, 4294967356, true, [[]]⟩ +
      leftover_items 50 0 ⟨0, 4294967356, true, [[]]⟩ ≠ (4294967356 : Nat) := by
  refine ⟨by decide, by decide, by rfl, by decide, by decide, by decide⟩

/-- C16 (termination of the retrieval pass): for `0 < noutput_items` and
`d_time + noutput_items <= 2^64 - 1` the fetch loop of `work` comes to its end on every
queue; when `work` returns, the loop has run once per queued event of the window
`[d_time, d_time + noutput_items)` (the events fetched are those events, each as often as it
was queued), and a hold-over event added by a pass starts at `d_time + noutput_items`, is
outside the window and is not among the events fetched. -/
theorem retrieval_pass_terminates (heap : Nat → Nat) (s : es_source) (n : Int)
    (out : List (List Nat)) (hn0 : 0 < n) (hn1 : n < 2147483648)
    (hnw : (s.d_time : Int) + n ≤ ULLONG_MAX) :
    work heap s n out ≠ .error .unfinished ∧
    (∀ e : es_eh_pair, in_window s.d_time (toU64 ((s.d_time : Int) + n)) e = true ↔
      s.d_time ≤ e.time ∧ (e.time : Int) < s.d_time + n) ∧
    ∀ (s1 : es_source) (out1 : List (List Nat)) (r : Int),
      work heap s n out = .ok (s1, out1, r) →
        ((work_passes heap s n out).map Prod.fst).Perm
          (s.event_queue.filter (in_window s.d_time (toU64 ((s.d_time : Int) + n)))) ∧
        (work_passes heap s n out).length =
          s.event_queue.countP (in_window s.d_time (toU64 ((s.d_time : Int) + n))) ∧
        ∀ p ∈ work_passes heap s n out, ∀ holdover, p.2 = some holdover →
          (holdover.time : Int) = s.d_time + n ∧
          in_window s.d_time (toU64 ((s.d_time : Int) + n)) holdover = false ∧
          holdover ∉ (work_passes heap s n out).map Prod.fst := by
  have ht : s.d_time ≤ ULLONG_MAX := by omega
  refine ⟨work_finishes heap s n out hn0 hn1 ht, fun e => in_window_iff n s.d_time e hn0 hnw, ?_⟩
  intro s1 out1 r h
  obtain ⟨p1, -, p3⟩ := work_passes_ok heap s s1 n r out out1 hn0 hn1 ht h
  refine ⟨p1, ?_, ?_⟩
  · rw [List.countP_eq_length_filter, ← p1.length_eq, List.length_map]
  · intro p hp holdover hho
    obtain ⟨hwin, bufs, bufs1, -, hh⟩ := p3 p hp
    rw [hho] at hh
    obtain ⟨-, hoop⟩ := handle_event_holdover heap _ n _ p.1 holdover bufs bufs1 hh
    have hout := holdover_outside_window heap _ n _ p.1 holdover bufs bufs1 hn0 hn1 ht hwin hoop
    refine ⟨(holdover_starts_at_window_end heap _ n _ p.1 holdover bufs bufs1 hn0 hn1 ht hwin
      hoop).1, hout, ?_⟩
    intro hmem
    have := (List.mem_filter.mp (p1.mem_iff.mp hmem)).2
    rw [hout] at this
    cases this

theorem retrieval_pass_terminates_witness :
    work (fun _ => 0)
        (es_source.make [⟨2, 3, true, [[7, 7, 7]]⟩, ⟨8, 5, true, [[1, 2, 3, 4, 5]]⟩,
          ⟨12, 1, true, [[9]]⟩] [1]) 10 [List.replicate 10 9] =
      .ok (⟨10, ULLONG_MAX, [⟨10, 3, true, [[3, 4, 5]]⟩, ⟨12, 1, true, [[9]]⟩], [1]⟩,
        [[0, 0, 7, 7, 7, 0, 0, 0, 1, 2]], 10) ∧
    work_passes (fun _ => 0)
        (es_source.make [⟨2, 3, true, [[7, 7, 7]]⟩, ⟨8, 5, true, [[1, 2, 3, 4, 5]]⟩,
          ⟨12, 1, true, [[9]]⟩] [1]) 10 [List.replicate 10 9] =
      [(⟨2, 3, true, [[7, 7, 7]]⟩, none),
        (⟨8, 5, true, [[1, 2, 3, 4, 5]]⟩, some ⟨10, 3, true, [[3, 4, 5]]⟩)] ∧
    (work_passes (fun _ => 0)
        (es_source.make [⟨2, 3, true, [[7, 7, 7]]⟩, ⟨8, 5, true, [[1, 2, 3, 4, 5]]⟩,
          ⟨12, 1, true, [[9]]⟩] [1]) 10 [List.replicate 10 9]).length =
      (es_source.make [⟨2, 3, true, [[7, 7, 7]]⟩, ⟨8, 5, true, [[1, 2, 3, 4, 5]]⟩,
          ⟨12, 1, true, [[9]]⟩] [1]).event_queue.countP
        (in_window (es_source.make [⟨2, 3, true, [[7, 7, 7]]⟩, ⟨8, 5, true, [[1, 2, 3, 4, 5]]⟩,
          ⟨12, 1, true, [[9]]⟩] [1]).d_time
          (toU64 (((es_source.make [⟨2, 3, true, [[7, 7, 7]]⟩, ⟨8, 5, true, [[1, 2, 3, 4, 5]]⟩,
            ⟨12, 1, true, [[9]]⟩] [1]).d_time : Int) + 10))) :=
  ⟨by rfl, by rfl,
    ((retrieval_pass_terminates (fun _ => 0)
      (es_source.make [⟨2, 3, true, [[7, 7, 7]]⟩, ⟨8, 5, true, [[1, 2, 3, 4, 5]]⟩,
        ⟨12, 1, true, [[9]]⟩] [1]) 10 [List.replicate 10 9] (by decide) (by decide)
      (by decide)).2.2
      ⟨10, ULLONG_MAX, [⟨10, 3, true, [[3, 4, 5]]⟩, ⟨12, 1, true, [[9]]⟩], [1]⟩
      [[0, 0, 7, 7, 7, 0, 0, 0, 1, 2]] 10 (by rfl)).2.1⟩

/-- C17 (queue effect), the code at the end of the 64-bit time line: with the cursor at
`2^64 - 3`, the event at time `2^64 - 2` lies inside `[cursor, cursor + 10)`, but the upper
bound of the window that `work(10)` computes wraps to 7; the event is not fetched, `work`
returns and the event is still in the queue. -/
theorem event_at_wrap_stays_queued :
    (18446744073709551613 ≤ (⟨18446744073709551614, 1, true, [[7]]⟩ : es_eh_pair).time ∧
      (((⟨18446744073709551614, 1, true, [[7]]⟩ : es_eh_pair).time : Nat) : Int) <
        ((18446744073709551613 : Nat) : Int) + 10) ∧
    toU64 (((18446744073709551613 : Nat) : Int) + 10) = 7 ∧
    work (fun _ => 0)
        ⟨18446744073709551613, ULLONG_MAX, [⟨18446744073709551614, 1, true, [[7]]⟩], [1]⟩ 10
        [List.replicate 10 9] =
      .ok (⟨18446744073709551615, ULLONG_MAX, [⟨18446744073709551614, 1, true, [[7]]⟩], [1]⟩,
        [List.replicate 10 0], 2) := by
  refine ⟨by decide, by decide, by rfl⟩

/-- C17 as amended: after a returning `work(noutput_items)` with `0 < noutput_items` and
`d_time + noutput_items <= 2^64 - 1`, the queue holds exactly the events that were queued
before the call with time outside `[d_time, d_time + noutput_items)`, unchanged, and the
hold-over events of the passes, one for each event of the window that was handled out of
place and none for an event handled in place; the events fetched are the queued events of
the window, and no event of the window is left in the queue. -/
theorem queue_effect (heap : Nat → Nat) (s s1 : es_source) (n r : Int)
    (out out1 : List (List Nat)) (hn0 : 0 < n) (hn1 : n < 2147483648)
    (hnw : (s.d_time : Int) + n ≤ ULLONG_MAX) (h : work heap s n out = .ok (s1, out1, r)) :
    s1.event_queue.Perm
      (s.event_queue.filter
          (fun e => !decide (s.d_time ≤ e.time ∧ (e.time : Int) < s.d_time + n)) ++
        (work_passes heap s n out).filterMap Prod.snd) ∧
    ((work_passes heap s n out).map Prod.fst).Perm
      (s.event_queue.filter
        (fun e => decide (s.d_time ≤ e.time ∧ (e.time : Int) < s.d_time + n))) ∧
    (∀ p ∈ work_passes heap s n out,
      (p.2 = none ↔ use_inplace_buffer n s.d_time p.1 = true)) ∧
    (∀ e ∈ s1.event_queue, ¬ (s.d_time ≤ e.time ∧ (e.time : Int) < s.d_time + n)) := by
  have ht : s.d_time ≤ ULLONG_MAX := by omega
  obtain ⟨p1, p2, p3⟩ := work_passes_ok heap s s1 n r out out1 hn0 hn1 ht h
  obtain ⟨zeroed, -, hl⟩ := work_ok heap s s1 n r out out1 h
  have hdr := fetch_loop_drained heap _ n _ _ _ _ _ _ _ hl
  rw [in_window_eq_interval n s.d_time hn0 hnw] at p1 p2 hdr
  refine ⟨p2, p1, ?_, ?_⟩
  · intro p hp
    obtain ⟨-, bufs, bufs1, -, hh⟩ := p3 p hp
    exact pass_holdover_none heap _ n _ p.1 p.2 bufs bufs1 hh
  · intro e he
    have := hdr e he
    simpa using this

theorem queue_effect_witness :
    (⟨10, ULLONG_MAX, [⟨10, 3, true, [[3, 4, 5]]⟩, ⟨12, 1, true, [[9]]⟩], [1]⟩ :
        es_source).event_queue.Perm
      ((es_source.make [⟨2, 3, true, [[7, 7, 7]]⟩, ⟨8, 5, true, [[1, 2, 3, 4, 5]]⟩,
          ⟨12, 1, true, [[9]]⟩] [1]).event_queue.filter
        (fun e => !decide ((es_source.make [⟨2, 3, true, [[7, 7, 7]]⟩,
          ⟨8, 5, true, [[1, 2, 3, 4, 5]]⟩, ⟨12, 1, true, [[9]]⟩] [1]).d_time ≤ e.time ∧
          (e.time : Int) < (es_source.make [⟨2, 3, true, [[7, 7, 7]]⟩,
            ⟨8, 5, true, [[1, 2, 3, 4, 5]]⟩, ⟨12, 1, true, [[9]]⟩] [1]).d_time + 10)) ++
        (work_passes (fun _ => 0) (es_source.make [⟨2, 3, true, [[7, 7, 7]]⟩,
          ⟨8, 5, true, [[1, 2, 3, 4, 5]]⟩, ⟨12, 1, true, [[9]]⟩] [1]) 10
          [List.replicate 10 9]).filterMap Prod.snd) :=
  (queue_effect (fun _ => 0)
    (es_source.make [⟨2, 3, true, [[7, 7, 7]]⟩, ⟨8, 5, true, [[1, 2, 3, 4, 5]]⟩,
      ⟨12, 1, true, [[9]]⟩] [1])
    ⟨10, ULLONG_MAX, [⟨10, 3, true, [[3, 4, 5]]⟩, ⟨12, 1, true, [[9]]⟩], [1]⟩ 10 10
    [List.replicate 10 9] [[0, 0, 7, 7, 7, 0, 0, 0, 1, 2]] (by decide) (by decide) (by decide)
    (by rfl)).1

/-- C18 (budget invariant): `work` with `0 < noutput_items` keeps `d_time <= d_maxlen`, whatever
the queue holds; and for a freshly constructed block whose cap is set once to `M` before the
first call, after any run of `work` calls `time()` is the sum of the returned counts, and
that sum is at most `M`. -/
theorem budget_invariant (heap : Nat → Nat) :
    (∀ (s s1 : es_source) (n r : Int) (out out1 : List (List Nat)),
      0 < n → n < 2147483648 → s.d_time ≤ s.d_maxlen → s.d_maxlen ≤ ULLONG_MAX →
      work heap s n out = .ok (s1, out1, r) → s1.d_time ≤ s1.d_maxlen) ∧
    (∀ (queue : List es_eh_pair) (out_sig : List Nat) (M : Nat) (calls : List WorkCall)
      (s1 : es_source) (rets : List Int), M ≤ ULLONG_MAX →
      (∀ c ∈ calls, 0 < c.noutput_items ∧ c.noutput_items < 2147483648) →
      work_calls heap ((es_source.make queue out_sig).set_max M) calls = .ok (s1, rets) →
      (s1.time : Int) = rets.sum ∧ rets.sum ≤ M) := by
  constructor
  · intro s s1 n r out out1 hn0 hn1 hle hmax h
    obtain ⟨hr, ht, hm, -⟩ := work_ret heap s s1 n r out out1 h
    rw [produced_eq_min n s.d_maxlen s.d_time hn0 hn1 hle hmax] at hr
    have : (s1.d_time : Int) = s.d_time + r := by
      rw [ht]; unfold ULLONG_MAX at hmax; apply toU64_of_range <;> omega
    rw [hm]; omega
  · intro queue out_sig M calls s1 rets hM hcalls h
    obtain ⟨ha, hb, -⟩ := work_calls_budget heap calls _ s1 rets
      (by simp [es_source.make, es_source.set_max]) hM hcalls h
    have h0 : (((es_source.make queue out_sig).set_max M).d_time : Int) = 0 := rfl
    have hM2 : ((es_source.make queue out_sig).set_max M).d_maxlen = M := rfl
    rw [h0, zero_add] at ha
    rw [hM2] at hb
    refine ⟨ha, ?_⟩
    rw [← ha]
    exact_mod_cast hb

theorem budget_invariant_witness :
    work_calls (fun _ => 0) ((es_source.make [⟨3, 2, true, [[7, 7]]⟩] [1]).set_max 7)
        [⟨[], 4, [List.replicate 4 9]⟩, ⟨[], 6, [List.replicate 6 9]⟩,
          ⟨[], 5, [List.replicate 5 9]⟩] =
      .ok (⟨7, 7, [], [1]⟩, [4, 3, 0]) ∧
    (((⟨7, 7, [], [1]⟩ : es_source).time : Int) = ([4, 3, 0] : List Int).sum) ∧
    ([4, 3, 0] : List Int).sum ≤ (7 : Nat) :=
  ⟨by rfl, (budget_invariant (fun _ => 0)).2 [⟨3, 2, true, [[7, 7]]⟩] [1] 7
    [⟨[], 4, [List.replicate 4 9]⟩, ⟨[], 6, [List.replicate 6 9]⟩, ⟨[], 5, [List.replicate 5 9]⟩]
    ⟨7, 7, [], [1]⟩ [4, 3, 0] (by decide) (by decide) (by rfl)⟩

/-- C19 (cap independence of rendering), the code at the end of the 64-bit time line: with
`d_time == d_maxlen == 2^64 - 1`, the event at time `2^64 - 1` lies inside
`[cursor, cursor + 10)`, but the upper bound of the window that `work(10)` computes wraps to 9;
`work` returns 0, the event is still in the queue and the output is all zero: the event was
neither removed nor rendered. -/
theorem event_at_cap_and_wrap_not_rendered :
    (⟨18446744073709551615, 18446744073709551615,
      [⟨18446744073709551615, 2, true, [[7, 7]]⟩], [1]⟩ : es_source).d_time =
      (⟨18446744073709551615, 18446744073709551615,
        [⟨18446744073709551615, 2, true, [[7, 7]]⟩], [1]⟩ : es_source).d_maxlen ∧
    (18446744073709551615 ≤ (⟨18446744073709551615, 2, true, [[7, 7]]⟩ : es_eh_pair).time ∧
      (((⟨18446744073709551615, 2, true, [[7, 7]]⟩ : es_eh_pair).time : Nat) : Int) <
        ((18446744073709551615 : Nat) : Int) + 10) ∧
    toU64 (((18446744073709551615 : Nat) : Int) + 10) = 9 ∧
    work (fun _ => 0)
        ⟨18446744073709551615, 18446744073709551615,
          [⟨18446744073709551615, 2, true, [[7, 7]]⟩], [1]⟩ 10 [List.replicate 10 9] =
      .ok (⟨18446744073709551615, 18446744073709551615,
          [⟨18446744073709551615, 2, true, [[7, 7]]⟩], [1]⟩, [List.replicate 10 0], 0) := by
  refine ⟨rfl, by decide, by decide, by rfl⟩

/-- C19 as amended: two calls of `work` on blocks that agree on the cursor, the queue and the
output signature, with the same `noutput_items` and buffers, but with different `d_maxlen`,
stop on the same fault or return with the same output buffers and the same queue. In
particular a returning call with `d_time + noutput_items <= 2^64 - 1`, also one at
`d_time == d_maxlen` that returns 0, removes every event of
`[d_time, d_time + noutput_items)` from the queue and renders it: the loop body runs once on
each of these events, the first pass on the zeroed buffers and each other on the buffers the
pass before it left, the buffers handed back are those the last pass left, and on a channel
whose requested byte count fits the `int` a pass in place leaves the bytes the handler stored
from the event's byte offset, a pass out of place the `usable` first items of them. -/
theorem cap_independent_rendering (heap : Nat → Nat) (s t : es_source) (n : Int)
    (out : List (List Nat)) (h1 : s.d_time = t.d_time) (h2 : s.event_queue = t.event_queue)
    (h3 : s.d_output_signature = t.d_output_signature) :
    (work heap s n out).map (fun r => (r.1.event_queue, r.2.1)) =
      (work heap t n out).map (fun r => (r.1.event_queue, r.2.1)) ∧
    (∀ (s1 : es_source) (out1 : List (List Nat)) (r : Int),
      0 < n → n < 2147483648 → (s.d_time : Int) + n ≤ ULLONG_MAX →
      work heap s n out = .ok (s1, out1, r) →
        (s.d_time = s.d_maxlen → r = 0) ∧
        (∀ e ∈ s1.event_queue, ¬ (s.d_time ≤ e.time ∧ (e.time : Int) < s.d_time + n)) ∧
        ((work_trace heap s n out).map Pass.eh).Perm
          (s.event_queue.filter
            (fun e => decide (s.d_time ≤ e.time ∧ (e.time : Int) < s.d_time + n))) ∧
        (∃ zeroed, forChannels
            (fun i b => memset b (toInt32 (n * sizeof_stream_item s.d_output_signature i)))
            0 out = .ok zeroed ∧
          chained zeroed (work_trace heap s n out) = true ∧
          final_buffers zeroed (work_trace heap s n out) = out1) ∧
        ∀ p ∈ work_trace heap s n out,
          handle_event heap s.d_output_signature n s.d_time p.eh p.before =
            .ok (p.after, p.holdover) ∧
          ∀ i, i < out.length →
            n * ((s.d_output_signature.getD i 0 : Nat) : Int) < 2147483648 →
            (p.holdover = none →
              slice (p.after.getD i []) ((p.eh.time - s.d_time) * s.d_output_signature.getD i 0)
                (p.eh.render.getD i []).length = p.eh.render.getD i []) ∧
            (∀ holdover, p.holdover = some holdover →
              (p.eh.render.getD i []).length = p.eh.length * s.d_output_signature.getD i 0 →
              slice (p.after.getD i []) ((p.eh.time - s.d_time) * s.d_output_signature.getD i 0)
                ((n.toNat - (p.eh.time - s.d_time)) * s.d_output_signature.getD i 0) ++
                  holdover.render.getD i [] = p.eh.render.getD i [])) := by
  constructor
  · have : s = t.set_max s.d_maxlen := by
      cases s; cases t
      simp only [es_source.set_max] at *
      subst h1; subst h2; subst h3
      rfl
    rw [this]
    exact work_set_max heap t n out s.d_maxlen
  · intro s1 out1 r hn0 hn1 hnw h
    have ht : s.d_time ≤ ULLONG_MAX := by omega
    obtain ⟨zeroed, -, hl⟩ := work_ok heap s s1 n r out out1 h
    have hdr := fetch_loop_drained heap _ n _ _ _ _ _ _ _ hl
    obtain ⟨p1, -, -⟩ := work_passes_ok heap s s1 n r out out1 hn0 hn1 ht h
    obtain ⟨t1, t2, t3⟩ := work_trace_ok heap s s1 n r out out1 h
    have hmap : (work_trace heap s n out).map Pass.eh =
        (work_passes heap s n out).map Prod.fst := by
      rw [← t1, List.map_map]; rfl
    rw [in_window_eq_interval n s.d_time hn0 hnw] at p1 hdr
    refine ⟨?_, ?_, by rw [hmap]; exact p1, t2, ?_⟩
    · intro hcap
      obtain ⟨hr, -, -, -⟩ := work_ret heap s s1 n r out out1 h
      rw [hr, ← hcap, produced_at_cap]
    · intro e he
      have := hdr e he
      simpa using this
    · intro p hp
      obtain ⟨hh, hlen, hwin⟩ := t3 p hp
      refine ⟨hh, ?_⟩
      intro i hi hfit
      constructor
      · intro hnone
        rw [hnone] at hh
        obtain ⟨-, hinp⟩ := handle_event_in_place heap _ n _ p.eh p.before p.after hh
        exact in_place_render_exact _ n _ p.eh p.before p.after hinp hn0 hn1 ht hwin i
          (by rw [hlen]; exact hi) hfit
      · intro holdover hsome hfull
        rw [hsome] at hh
        obtain ⟨-, hoop⟩ := handle_event_holdover heap _ n _ p.eh holdover p.before p.after hh
        obtain ⟨g1, -, -, -⟩ := out_of_place_round_trip heap _ n _ p.eh holdover p.before
          p.after hn0 hn1 ht hwin hoop i (by rw [hlen]; exact hi) hfit hfull
        obtain ⟨w1, w2, -⟩ := window_exact n s.d_time p.eh hn0 hn1 ht hwin
        obtain ⟨hb, hu⟩ := window_offsets_toNat n s.d_time p.eh hn1 w1 w2
        rw [hb, hu] at g1
        exact g1

theorem cap_independent_rendering_witness :
    work (fun _ => 0) ⟨80, 80, [⟨82, 3, true, [[7, 7, 7]]⟩, ⟨95, 1, true, [[5]]⟩], [1]⟩ 10
        [List.replicate 10 9] =
      .ok (⟨80, 80, [⟨95, 1, true, [[5]]⟩], [1]⟩, [[0, 0, 7, 7, 7, 0, 0, 0, 0, 0]], 0) ∧
    work (fun _ => 0) ⟨80, ULLONG_MAX, [⟨82, 3, true, [[7, 7, 7]]⟩, ⟨95, 1, true, [[5]]⟩], [1]⟩ 10
        [List.replicate 10 9] =
      .ok (⟨90, ULLONG_MAX, [⟨95, 1, true, [[5]]⟩], [1]⟩, [[0, 0, 7, 7, 7, 0, 0, 0, 0, 0]], 10) ∧
    (work (fun _ => 0) ⟨80, 80, [⟨82, 3, true, [[7, 7, 7]]⟩, ⟨95, 1, true, [[5]]⟩], [1]⟩ 10
        [List.replicate 10 9]).map (fun r => (r.1.event_queue, r.2.1)) =
      (work (fun _ => 0) ⟨80, ULLONG_MAX, [⟨82, 3, true, [[7, 7, 7]]⟩, ⟨95, 1, true, [[5]]⟩], [1]⟩
        10 [List.replicate 10 9]).map (fun r => (r.1.event_queue, r.2.1)) ∧
    slice (([[0, 0, 7, 7, 7, 0, 0, 0, 0, 0]] : List (List Nat)).getD 0 []) ((82 - 80) * 1) 3 =
      [7, 7, 7] :=
  ⟨by rfl, by rfl,
    (cap_independent_rendering (fun _ => 0)
      ⟨80, 80, [⟨82, 3, true, [[7, 7, 7]]⟩, ⟨95, 1, true, [[5]]⟩], [1]⟩
      ⟨80, ULLONG_MAX, [⟨82, 3, true, [[7, 7, 7]]⟩, ⟨95, 1, true, [[5]]⟩], [1]⟩ 10
      [List.replicate 10 9] rfl rfl rfl).1,
    ((((cap_independent_rendering (fun _ => 0)
      ⟨80, 80, [⟨82, 3, true, [[7, 7, 7]]⟩, ⟨95, 1, true, [[5]]⟩], [1]⟩
      ⟨80, ULLONG_MAX, [⟨82, 3, true, [[7, 7, 7]]⟩, ⟨95, 1, true, [[5]]⟩], [1]⟩ 10
      [List.replicate 10 9] rfl rfl rfl).2
      ⟨80, 80, [⟨95, 1, true, [[5]]⟩], [1]⟩ [[0, 0, 7, 7, 7, 0, 0, 0, 0, 0]] 0
      (by decide) (by decide) (by decide) (by rfl)).2.2.2.2
      ⟨⟨82, 3, true, [[7, 7, 7]]⟩, [List.replicate 10 0], [[0, 0, 7, 7, 7, 0, 0, 0, 0, 0]], none⟩
      (by rw [show work_trace (fun _ => 0)
            ⟨80, 80, [⟨82, 3, true, [[7, 7, 7]]⟩, ⟨95, 1, true, [[5]]⟩], [1]⟩ 10
            [List.replicate 10 9] =
          [⟨⟨82, 3, true, [[7, 7, 7]]⟩, [List.replicate 10 0],
            [[0, 0, 7, 7, 7, 0, 0, 0, 0, 0]], none⟩] from by rfl]
          exact List.mem_singleton.mpr rfl)).2 0 (by decide) (by decide)).1 rfl⟩

end EsSource
